import Mathlib

/-!
Shallow embedding of the five-stage tabular feature-engineering pipeline
(`src/derive_computed_columns.py`, `src/encode_categorical_features.py`,
`src/bin_numeric_ranges.py`, `src/time_based_feature_extraction.py`,
`src/flag_anomalies_column.py`).

Modelling conventions:
* pandas float cells are modelled exactly over `ℚ`, with the IEEE special
  values `±∞` and NaN represented explicitly (`ENum`); float rounding error
  is idealised away, but the IEEE rules for division by zero and for
  arithmetic and comparisons involving `∞`/NaN are kept.
* A pandas NaN cell in a float column and a missing cell are the same thing
  (`Cell.na`), exactly as in pandas.
* `Series.round(n)` is numpy round-half-even at `n` decimals (`roundQ`).
* A `DataFrame` is an ordered list of named, dtype-tagged columns
  (`Table`); `df[c] = s` replaces the column in place when the name exists
  and appends it otherwise (`Table.setCol`), as in pandas.
-/

/-- Extended numeric value of a pandas float cell: an exact rational, one of
the IEEE infinities, or NaN (which pandas also uses for "missing"). -/
inductive ENum where
  | nan
  | pinf
  | ninf
  | fin (q : ℚ)
deriving DecidableEq, Repr

namespace ENum

/-- IEEE negation. -/
def neg : ENum → ENum
  | nan => nan
  | pinf => ninf
  | ninf => pinf
  | fin q => fin (-q)

/-- IEEE addition (exact on rationals; `∞ + (-∞) = NaN`). -/
def add : ENum → ENum → ENum
  | nan, _ => nan
  | _, nan => nan
  | pinf, ninf => nan
  | ninf, pinf => nan
  | pinf, _ => pinf
  | _, pinf => pinf
  | ninf, _ => ninf
  | _, ninf => ninf
  | fin a, fin b => fin (a + b)

/-- IEEE subtraction. -/
def sub (a b : ENum) : ENum := add a (neg b)

/-- IEEE multiplication (`∞ * 0 = NaN`, sign rules for infinities). -/
def mul : ENum → ENum → ENum
  | nan, _ => nan
  | _, nan => nan
  | pinf, pinf => pinf
  | pinf, ninf => ninf
  | ninf, pinf => ninf
  | ninf, ninf => pinf
  | pinf, fin b => if b = 0 then nan else if 0 < b then pinf else ninf
  | ninf, fin b => if b = 0 then nan else if 0 < b then ninf else pinf
  | fin a, pinf => if a = 0 then nan else if 0 < a then pinf else ninf
  | fin a, ninf => if a = 0 then nan else if 0 < a then ninf else pinf
  | fin a, fin b => fin (a * b)

/-- IEEE division: `x / 0` is `NaN` when `x = 0` and a signed infinity
otherwise (this is what numpy/pandas produce for float division by zero);
finite `/ ∞` is `0`; `∞ / ∞` is NaN. -/
def div : ENum → ENum → ENum
  | nan, _ => nan
  | _, nan => nan
  | pinf, pinf => nan
  | pinf, ninf => nan
  | ninf, pinf => nan
  | ninf, ninf => nan
  | pinf, fin b => if 0 ≤ b then pinf else ninf
  | ninf, fin b => if 0 ≤ b then ninf else pinf
  | fin _, pinf => fin 0
  | fin _, ninf => fin 0
  | fin a, fin b =>
      if b = 0 then (if a = 0 then nan else if 0 < a then pinf else ninf)
      else fin (a / b)

/-- IEEE strict less-than as a Bool: every comparison with NaN is `false`. -/
def ltB : ENum → ENum → Bool
  | nan, _ => false
  | _, nan => false
  | ninf, ninf => false
  | ninf, _ => true
  | pinf, _ => false
  | fin _, ninf => false
  | fin _, pinf => true
  | fin a, fin b => decide (a < b)

/-- IEEE non-strict less-or-equal as a Bool: `false` whenever NaN is involved. -/
def leB : ENum → ENum → Bool
  | nan, _ => false
  | _, nan => false
  | ninf, _ => true
  | pinf, pinf => true
  | pinf, _ => false
  | fin _, ninf => false
  | fin _, pinf => true
  | fin a, fin b => decide (a ≤ b)

end ENum

/-- Floor of a rational, written so that the kernel can evaluate it
(`x.num / x.den` with Euclidean integer division equals `⌊x⌋`). -/
def ratFloor (x : ℚ) : ℤ := x.num / (x.den : ℤ)

/-- Round a rational to the nearest integer, ties to even (numpy/pandas
`round` semantics, idealised to exact rationals). -/
def roundHalfEven (x : ℚ) : ℤ :=
  let f := ratFloor x
  let r := x - f
  if r < 1/2 then f
  else if 1/2 < r then f + 1
  else if f % 2 = 0 then f else f + 1

/-- `Series.round(dp)`: round-half-even at `dp` decimal places. -/
def roundQ (dp : ℕ) (x : ℚ) : ℚ := (roundHalfEven (x * 10 ^ dp) : ℚ) / 10 ^ dp

/-- `round(dp)` lifted to extended numbers: NaN and `±∞` are fixed points
(as in numpy). -/
def roundEN (dp : ℕ) : ENum → ENum
  | .fin q => .fin (roundQ dp q)
  | e => e

/-- One cell of a table.  `na` is pandas NaN/NaT/missing; `num` a finite
float (exact rational); `pinf`/`ninf` the IEEE infinities; `str` text;
`ts` a timestamp as whole days since 1970-01-01; `bool` a boolean
(`pd.get_dummies` output); `iv lo hi` a `pd.Interval` category label
(produced by equal-width `pd.cut`). -/
inductive Cell where
  | na
  | num (q : ℚ)
  | pinf
  | ninf
  | str (s : String)
  | ts (d : ℤ)
  | bool (b : Bool)
  | iv (lo hi : ℚ)
deriving DecidableEq, Repr

namespace Cell

/-- View a cell as an extended float, the way a pandas float-column
operation would see it (non-numeric contents behave as NaN; the pipeline
only applies arithmetic to numeric columns). -/
def toEN : Cell → ENum
  | na => .nan
  | num q => .fin q
  | pinf => .pinf
  | ninf => .ninf
  | _ => .nan

/-- The finite rational value of a cell, if it has one. -/
def asQ : Cell → Option ℚ
  | num q => some q
  | _ => none

end Cell

/-- Store an extended float back into a cell (NaN becomes the missing cell,
exactly as in pandas float columns). -/
def ENum.toCell : ENum → Cell
  | nan => .na
  | pinf => .pinf
  | ninf => .ninf
  | fin q => .num q

/-- Column dtype, as far as the pipeline's `select_dtypes`/dispatch logic
distinguishes them: `float` covers the numeric dtypes (`np.number`),
`obj` is `object` (text), `cat` is `pd.cut`/`qcut` categorical output,
`datetime` is `to_datetime` output, `boolean` is `get_dummies` output
(bool, which `select_dtypes(include=[np.number])` does not select). -/
inductive DType where
  | float
  | obj
  | cat
  | datetime
  | boolean
deriving DecidableEq, Repr

/-- A named, dtype-tagged column. -/
structure Col where
  name : String
  dtype : DType
  cells : List Cell
deriving DecidableEq, Repr

/-- A DataFrame: an ordered list of named columns. -/
structure Table where
  cols : List Col
deriving DecidableEq, Repr

namespace Table

/-- `df[n]`: the first column named `n`. -/
def getCol (t : Table) (n : String) : Option Col :=
  t.cols.find? (fun c => c.name == n)

/-- `n in df.columns`. -/
def hasCol (t : Table) (n : String) : Bool :=
  t.cols.any (fun c => c.name == n)

/-- `df[n] = s`: replace the column in place if the name exists, else
append it at the end. -/
def setCol (t : Table) (n : String) (dt : DType) (cs : List Cell) : Table :=
  if t.hasCol n then
    ⟨t.cols.map fun c => if c.name == n then ⟨n, dt, cs⟩ else c⟩
  else
    ⟨t.cols ++ [⟨n, dt, cs⟩]⟩

/-- Column names, in table order. -/
def names (t : Table) : List String := t.cols.map (·.name)

/-- The value of column `n` at row `i`. -/
def cellAt (t : Table) (n : String) (i : ℕ) : Option Cell :=
  (t.getCol n).bind (fun c => c.cells.get? i)

/-- Every column has exactly `n` rows. -/
def Wf (t : Table) (n : ℕ) : Prop := ∀ c ∈ t.cols, c.cells.length = n

end Table

/-! ### Stage 1: `derive_computed_columns` -/

/-- Elementwise binary arithmetic between two float columns. -/
def map2EN (f : ENum → ENum → ENum) (a b : List Cell) : List Cell :=
  List.zipWith (fun x y => (f x.toEN y.toEN).toCell) a b

/-- Elementwise unary arithmetic on a float column. -/
def map1EN (f : ENum → ENum) (a : List Cell) : List Cell :=
  a.map (fun x => (f x.toEN).toCell)

/-- One conditional derived-column rule of stage 1: if both inputs are
present, append/overwrite `out` with the elementwise combination. -/
def dcStep (t : Table) (c1 c2 out : String) (f : ENum → ENum → ENum) : Table :=
  match t.getCol c1, t.getCol c2 with
  | some a, some b => t.setCol out .float (map2EN f a.cells b.cells)
  | _, _ => t

/-- The unary variant (used for `age_squared`). -/
def dcStep1 (t : Table) (c out : String) (f : ENum → ENum) : Table :=
  match t.getCol c with
  | some a => t.setCol out .float (map1EN f a.cells)
  | none => t

/-- `derive_computed_columns` (stage 1), rule for rule from the source:
total cost, discount amount, final price, price per rating, income/purchase
ratio, age squared, spending power index. -/
def derive_computed_columns (t : Table) : Table :=
  let t1 := dcStep t "purchase_amount" "shipping_cost" "total_cost"
    (fun a b => a.add b)
  let t2 := dcStep t1 "purchase_amount" "discount_percent" "discount_amount"
    (fun a d => roundEN 2 ((a.mul d).div (.fin 100)))
  let t3 := dcStep t2 "total_cost" "discount_amount" "final_price"
    (fun tc da => roundEN 2 (tc.sub da))
  let t4 := dcStep t3 "final_price" "rating" "price_per_rating"
    (fun fp r => roundEN 2 (fp.div r))
  let t5 := dcStep t4 "income" "purchase_amount" "income_purchase_ratio"
    (fun inc pa => roundEN 2 ((pa.div inc).mul (.fin 100)))
  let t6 := dcStep1 t5 "age" "age_squared" (fun x => x.mul x)
  dcStep t6 "income" "age" "spending_power_index"
    (fun inc age => roundEN 2 ((inc.div (.fin 1000)).div age))

/-! ### Basic table lemmas -/

theorem findReplace_self (cols : List Col) (n : String) (dt : DType) (cs : List Cell)
    (h : cols.any (fun c => c.name == n) = true) :
    (cols.map fun c => if c.name == n then ⟨n, dt, cs⟩ else c).find?
      (fun c => c.name == n) = some ⟨n, dt, cs⟩ := by
  induction cols with
  | nil => simp at h
  | cons c rest ih =>
      by_cases hc : c.name = n
      · have hb : (c.name == n) = true := by simp [hc]
        rw [List.map_cons, if_pos hb]
        exact List.find?_cons_of_pos (p := fun c : Col => c.name == n)
          (a := ⟨n, dt, cs⟩) _ (by simp)
      · have hb : ¬ ((c.name == n) = true) := by simp [hc]
        rw [List.map_cons, if_neg hb,
          List.find?_cons_of_neg (p := fun c : Col => c.name == n) _ hb]
        apply ih
        rw [List.any_cons, Bool.or_eq_true] at h
        rcases h with h | h
        · exact absurd h hb
        · exact h

theorem findReplace_ne (cols : List Col) {m n : String} (h : m ≠ n)
    (dt : DType) (cs : List Cell) :
    (cols.map fun c => if c.name == n then ⟨n, dt, cs⟩ else c).find?
      (fun c => c.name == m) = cols.find? (fun c => c.name == m) := by
  induction cols with
  | nil => simp
  | cons c rest ih =>
      by_cases hc : c.name = n
      · have hb : (c.name == n) = true := by simp [hc]
        rw [List.map_cons, if_pos hb,
          List.find?_cons_of_neg _ (p := fun c : Col => c.name == m) (by simp [Ne.symm h]),
          List.find?_cons_of_neg _ (p := fun c : Col => c.name == m) (by simp [hc, Ne.symm h])]
        exact ih
      · have hb : ¬ ((c.name == n) = true) := by simp [hc]
        rw [List.map_cons, if_neg hb]
        by_cases hm : c.name = m
        · rw [List.find?_cons_of_pos (p := fun c : Col => c.name == m) _ (by simp [hm]),
            List.find?_cons_of_pos (p := fun c : Col => c.name == m) _ (by simp [hm])]
        · rw [List.find?_cons_of_neg (p := fun c : Col => c.name == m) _ (by simp [hm]),
            List.find?_cons_of_neg (p := fun c : Col => c.name == m) _ (by simp [hm])]
          exact ih

theorem findAppendOne_self (cols : List Col) (n : String) (dt : DType) (cs : List Cell)
    (h : cols.any (fun c => c.name == n) = false) :
    (cols ++ [(⟨n, dt, cs⟩ : Col)]).find? (fun c => c.name == n) = some ⟨n, dt, cs⟩ := by
  induction cols with
  | nil =>
      rw [List.nil_append]
      exact List.find?_cons_of_pos (p := fun c : Col => c.name == n)
        (a := ⟨n, dt, cs⟩) _ (by simp)
  | cons c rest ih =>
      rw [List.any_cons, Bool.or_eq_false_iff] at h
      rw [List.cons_append,
        List.find?_cons_of_neg (p := fun c : Col => c.name == n) _ (by simp [h.1])]
      exact ih h.2

theorem findAppendOne_ne (cols : List Col) {m n : String} (h : m ≠ n)
    (dt : DType) (cs : List Cell) :
    (cols ++ [(⟨n, dt, cs⟩ : Col)]).find? (fun c => c.name == m) =
      cols.find? (fun c => c.name == m) := by
  induction cols with
  | nil =>
      rw [List.nil_append,
        List.find?_cons_of_neg (p := fun c : Col => c.name == m) _ (by simp [Ne.symm h])]
  | cons c rest ih =>
      by_cases hm : c.name = m
      · rw [List.cons_append,
          List.find?_cons_of_pos (p := fun c : Col => c.name == m) _ (by simp [hm]),
          List.find?_cons_of_pos (p := fun c : Col => c.name == m) _ (by simp [hm])]
      · rw [List.cons_append,
          List.find?_cons_of_neg (p := fun c : Col => c.name == m) _ (by simp [hm]),
          List.find?_cons_of_neg (p := fun c : Col => c.name == m) _ (by simp [hm])]
        exact ih

theorem Table.getCol_setCol_self (t : Table) (n : String) (dt : DType) (cs : List Cell) :
    (t.setCol n dt cs).getCol n = some ⟨n, dt, cs⟩ := by
  unfold Table.setCol
  by_cases h : t.hasCol n = true
  · simp only [h, if_true, Table.getCol]
    exact findReplace_self t.cols n dt cs h
  · simp only [h, if_false, Table.getCol]
    exact findAppendOne_self t.cols n dt cs (by simpa [Table.hasCol] using h)

theorem Table.getCol_setCol_ne (t : Table) {m n : String} (h : m ≠ n)
    (dt : DType) (cs : List Cell) :
    (t.setCol n dt cs).getCol m = t.getCol m := by
  unfold Table.setCol
  by_cases hh : t.hasCol n = true
  · simp only [hh, if_true, Table.getCol]
    exact findReplace_ne t.cols h dt cs
  · simp only [hh, if_false, Table.getCol]
    exact findAppendOne_ne t.cols h dt cs

theorem Table.hasCol_iff_getCol_isSome (t : Table) (n : String) :
    t.hasCol n = (t.getCol n).isSome := by
  unfold Table.hasCol Table.getCol
  induction t.cols with
  | nil => simp
  | cons c rest ih =>
      by_cases hc : c.name = n
      · simp [hc]
      · have hb : (c.name == n) = false := by simp [hc]
        rw [List.find?_cons_of_neg (p := fun c : Col => c.name == n) _ (by simp [hc])]
        simpa [List.any_cons, hb] using ih

theorem Table.hasCol_setCol (t : Table) (m n : String) (dt : DType) (cs : List Cell) :
    (t.setCol n dt cs).hasCol m = (m == n || t.hasCol m) := by
  by_cases h : m = n
  · subst h
    rw [Table.hasCol_iff_getCol_isSome, Table.getCol_setCol_self]
    simp
  · rw [Table.hasCol_iff_getCol_isSome, Table.getCol_setCol_ne t h,
      ← Table.hasCol_iff_getCol_isSome]
    simp [h]

theorem get?_zipWith_both {α β γ : Type} (f : α → β → γ) (l₁ : List α) (l₂ : List β)
    (i : ℕ) (a : α) (b : β) (h₁ : l₁.get? i = some a) (h₂ : l₂.get? i = some b) :
    (List.zipWith f l₁ l₂).get? i = some (f a b) := by
  induction l₁ generalizing l₂ i with
  | nil => simp at h₁
  | cons x xs ih =>
      cases l₂ with
      | nil => simp at h₂
      | cons y ys =>
          cases i with
          | zero => simp_all
          | succ j =>
              simp only [List.zipWith_cons_cons, List.get?_cons_succ] at *
              exact ih ys j h₁ h₂

theorem getCol_dcStep_ne (t : Table) {c1 c2 out m : String} (h : m ≠ out)
    (f : ENum → ENum → ENum) :
    (dcStep t c1 c2 out f).getCol m = t.getCol m := by
  unfold dcStep
  cases h1 : t.getCol c1 with
  | none => rfl
  | some a =>
      cases h2 : t.getCol c2 with
      | none => rfl
      | some b => exact Table.getCol_setCol_ne t h _ _

theorem getCol_dcStep1_ne (t : Table) {c out m : String} (h : m ≠ out)
    (f : ENum → ENum) :
    (dcStep1 t c out f).getCol m = t.getCol m := by
  unfold dcStep1
  cases h1 : t.getCol c with
  | none => rfl
  | some a => exact Table.getCol_setCol_ne t h _ _

theorem dcStep_of_some (t : Table) {c1 c2 : String} {a b : Col}
    (h1 : t.getCol c1 = some a) (h2 : t.getCol c2 = some b)
    (out : String) (f : ENum → ENum → ENum) :
    dcStep t c1 c2 out f = t.setCol out .float (map2EN f a.cells b.cells) := by
  unfold dcStep
  rw [h1, h2]

/-- C1.  For every row of a table containing `purchase_amount`,
`shipping_cost` and `discount_percent` (numeric at that row), stage 1
produces `total_cost = purchase_amount + shipping_cost` exactly and
`final_price = round(purchase_amount + shipping_cost
  - round(purchase_amount * discount_percent / 100, 2), 2)`. -/
theorem C1_total_cost_final_price
    (t : Table) (i : ℕ) (a s d : ℚ) (cpa csc cdp : Col)
    (hpa : t.getCol "purchase_amount" = some cpa)
    (hsc : t.getCol "shipping_cost" = some csc)
    (hdp : t.getCol "discount_percent" = some cdp)
    (hai : cpa.cells.get? i = some (.num a))
    (hsi : csc.cells.get? i = some (.num s))
    (hdi : cdp.cells.get? i = some (.num d)) :
    (derive_computed_columns t).cellAt "total_cost" i = some (.num (a + s)) ∧
    (derive_computed_columns t).cellAt "final_price" i
      = some (.num (roundQ 2 ((a + s) - roundQ 2 (a * d / 100)))) := by
  unfold derive_computed_columns
  dsimp only
  rw [dcStep_of_some t hpa hsc]
  set tcCells := map2EN (fun a b => a.add b) cpa.cells csc.cells with htcc
  set t1 := t.setCol "total_cost" .float tcCells with ht1
  have g1pa : t1.getCol "purchase_amount" = some cpa := by
    rw [ht1, Table.getCol_setCol_ne t (by decide)]; exact hpa
  have g1dp : t1.getCol "discount_percent" = some cdp := by
    rw [ht1, Table.getCol_setCol_ne t (by decide)]; exact hdp
  rw [dcStep_of_some t1 g1pa g1dp]
  set daCells := map2EN (fun a d => roundEN 2 ((a.mul d).div (.fin 100))) cpa.cells cdp.cells
    with hdac
  set t2 := t1.setCol "discount_amount" .float daCells with ht2
  have g2tc : t2.getCol "total_cost" = some ⟨"total_cost", .float, tcCells⟩ := by
    rw [ht2, Table.getCol_setCol_ne t1 (by decide), ht1]
    exact Table.getCol_setCol_self t _ _ _
  have g2da : t2.getCol "discount_amount" = some ⟨"discount_amount", .float, daCells⟩ := by
    rw [ht2]; exact Table.getCol_setCol_self t1 _ _ _
  rw [dcStep_of_some t2 g2tc g2da]
  set fpCells := map2EN (fun tc da => roundEN 2 (tc.sub da)) tcCells daCells with hfpc
  set t3 := t2.setCol "final_price" .float fpCells with ht3
  -- the four later steps do not touch "total_cost" or "final_price"
  have gtc : ∀ u : Table, u.getCol "total_cost" = some ⟨"total_cost", .float, tcCells⟩ →
      u.cellAt "total_cost" i = some (.num (a + s)) := by
    intro u hu
    unfold Table.cellAt
    rw [hu]
    have : tcCells.get? i = some (Cell.num (a + s)) := by
      rw [htcc]
      unfold map2EN
      rw [get?_zipWith_both _ _ _ _ _ _ hai hsi]
      rfl
    simpa using this
  have gfp : ∀ u : Table, u.getCol "final_price" = some ⟨"final_price", .float, fpCells⟩ →
      u.cellAt "final_price" i
        = some (.num (roundQ 2 ((a + s) - roundQ 2 (a * d / 100)))) := by
    intro u hu
    unfold Table.cellAt
    rw [hu]
    have htci : tcCells.get? i = some (Cell.num (a + s)) := by
      rw [htcc]; unfold map2EN
      rw [get?_zipWith_both _ _ _ _ _ _ hai hsi]
      rfl
    have hdai : daCells.get? i = some (Cell.num (roundQ 2 (a * d / 100))) := by
      rw [hdac]; unfold map2EN
      rw [get?_zipWith_both _ _ _ _ _ _ hai hdi]
      simp [Cell.toEN, ENum.mul, ENum.div, ENum.toCell, roundEN]
    have : fpCells.get? i
        = some (Cell.num (roundQ 2 ((a + s) - roundQ 2 (a * d / 100)))) := by
      rw [hfpc]; unfold map2EN
      rw [get?_zipWith_both _ _ _ _ _ _ htci hdai]
      simp [Cell.toEN, ENum.sub, ENum.add, ENum.neg, ENum.toCell, roundEN, sub_eq_add_neg]
    simpa using this
  have g3tc : t3.getCol "total_cost" = some ⟨"total_cost", .float, tcCells⟩ := by
    rw [ht3, Table.getCol_setCol_ne t2 (by decide)]; exact g2tc
  have g3fp : t3.getCol "final_price" = some ⟨"final_price", .float, fpCells⟩ := by
    rw [ht3]; exact Table.getCol_setCol_self t2 _ _ _
  constructor
  · apply gtc
    rw [getCol_dcStep_ne _ (by decide), getCol_dcStep1_ne _ (by decide),
      getCol_dcStep_ne _ (by decide), getCol_dcStep_ne _ (by decide)]
    exact g3tc
  · apply gfp
    rw [getCol_dcStep_ne _ (by decide), getCol_dcStep1_ne _ (by decide),
      getCol_dcStep_ne _ (by decide), getCol_dcStep_ne _ (by decide)]
    exact g3fp

/-- Concrete one-row table: purchase 100, shipping 5, discount 10%, rating 0. -/
def w1Table : Table :=
  ⟨[⟨"purchase_amount", .float, [.num 100]⟩,
    ⟨"shipping_cost", .float, [.num 5]⟩,
    ⟨"discount_percent", .float, [.num 10]⟩,
    ⟨"rating", .float, [.num 0]⟩]⟩

/-- Witness for C1 at a concrete input. -/
theorem C1_total_cost_final_price_witness :
    (derive_computed_columns w1Table).cellAt "total_cost" 0 = some (.num (100 + 5)) ∧
    (derive_computed_columns w1Table).cellAt "final_price" 0
      = some (.num (roundQ 2 ((100 + 5) - roundQ 2 (100 * 10 / 100)))) :=
  C1_total_cost_final_price w1Table 0 100 5 10 _ _ _ rfl rfl rfl rfl rfl rfl


theorem ratFloor_eq_floor (x : ℚ) : ratFloor x = ⌊x⌋ := by
  rw [ratFloor, Rat.floor_def]

/-- C2, amended.  On a row where the divisor is zero, stage 1 writes NaN
only when the dividend is also zero; a nonzero dividend produces a signed
infinity (pandas float semantics).  No exception is raised — the stage is
a total function.  Shown for `price_per_rating` (rating = 0) and
`spending_power_index` (age = 0). -/
theorem C2_division_by_zero_cells
    (t : Table) (i : ℕ) (a s d j : ℚ) (cpa csc cdp crat cinc cage : Col)
    (hpa : t.getCol "purchase_amount" = some cpa)
    (hsc : t.getCol "shipping_cost" = some csc)
    (hdp : t.getCol "discount_percent" = some cdp)
    (hrat : t.getCol "rating" = some crat)
    (hinc : t.getCol "income" = some cinc)
    (hage : t.getCol "age" = some cage)
    (hai : cpa.cells.get? i = some (.num a))
    (hsi : csc.cells.get? i = some (.num s))
    (hdi : cdp.cells.get? i = some (.num d))
    (hri : crat.cells.get? i = some (.num 0))
    (hji : cinc.cells.get? i = some (.num j))
    (hagei : cage.cells.get? i = some (.num 0)) :
    (derive_computed_columns t).cellAt "price_per_rating" i
      = some (if roundQ 2 ((a + s) - roundQ 2 (a * d / 100)) = 0 then Cell.na
          else if 0 < roundQ 2 ((a + s) - roundQ 2 (a * d / 100)) then Cell.pinf
          else Cell.ninf) ∧
    (derive_computed_columns t).cellAt "spending_power_index" i
      = some (if j = 0 then Cell.na else if 0 < j then Cell.pinf else Cell.ninf) := by
  unfold derive_computed_columns
  dsimp only
  rw [dcStep_of_some t hpa hsc]
  set tcCells := map2EN (fun a b => a.add b) cpa.cells csc.cells with htcc
  set t1 := t.setCol "total_cost" .float tcCells with ht1
  have g1pa : t1.getCol "purchase_amount" = some cpa := by
    rw [ht1, Table.getCol_setCol_ne t (by decide)]; exact hpa
  have g1dp : t1.getCol "discount_percent" = some cdp := by
    rw [ht1, Table.getCol_setCol_ne t (by decide)]; exact hdp
  rw [dcStep_of_some t1 g1pa g1dp]
  set daCells := map2EN (fun a d => roundEN 2 ((a.mul d).div (.fin 100))) cpa.cells cdp.cells
    with hdac
  set t2 := t1.setCol "discount_amount" .float daCells with ht2
  have g2tc : t2.getCol "total_cost" = some ⟨"total_cost", .float, tcCells⟩ := by
    rw [ht2, Table.getCol_setCol_ne t1 (by decide), ht1]
    exact Table.getCol_setCol_self t _ _ _
  have g2da : t2.getCol "discount_amount" = some ⟨"discount_amount", .float, daCells⟩ := by
    rw [ht2]; exact Table.getCol_setCol_self t1 _ _ _
  rw [dcStep_of_some t2 g2tc g2da]
  set fpCells := map2EN (fun tc da => roundEN 2 (tc.sub da)) tcCells daCells with hfpc
  set t3 := t2.setCol "final_price" .float fpCells with ht3
  have g3fp : t3.getCol "final_price" = some ⟨"final_price", .float, fpCells⟩ := by
    rw [ht3]; exact Table.getCol_setCol_self t2 _ _ _
  have g3rat : t3.getCol "rating" = some crat := by
    rw [ht3, Table.getCol_setCol_ne t2 (by decide), ht2,
      Table.getCol_setCol_ne t1 (by decide), ht1, Table.getCol_setCol_ne t (by decide)]
    exact hrat
  rw [dcStep_of_some t3 g3fp g3rat]
  set pprCells := map2EN (fun fp r => roundEN 2 (fp.div r)) fpCells crat.cells with hpprc
  set t4 := t3.setCol "price_per_rating" .float pprCells with ht4
  have g4inc : t4.getCol "income" = some cinc := by
    rw [ht4, Table.getCol_setCol_ne t3 (by decide), ht3,
      Table.getCol_setCol_ne t2 (by decide), ht2, Table.getCol_setCol_ne t1 (by decide),
      ht1, Table.getCol_setCol_ne t (by decide)]
    exact hinc
  have g4pa : t4.getCol "purchase_amount" = some cpa := by
    rw [ht4, Table.getCol_setCol_ne t3 (by decide), ht3,
      Table.getCol_setCol_ne t2 (by decide), ht2, Table.getCol_setCol_ne t1 (by decide),
      ht1, Table.getCol_setCol_ne t (by decide)]
    exact hpa
  rw [dcStep_of_some t4 g4inc g4pa]
  set iprCells := map2EN (fun inc pa => roundEN 2 ((pa.div inc).mul (.fin 100)))
    cinc.cells cpa.cells with hiprc
  set t5 := t4.setCol "income_purchase_ratio" .float iprCells with ht5
  have g5age : t5.getCol "age" = some cage := by
    rw [ht5, Table.getCol_setCol_ne t4 (by decide), ht4,
      Table.getCol_setCol_ne t3 (by decide), ht3, Table.getCol_setCol_ne t2 (by decide),
      ht2, Table.getCol_setCol_ne t1 (by decide), ht1, Table.getCol_setCol_ne t (by decide)]
    exact hage
  have hstep6 : dcStep1 t5 "age" "age_squared" (fun x => x.mul x)
      = t5.setCol "age_squared" .float (map1EN (fun x => x.mul x) cage.cells) := by
    unfold dcStep1
    rw [g5age]
  rw [hstep6]
  set t6 := t5.setCol "age_squared" .float (map1EN (fun x => x.mul x) cage.cells) with ht6
  have g6inc : t6.getCol "income" = some cinc := by
    rw [ht6, Table.getCol_setCol_ne t5 (by decide), ht5, Table.getCol_setCol_ne t4 (by decide)]
    exact g4inc
  have g6age : t6.getCol "age" = some cage := by
    rw [ht6, Table.getCol_setCol_ne t5 (by decide)]
    exact g5age
  rw [dcStep_of_some t6 g6inc g6age]
  set spiCells := map2EN (fun inc age => roundEN 2 ((inc.div (.fin 1000)).div age))
    cinc.cells cage.cells with hspic
  set t7 := t6.setCol "spending_power_index" .float spiCells with ht7
  constructor
  · -- price_per_rating: set at t4, then preserved through t5, t6, t7
    have g7ppr : t7.getCol "price_per_rating" = some ⟨"price_per_rating", .float, pprCells⟩ := by
      rw [ht7, Table.getCol_setCol_ne t6 (by decide), ht6,
        Table.getCol_setCol_ne t5 (by decide), ht5, Table.getCol_setCol_ne t4 (by decide),
        ht4]
      exact Table.getCol_setCol_self t3 _ _ _
    unfold Table.cellAt
    rw [g7ppr]
    have htci : tcCells.get? i = some (Cell.num (a + s)) := by
      rw [htcc]; unfold map2EN
      rw [get?_zipWith_both _ _ _ _ _ _ hai hsi]
      rfl
    have hdai : daCells.get? i = some (Cell.num (roundQ 2 (a * d / 100))) := by
      rw [hdac]; unfold map2EN
      rw [get?_zipWith_both _ _ _ _ _ _ hai hdi]
      simp [Cell.toEN, ENum.mul, ENum.div, ENum.toCell, roundEN]
    have hfpi : fpCells.get? i
        = some (Cell.num (roundQ 2 ((a + s) - roundQ 2 (a * d / 100)))) := by
      rw [hfpc]; unfold map2EN
      rw [get?_zipWith_both _ _ _ _ _ _ htci hdai]
      simp [Cell.toEN, ENum.sub, ENum.add, ENum.neg, ENum.toCell, roundEN, sub_eq_add_neg]
    have : pprCells.get? i
        = some (if roundQ 2 ((a + s) - roundQ 2 (a * d / 100)) = 0 then Cell.na
            else if 0 < roundQ 2 ((a + s) - roundQ 2 (a * d / 100)) then Cell.pinf
            else Cell.ninf) := by
      rw [hpprc]; unfold map2EN
      rw [get?_zipWith_both _ _ _ _ _ _ hfpi hri]
      rcases lt_trichotomy (roundQ 2 ((a + s) - roundQ 2 (a * d / 100))) 0 with h | h | h
      · simp [Cell.toEN, ENum.div, ENum.toCell, roundEN, ne_of_lt h, not_lt.mpr h.le]
      · simp [Cell.toEN, ENum.div, ENum.toCell, roundEN, h]
      · simp [Cell.toEN, ENum.div, ENum.toCell, roundEN, ne_of_gt h, h]
    simpa using this
  · -- spending_power_index: set at t7
    have g7spi : t7.getCol "spending_power_index"
        = some ⟨"spending_power_index", .float, spiCells⟩ := by
      rw [ht7]; exact Table.getCol_setCol_self t6 _ _ _
    unfold Table.cellAt
    rw [g7spi]
    have : spiCells.get? i
        = some (if j = 0 then Cell.na else if 0 < j then Cell.pinf else Cell.ninf) := by
      rw [hspic]; unfold map2EN
      rw [get?_zipWith_both _ _ _ _ _ _ hji hagei]
      rcases lt_trichotomy j 0 with h | h | h
      · have hq : j / 1000 < 0 := div_neg_of_neg_of_pos h (by norm_num)
        simp [Cell.toEN, ENum.div, ENum.toCell, roundEN, ne_of_lt hq, not_lt.mpr hq.le,
          ne_of_lt h, not_lt.mpr h.le]
      · subst h
        simp [Cell.toEN, ENum.div, ENum.toCell, roundEN]
      · have hq : 0 < j / 1000 := div_pos h (by norm_num)
        simp [Cell.toEN, ENum.div, ENum.toCell, roundEN, ne_of_gt hq, hq, ne_of_gt h, h]
    simpa using this

/-- Concrete one-row table with zero rating and zero age. -/
def w2Table : Table :=
  ⟨[⟨"purchase_amount", .float, [.num 100]⟩,
    ⟨"shipping_cost", .float, [.num 5]⟩,
    ⟨"discount_percent", .float, [.num 10]⟩,
    ⟨"rating", .float, [.num 0]⟩,
    ⟨"income", .float, [.num 400]⟩,
    ⟨"age", .float, [.num 0]⟩]⟩

/-- Witness for the amended C2 at a concrete input. -/
theorem C2_division_by_zero_cells_witness :
    (derive_computed_columns w2Table).cellAt "price_per_rating" 0
      = some (if roundQ 2 (((100:ℚ) + 5) - roundQ 2 (100 * 10 / 100)) = 0 then Cell.na
          else if 0 < roundQ 2 (((100:ℚ) + 5) - roundQ 2 (100 * 10 / 100)) then Cell.pinf
          else Cell.ninf) ∧
    (derive_computed_columns w2Table).cellAt "spending_power_index" 0
      = some (if (400:ℚ) = 0 then Cell.na else if 0 < (400:ℚ) then Cell.pinf
          else Cell.ninf) :=
  C2_division_by_zero_cells w2Table 0 100 5 10 400 _ _ _ _ _ _
    rfl rfl rfl rfl rfl rfl rfl rfl rfl rfl rfl rfl

/-- C2, counterexample.  On a row with `rating == 0` and positive
`final_price` (95), stage 1 writes `+∞` into `price_per_rating` — pandas
float division of a nonzero value by zero — and `+∞` is not a
missing/NaN cell.  So "writes a missing/not-a-number value" is false. -/
theorem C2_counterexample :
    (derive_computed_columns w2Table).cellAt "price_per_rating" 0 = some Cell.pinf ∧
    Cell.pinf ≠ Cell.na := by
  constructor
  · have e1 : roundQ 2 (10 : ℚ) = 10 := by
      norm_num [roundQ, roundHalfEven, ratFloor_eq_floor]
    have e2 : roundQ 2 (95 : ℚ) = 95 := by
      norm_num [roundQ, roundHalfEven, ratFloor_eq_floor]
    simp only [derive_computed_columns, dcStep, dcStep1, w2Table, Table.getCol,
      Table.setCol, Table.hasCol, Table.cellAt, Table.names, map2EN, map1EN,
      List.find?, List.any_cons, List.any_nil, List.map_cons, List.map_nil,
      List.zipWith_cons_cons, List.zipWith_nil_right, List.zipWith_nil_left]
    norm_num [Cell.toEN, ENum.add, ENum.mul, ENum.div, ENum.sub, ENum.neg,
      roundEN, ENum.toCell, List.get?]
    rw [e1]
    norm_num
    rw [e2]
    decide
  · decide

/-! ### Stage 3: `bin_numeric_ranges` -/

/-- Totalised comparison used only to sort non-NaN values (numpy sort
order: `-∞ <` finite `< +∞`; NaN never occurs in the sorted input because
`dropna`/`notna` filtering happens first, but the order must be total for
the sorting lemmas, so NaN is placed first). -/
def ENum.keyLe : ENum → ENum → Bool
  | nan, _ => true
  | _, nan => false
  | ninf, _ => true
  | _, ninf => false
  | fin a, fin b => decide (a ≤ b)
  | fin _, pinf => true
  | pinf, fin _ => false
  | pinf, pinf => true

/-- The non-missing values of a column, in ascending numpy sort order. -/
def sortedVals (cells : List Cell) : List ENum :=
  List.insertionSort (fun a b => ENum.keyLe a b = true)
    ((cells.map Cell.toEN).filter (fun v => v != ENum.nan))

/-- Linear-interpolation quantile (`numpy`/`Series.quantile` default) over
an ascending list of non-NaN values: position `q*(n-1)`, interpolate
between the neighbouring order statistics. -/
def quantileAt (s : List ENum) (q : ℚ) : ENum :=
  match s with
  | [] => .nan
  | _ =>
      let n := s.length
      let pos : ℚ := q * (n - 1)
      let i : ℕ := (ratFloor pos).toNat
      match s.get? i, s.get? (i + 1) with
      | some a, some b => a.add ((b.sub a).mul (.fin (pos - ratFloor pos)))
      | some a, none => a
      | _, _ => .nan

/-- First interval hit by `v` walking the `pd.cut` edges: interval
`(e, e']`, with the very first interval also closed on the left when
`include_lowest` was requested. -/
def cutGo (v : ENum) : List ENum → List Cell → Bool → Cell
  | e :: e' :: es, l :: ls, incl =>
      if (ENum.ltB e v || (incl && v == e)) && ENum.leB v e' then l
      else cutGo v (e' :: es) ls false
  | _, _, _ => .na

/-- `pd.cut` of one value against a fixed edge/label table: NaN input
gives a missing label, a value outside every interval gives a missing
label. -/
def cutAssign (edges : List ENum) (labels : List Cell) (incl : Bool) (c : Cell) : Cell :=
  match c.toEN with
  | .nan => .na
  | v => cutGo v edges labels incl

/-- One fixed-table binning rule of stage 3 (skip silently when the source
column is absent); output column is pandas categorical. -/
def binStep (t : Table) (src out : String) (edges : List ENum) (labels : List String)
    (incl : Bool) : Table :=
  match t.getCol src with
  | some c => t.setCol out .cat (c.cells.map (cutAssign edges (labels.map Cell.str) incl))
  | none => t

/-- `np.unique` on already-monotone bin edges: collapse consecutive
duplicates (`duplicates='drop'`). -/
def dedupConsec : List ENum → List ENum
  | [] => []
  | [a] => [a]
  | a :: b :: rest => if a == b then dedupConsec (b :: rest) else a :: dedupConsec (b :: rest)

/-- The five `pd.qcut` quartile edges of a column. -/
def qcutEdges (cells : List Cell) : List ENum :=
  let s := sortedVals cells
  [quantileAt s 0, quantileAt s (1/4), quantileAt s (1/2), quantileAt s (3/4), quantileAt s 1]

/-- `pd.qcut(col, q=4, labels=['Q1','Q2','Q3','Q4'], duplicates='drop')`.
After dropping duplicate edges, pandas' `_bins_to_cuts` raises
`ValueError` when the label list no longer matches the number of bins;
otherwise it assigns like `cut` with the lowest edge included. -/
def qcutQuartiles (cells : List Cell) : Except String (List Cell) :=
  let edges := qcutEdges cells
  if (dedupConsec edges).length ≠ 5 then
    .error "Bin labels must be one fewer than the number of bin edges"
  else
    .ok (cells.map (cutAssign edges [Cell.str "Q1", .str "Q2", .str "Q3", .str "Q4"] true))

/-- `pd.cut(col, bins=5)`: equal-width binning over the observed min/max.
Pandas raises on infinite data or an all-NaN column; when `min == max`
both ends are padded by 0.1% before splitting, otherwise the leftmost
edge is lowered by 0.1% of the range after splitting so the minimum falls
in the first bin.  Interval labels are kept exact here (pandas rounds
them for display precision); no claim depends on the label text. -/
def equalWidthCut5 (cells : List Cell) : Except String (List Cell) :=
  if cells.any (fun c => c == Cell.pinf || c == Cell.ninf) then
    .error "cannot specify integer `bins` when input data contains infinity"
  else
    let vs := cells.filterMap Cell.asQ
    match vs.min?, vs.max? with
    | some mn, some mx =>
        let lo := if mn = mx then mn - (if mn = 0 then 1/1000 else |mn| / 1000) else mn
        let hi := if mn = mx then mx + (if mx = 0 then 1/1000 else |mx| / 1000) else mx
        let edges0 := (List.range 6).map (fun i => lo + (hi - lo) * i / 5)
        let edgesAdj := if mn = mx then edges0 else
          match edges0 with
          | e :: es => (e - (mx - mn) / 1000) :: es
          | [] => []
        let labels := (edgesAdj.zip (edgesAdj.drop 1)).map (fun p => Cell.iv p.1 p.2)
        .ok (cells.map (cutAssign (edgesAdj.map ENum.fin) labels false))
    | _, _ => .error "bins must increase monotonically"

/-- The five fixed-table binning rules of stage 3, in source order. -/
def binFive (t : Table) : Table :=
  let t1 := binStep t "age" "age_group"
    [.fin 0, .fin 25, .fin 35, .fin 50, .fin 65, .fin 100]
    ["18-25", "26-35", "36-50", "51-65", "65+"] true
  let t2 := binStep t1 "income" "income_bracket"
    [.fin 0, .fin 30000, .fin 50000, .fin 75000, .fin 100000, .pinf]
    ["Low", "Lower-Middle", "Middle", "Upper-Middle", "High"] false
  let t3 := binStep t2 "purchase_amount" "purchase_category"
    [.fin 0, .fin 100, .fin 500, .fin 1000, .fin 2000, .pinf]
    ["Very Low", "Low", "Medium", "High", "Very High"] false
  let t4 := binStep t3 "rating" "rating_category"
    [.fin 0, .fin 2, .fin 3, .fin 4, .fin 5]
    ["Poor", "Fair", "Good", "Excellent"] true
  binStep t4 "discount_percent" "discount_tier"
    [.fin 0, .fin 10, .fin 25, .fin 40, .fin 100]
    ["No Discount", "Low Discount", "Medium Discount", "High Discount"] true

/-- `bin_numeric_ranges` (stage 3): the five fixed tables, then quartile
binning of `final_price` and equal-width binning of
`income_purchase_ratio` (each only when present); a `ValueError` from
`qcut`/`cut` aborts the stage. -/
def bin_numeric_ranges (t : Table) : Except String Table :=
  let t5 := binFive t
  let r6 : Except String Table :=
    match t5.getCol "final_price" with
    | some c => (qcutQuartiles c.cells).map (fun cs => t5.setCol "price_quartile" .cat cs)
    | none => .ok t5
  match r6 with
  | .error e => .error e
  | .ok t6 =>
      match t6.getCol "income_purchase_ratio" with
      | some c => (equalWidthCut5 c.cells).map (fun cs => t6.setCol "spending_ratio_bin" .cat cs)
      | none => .ok t6

theorem getCol_binStep_ne (t : Table) {src out m : String} (h : m ≠ out)
    (edges : List ENum) (labels : List String) (incl : Bool) :
    (binStep t src out edges labels incl).getCol m = t.getCol m := by
  unfold binStep
  cases hc : t.getCol src with
  | none => rfl
  | some c => exact Table.getCol_setCol_ne t h _ _

theorem cellAt_binStep_self (t : Table) {src : String} {c : Col}
    (h : t.getCol src = some c) (out : String) (edges : List ENum)
    (labels : List String) (incl : Bool) (i : ℕ) :
    (binStep t src out edges labels incl).cellAt out i
      = (c.cells.get? i).map (cutAssign edges (labels.map Cell.str) incl) := by
  unfold binStep
  rw [h]
  unfold Table.cellAt
  rw [Table.getCol_setCol_self]
  simp

theorem stage3_getCol_preserved (t t' : Table) (hok : bin_numeric_ranges t = .ok t')
    (m : String) (h1 : m ≠ "price_quartile") (h2 : m ≠ "spending_ratio_bin") :
    t'.getCol m = (binFive t).getCol m := by
  unfold bin_numeric_ranges at hok
  dsimp only at hok
  cases hfp : (binFive t).getCol "final_price" with
  | none =>
      rw [hfp] at hok
      dsimp only at hok
      cases hipr : (binFive t).getCol "income_purchase_ratio" with
      | none =>
          rw [hipr] at hok
          dsimp only at hok
          cases hok
          rfl
      | some c =>
          rw [hipr] at hok
          dsimp only at hok
          cases hew : equalWidthCut5 c.cells with
          | error e => rw [hew] at hok; dsimp only [Except.map] at hok; cases hok
          | ok cs =>
              rw [hew] at hok
              dsimp only [Except.map] at hok
              cases hok
              exact Table.getCol_setCol_ne _ h2 _ _
  | some c =>
      rw [hfp] at hok
      dsimp only at hok
      cases hq : qcutQuartiles c.cells with
      | error e => rw [hq] at hok; dsimp only [Except.map] at hok; cases hok
      | ok cs =>
          rw [hq] at hok
          dsimp only [Except.map] at hok
          cases hipr : ((binFive t).setCol "price_quartile" .cat cs).getCol
              "income_purchase_ratio" with
          | none =>
              rw [hipr] at hok
              dsimp only at hok
              cases hok
              exact Table.getCol_setCol_ne _ h1 _ _
          | some c2 =>
              rw [hipr] at hok
              dsimp only at hok
              cases hew : equalWidthCut5 c2.cells with
              | error e => rw [hew] at hok; dsimp only [Except.map] at hok; cases hok
              | ok cs2 =>
                  rw [hew] at hok
                  dsimp only [Except.map] at hok
                  cases hok
                  rw [Table.getCol_setCol_ne _ h2 _ _]
                  exact Table.getCol_setCol_ne _ h1 _ _

theorem cellAt_binStep_ne (t : Table) {src out m : String} (h : m ≠ out)
    (edges : List ENum) (labels : List String) (incl : Bool) (i : ℕ) :
    (binStep t src out edges labels incl).cellAt m i = t.cellAt m i := by
  unfold Table.cellAt
  rw [getCol_binStep_ne t h]

/-- C3, amended.  A value exactly at the global lower bound is assigned
the first bin's label for `age`, `rating` and `discount_percent` (whose
`pd.cut` calls pass `include_lowest=True`), but for `income` and
`purchase_amount` (no `include_lowest`) the lower bound 0 is excluded, so
the value 0 yields a missing label. -/
theorem C3_lower_bound_cells (t t' : Table) (i : ℕ)
    (hok : bin_numeric_ranges t = .ok t') :
    (∀ c, t.getCol "age" = some c → c.cells.get? i = some (.num 0) →
      t'.cellAt "age_group" i = some (.str "18-25")) ∧
    (∀ c, t.getCol "rating" = some c → c.cells.get? i = some (.num 0) →
      t'.cellAt "rating_category" i = some (.str "Poor")) ∧
    (∀ c, t.getCol "discount_percent" = some c → c.cells.get? i = some (.num 0) →
      t'.cellAt "discount_tier" i = some (.str "No Discount")) ∧
    (∀ c, t.getCol "income" = some c → c.cells.get? i = some (.num 0) →
      t'.cellAt "income_bracket" i = some Cell.na) ∧
    (∀ c, t.getCol "purchase_amount" = some c → c.cells.get? i = some (.num 0) →
      t'.cellAt "purchase_category" i = some Cell.na) := by
  have hpres : ∀ m, m ≠ "price_quartile" → m ≠ "spending_ratio_bin" →
      t'.cellAt m i = (binFive t).cellAt m i := by
    intro m hm1 hm2
    unfold Table.cellAt
    rw [stage3_getCol_preserved t t' hok m hm1 hm2]
  refine ⟨?_, ?_, ?_, ?_, ?_⟩
  · intro c hc hi
    rw [hpres "age_group" (by decide) (by decide)]
    unfold binFive
    dsimp only
    rw [cellAt_binStep_ne _ (by decide), cellAt_binStep_ne _ (by decide),
      cellAt_binStep_ne _ (by decide), cellAt_binStep_ne _ (by decide),
      cellAt_binStep_self t hc, hi]
    decide
  · intro c hc hi
    rw [hpres "rating_category" (by decide) (by decide)]
    unfold binFive
    dsimp only
    have hsrc : (binStep (binStep (binStep t "age" "age_group"
        [.fin 0, .fin 25, .fin 35, .fin 50, .fin 65, .fin 100]
        ["18-25", "26-35", "36-50", "51-65", "65+"] true)
        "income" "income_bracket"
        [.fin 0, .fin 30000, .fin 50000, .fin 75000, .fin 100000, .pinf]
        ["Low", "Lower-Middle", "Middle", "Upper-Middle", "High"] false)
        "purchase_amount" "purchase_category"
        [.fin 0, .fin 100, .fin 500, .fin 1000, .fin 2000, .pinf]
        ["Very Low", "Low", "Medium", "High", "Very High"] false).getCol "rating"
        = some c := by
      rw [getCol_binStep_ne _ (by decide), getCol_binStep_ne _ (by decide),
        getCol_binStep_ne _ (by decide)]
      exact hc
    rw [cellAt_binStep_ne _ (by decide), cellAt_binStep_self _ hsrc, hi]
    decide
  · intro c hc hi
    rw [hpres "discount_tier" (by decide) (by decide)]
    unfold binFive
    dsimp only
    have hsrc : (binStep (binStep (binStep (binStep t "age" "age_group"
        [.fin 0, .fin 25, .fin 35, .fin 50, .fin 65, .fin 100]
        ["18-25", "26-35", "36-50", "51-65", "65+"] true)
        "income" "income_bracket"
        [.fin 0, .fin 30000, .fin 50000, .fin 75000, .fin 100000, .pinf]
        ["Low", "Lower-Middle", "Middle", "Upper-Middle", "High"] false)
        "purchase_amount" "purchase_category"
        [.fin 0, .fin 100, .fin 500, .fin 1000, .fin 2000, .pinf]
        ["Very Low", "Low", "Medium", "High", "Very High"] false)
        "rating" "rating_category"
        [.fin 0, .fin 2, .fin 3, .fin 4, .fin 5]
        ["Poor", "Fair", "Good", "Excellent"] true).getCol "discount_percent"
        = some c := by
      rw [getCol_binStep_ne _ (by decide), getCol_binStep_ne _ (by decide),
        getCol_binStep_ne _ (by decide), getCol_binStep_ne _ (by decide)]
      exact hc
    rw [cellAt_binStep_self _ hsrc, hi]
    decide
  · intro c hc hi
    rw [hpres "income_bracket" (by decide) (by decide)]
    unfold binFive
    dsimp only
    have hsrc : (binStep t "age" "age_group"
        [.fin 0, .fin 25, .fin 35, .fin 50, .fin 65, .fin 100]
        ["18-25", "26-35", "36-50", "51-65", "65+"] true).getCol "income" = some c := by
      rw [getCol_binStep_ne _ (by decide)]
      exact hc
    rw [cellAt_binStep_ne _ (by decide), cellAt_binStep_ne _ (by decide),
      cellAt_binStep_ne _ (by decide), cellAt_binStep_self _ hsrc, hi]
    decide
  · intro c hc hi
    rw [hpres "purchase_category" (by decide) (by decide)]
    unfold binFive
    dsimp only
    have hsrc : (binStep (binStep t "age" "age_group"
        [.fin 0, .fin 25, .fin 35, .fin 50, .fin 65, .fin 100]
        ["18-25", "26-35", "36-50", "51-65", "65+"] true)
        "income" "income_bracket"
        [.fin 0, .fin 30000, .fin 50000, .fin 75000, .fin 100000, .pinf]
        ["Low", "Lower-Middle", "Middle", "Upper-Middle", "High"] false).getCol
        "purchase_amount" = some c := by
      rw [getCol_binStep_ne _ (by decide), getCol_binStep_ne _ (by decide)]
      exact hc
    rw [cellAt_binStep_ne _ (by decide), cellAt_binStep_ne _ (by decide),
      cellAt_binStep_self _ hsrc, hi]
    decide

/-- Concrete one-row table with every binned column at its global lower bound. -/
def w3Table : Table :=
  ⟨[⟨"age", .float, [.num 0]⟩,
    ⟨"income", .float, [.num 0]⟩,
    ⟨"purchase_amount", .float, [.num 0]⟩,
    ⟨"rating", .float, [.num 0]⟩,
    ⟨"discount_percent", .float, [.num 0]⟩]⟩

/-- Witness for the amended C3 at a concrete input. -/
theorem C3_lower_bound_cells_witness :
    (binFive w3Table).cellAt "age_group" 0 = some (.str "18-25") ∧
    (binFive w3Table).cellAt "rating_category" 0 = some (.str "Poor") ∧
    (binFive w3Table).cellAt "discount_tier" 0 = some (.str "No Discount") ∧
    (binFive w3Table).cellAt "income_bracket" 0 = some Cell.na ∧
    (binFive w3Table).cellAt "purchase_category" 0 = some Cell.na := by
  have h := C3_lower_bound_cells w3Table (binFive w3Table) 0 rfl
  exact ⟨h.1 _ rfl rfl, h.2.1 _ rfl rfl, h.2.2.1 _ rfl rfl,
    h.2.2.2.1 _ rfl rfl, h.2.2.2.2 _ rfl rfl⟩

/-- C3, counterexample.  `income = 0` — exactly the global lower bound of
the income bin table — is assigned a missing label by stage 3, not the
first bin's label `"Low"` (the income `pd.cut` does not pass
`include_lowest=True`). -/
theorem C3_counterexample :
    (bin_numeric_ranges w3Table).map (fun u => u.cellAt "income_bracket" 0)
      = .ok (some Cell.na) ∧ Cell.na ≠ Cell.str "Low" := by
  constructor
  · rfl
  · decide

/-! ### Supporting development for the quartile claim (C4) -/

/-- The quantile computation of `quantileAt`, restricted to columns whose
non-missing values are all finite, expressed over `ℚ`. -/
def quantQ (l : List ℚ) (q : ℚ) : ℚ :=
  match l with
  | [] => 0
  | _ =>
      let n := l.length
      let pos : ℚ := q * (n - 1)
      let i : ℕ := (ratFloor pos).toNat
      match l.get? i, l.get? (i + 1) with
      | some a, some b => a + (b - a) * (pos - ratFloor pos)
      | some a, none => a
      | _, _ => 0

theorem filter_toEN_of_clean (cells : List Cell)
    (h : ∀ x ∈ cells, x = Cell.na ∨ ∃ q, x = Cell.num q) :
    (cells.map Cell.toEN).filter (fun v => v != ENum.nan)
      = (cells.filterMap Cell.asQ).map ENum.fin := by
  induction cells with
  | nil => rfl
  | cons c rest ih =>
      have hc := h c (List.mem_cons_self _ _)
      have hrest := fun x hx => h x (List.mem_cons_of_mem _ hx)
      rcases hc with rfl | ⟨q, rfl⟩
      · simpa [Cell.toEN, Cell.asQ] using ih hrest
      · simpa [Cell.toEN, Cell.asQ, List.filterMap_cons] using ih hrest

theorem orderedInsert_map_fin (a : ℚ) (l : List ℚ) :
    List.orderedInsert (fun x y => ENum.keyLe x y = true) (ENum.fin a) (l.map ENum.fin)
      = (List.orderedInsert (fun x y : ℚ => x ≤ y) a l).map ENum.fin := by
  induction l with
  | nil => rfl
  | cons b rest ih =>
      simp only [List.map_cons, List.orderedInsert]
      by_cases hab : a ≤ b
      · rw [if_pos (by simp [ENum.keyLe, hab]), if_pos hab]
        simp
      · rw [if_neg (by simp [ENum.keyLe, hab]), if_neg hab]
        simp [ih]

theorem insertionSort_map_fin (l : List ℚ) :
    List.insertionSort (fun x y => ENum.keyLe x y = true) (l.map ENum.fin)
      = (List.insertionSort (fun x y : ℚ => x ≤ y) l).map ENum.fin := by
  induction l with
  | nil => rfl
  | cons a rest ih =>
      simp only [List.map_cons, List.insertionSort, ih]
      exact orderedInsert_map_fin a _

theorem sortedVals_of_clean (cells : List Cell)
    (h : ∀ x ∈ cells, x = Cell.na ∨ ∃ q, x = Cell.num q) :
    sortedVals cells
      = (List.insertionSort (fun x y : ℚ => x ≤ y) (cells.filterMap Cell.asQ)).map
          ENum.fin := by
  unfold sortedVals
  rw [filter_toEN_of_clean cells h, insertionSort_map_fin]

theorem quantileAt_map_fin (a : ℚ) (rest : List ℚ) (q : ℚ)
    (hq0 : 0 ≤ q) (hq1 : q ≤ 1) :
    quantileAt ((a :: rest).map ENum.fin) q = .fin (quantQ (a :: rest) q) := by
  have hn1 : (1 : ℚ) ≤ ((rest.length + 1 : ℕ) : ℚ) := by
    have : (1 : ℕ) ≤ rest.length + 1 := Nat.le_add_left 1 rest.length
    exact_mod_cast this
  have hpos0 : 0 ≤ q * (((rest.length + 1 : ℕ) : ℚ) - 1) :=
    mul_nonneg hq0 (by linarith)
  have hposle : q * (((rest.length + 1 : ℕ) : ℚ) - 1) ≤ ((rest.length + 1 : ℕ) : ℚ) - 1 := by
    nlinarith
  have hfl0 : 0 ≤ ratFloor (q * (((rest.length + 1 : ℕ) : ℚ) - 1)) := by
    rw [ratFloor_eq_floor]
    exact Int.le_floor.mpr (by exact_mod_cast hpos0)
  have hfln : ratFloor (q * (((rest.length + 1 : ℕ) : ℚ) - 1))
      ≤ ((rest.length + 1 : ℕ) : ℤ) - 1 := by
    rw [ratFloor_eq_floor]
    calc ⌊q * (((rest.length + 1 : ℕ) : ℚ) - 1)⌋
        ≤ ⌊((((rest.length + 1 : ℕ) : ℤ) - 1 : ℤ) : ℚ)⌋ :=
          Int.floor_le_floor (by push_cast; push_cast at hposle; linarith)
      _ = ((rest.length + 1 : ℕ) : ℤ) - 1 := Int.floor_intCast _
  have hiln : (ratFloor (q * (((rest.length + 1 : ℕ) : ℚ) - 1))).toNat < rest.length + 1 := by
    omega
  rw [List.map_cons]
  unfold quantileAt quantQ
  dsimp only
  rw [show (ENum.fin a :: List.map ENum.fin rest) = (a :: rest).map ENum.fin from
    (List.map_cons _ _ _).symm]
  rw [List.length_map, List.length_cons]
  by_cases hlast : (ratFloor (q * (((rest.length + 1 : ℕ) : ℚ) - 1))).toNat + 1
      < rest.length + 1
  · have hi1 : (ratFloor (q * (((rest.length + 1 : ℕ) : ℚ) - 1))).toNat
        < (a :: rest).length := by
      simp only [List.length_cons]
      omega
    have hi2 : (ratFloor (q * (((rest.length + 1 : ℕ) : ℚ) - 1))).toNat + 1
        < (a :: rest).length := by
      simp only [List.length_cons]
      exact hlast
    rw [List.get?_map, List.get?_map, List.get?_eq_get hi1, List.get?_eq_get hi2]
    push_cast
    simp only [Option.map_some', ENum.add, ENum.sub, ENum.neg, ENum.mul, ENum.fin.injEq]
    ring
  · have hnone : (a :: rest).get? ((ratFloor (q * (((rest.length + 1 : ℕ) : ℚ) - 1))).toNat + 1)
        = none := by
      rw [List.get?_eq_none]
      simp only [List.length_cons]
      omega
    have hi1 : (ratFloor (q * (((rest.length + 1 : ℕ) : ℚ) - 1))).toNat
        < (a :: rest).length := by
      simp only [List.length_cons]
      omega
    rw [List.get?_map, List.get?_map, List.get?_eq_get hi1, hnone]
    push_cast
    simp

theorem quantQ_zero (a : ℚ) (rest : List ℚ) : quantQ (a :: rest) 0 = a := by
  unfold quantQ
  dsimp only
  rw [zero_mul, show ratFloor 0 = 0 by rw [ratFloor_eq_floor]; exact Int.floor_zero]
  cases rest with
  | nil => simp
  | cons b bs => simp

theorem quantQ_one (a : ℚ) (rest : List ℚ) :
    quantQ (a :: rest) 1 = (a :: rest).getLast (by simp) := by
  unfold quantQ
  dsimp only
  have hfl : ratFloor (1 * (((a :: rest).length : ℚ) - 1)) = ((a :: rest).length : ℤ) - 1 := by
    rw [ratFloor_eq_floor, one_mul]
    rw [show (((a :: rest).length : ℚ) - 1) = ((((a :: rest).length : ℤ) - 1 : ℤ) : ℚ) by
      push_cast; ring]
    exact Int.floor_intCast _
  rw [hfl]
  have hlen : (((a :: rest).length : ℤ) - 1).toNat = (a :: rest).length - 1 := by
    simp only [List.length_cons]
    omega
  rw [hlen]
  have hi1 : (a :: rest).length - 1 < (a :: rest).length := by simp
  have hnone : (a :: rest).get? ((a :: rest).length - 1 + 1) = none := by
    rw [List.get?_eq_none]
    simp
  rw [List.get?_eq_get hi1, hnone, List.getLast_eq_get]

theorem sorted_bounds {a : ℚ} {rest : List ℚ} (hs : List.Sorted (· ≤ ·) (a :: rest))
    {x : ℚ} (hx : x ∈ a :: rest) :
    a ≤ x ∧ x ≤ (a :: rest).getLast (by simp) := by
  obtain ⟨⟨k, hk⟩, hget⟩ := List.mem_iff_get.mp hx
  rw [List.get_eq_getElem] at hget
  constructor
  · have h0k : (⟨0, by simp⟩ : Fin (a :: rest).length) ≤ ⟨k, hk⟩ := by
      simp [Fin.mk_le_mk]
    have := hs.rel_get_of_le h0k
    simpa [hget] using this
  · rw [List.getLast_eq_get]
    have hkl : (⟨k, hk⟩ : Fin (a :: rest).length)
        ≤ ⟨(a :: rest).length - 1, by simp⟩ := by
      simp only [Fin.mk_le_mk]
      omega
    have := hs.rel_get_of_le hkl
    simpa [hget] using this

theorem cutGo_quartile_mem (e0 e1 e2 e3 e4 x : ℚ) (h0 : e0 ≤ x) (h4 : x ≤ e4) :
    cutGo (.fin x) [.fin e0, .fin e1, .fin e2, .fin e3, .fin e4]
      [Cell.str "Q1", .str "Q2", .str "Q3", .str "Q4"] true
      ∈ [Cell.str "Q1", .str "Q2", .str "Q3", .str "Q4"] := by
  by_cases hx1 : x ≤ e1
  · rcases lt_or_eq_of_le h0 with h0' | h0'
    · simp [cutGo, ENum.ltB, ENum.leB, hx1, h0']
    · subst h0'
      simp [cutGo, ENum.ltB, ENum.leB, hx1]
  · have h1 := not_le.mp hx1
    by_cases hx2 : x ≤ e2
    · simp [cutGo, ENum.ltB, ENum.leB, hx1, hx2, h1]
    · have h2 := not_le.mp hx2
      by_cases hx3 : x ≤ e3
      · simp [cutGo, ENum.ltB, ENum.leB, hx1, hx2, hx3, h2]
      · have h3 := not_le.mp hx3
        simp [cutGo, ENum.ltB, ENum.leB, hx1, hx2, hx3, h3, h4]

theorem getCol_binFive_ne (t : Table) {m : String}
    (h1 : m ≠ "age_group") (h2 : m ≠ "income_bracket") (h3 : m ≠ "purchase_category")
    (h4 : m ≠ "rating_category") (h5 : m ≠ "discount_tier") :
    (binFive t).getCol m = t.getCol m := by
  unfold binFive
  dsimp only
  rw [getCol_binStep_ne _ h5, getCol_binStep_ne _ h4, getCol_binStep_ne _ h3,
    getCol_binStep_ne _ h2, getCol_binStep_ne _ h1]

theorem stage3_price_quartile (t t' : Table) {c : Col}
    (hfp : t.getCol "final_price" = some c)
    (hok : bin_numeric_ranges t = .ok t') :
    ∃ cs, qcutQuartiles c.cells = .ok cs ∧
      ∀ i, t'.cellAt "price_quartile" i = cs.get? i := by
  have hfp5 : (binFive t).getCol "final_price" = some c := by
    rw [getCol_binFive_ne t (by decide) (by decide) (by decide) (by decide) (by decide)]
    exact hfp
  unfold bin_numeric_ranges at hok
  dsimp only at hok
  rw [hfp5] at hok
  dsimp only at hok
  cases hq : qcutQuartiles c.cells with
  | error e =>
      rw [hq] at hok
      dsimp only [Except.map] at hok
      cases hok
  | ok cs =>
      rw [hq] at hok
      dsimp only [Except.map] at hok
      refine ⟨cs, rfl, ?_⟩
      intro i
      cases hipr : ((binFive t).setCol "price_quartile" .cat cs).getCol
          "income_purchase_ratio" with
      | none =>
          rw [hipr] at hok
          dsimp only at hok
          cases hok
          unfold Table.cellAt
          rw [Table.getCol_setCol_self]
          rfl
      | some c2 =>
          rw [hipr] at hok
          dsimp only at hok
          cases hew : equalWidthCut5 c2.cells with
          | error e => rw [hew] at hok; dsimp only [Except.map] at hok; cases hok
          | ok cs2 =>
              rw [hew] at hok
              dsimp only [Except.map] at hok
              cases hok
              unfold Table.cellAt
              rw [Table.getCol_setCol_ne _ (by decide), Table.getCol_setCol_self]
              rfl

/-- C4, amended.  `pd.qcut(final_price, 4, labels=['Q1'..'Q4'],
duplicates='drop')`: when the five quantile edges are distinct, every row
with a (finite) numeric `final_price` is assigned one of the labels
`Q1..Q4` (computed from the column's own distribution) and a missing
value yields a missing label; but when duplicate quantile edges arise,
pandas raises `ValueError` (the explicit 4-label list no longer matches
the reduced number of bins) — the stage fails instead of collapsing to
fewer labels. -/
theorem C4_price_quartile (t : Table) (c : Col)
    (hfp : t.getCol "final_price" = some c)
    (hclean : ∀ x ∈ c.cells, x = Cell.na ∨ ∃ q, x = Cell.num q) :
    ((dedupConsec (qcutEdges c.cells)).length ≠ 5 →
      bin_numeric_ranges t
        = .error "Bin labels must be one fewer than the number of bin edges") ∧
    (∀ t', bin_numeric_ranges t = .ok t' → ∀ i,
      (∀ x : ℚ, c.cells.get? i = some (.num x) →
        t'.cellAt "price_quartile" i
          ∈ [some (Cell.str "Q1"), some (.str "Q2"), some (.str "Q3"), some (.str "Q4")]) ∧
      (c.cells.get? i = some .na → t'.cellAt "price_quartile" i = some Cell.na)) := by
  have hfp5 : (binFive t).getCol "final_price" = some c := by
    rw [getCol_binFive_ne t (by decide) (by decide) (by decide) (by decide) (by decide)]
    exact hfp
  constructor
  · intro hdedup
    unfold bin_numeric_ranges
    dsimp only
    rw [hfp5]
    dsimp only
    unfold qcutQuartiles
    rw [if_pos hdedup]
    rfl
  · intro t' hok i
    obtain ⟨cs, hq, hcell⟩ := stage3_price_quartile t t' hfp hok
    unfold qcutQuartiles at hq
    by_cases hd : (dedupConsec (qcutEdges c.cells)).length ≠ 5
    · rw [if_pos hd] at hq
      cases hq
    · rw [if_neg hd] at hq
      have hcs : cs = c.cells.map
          (cutAssign (qcutEdges c.cells)
            [Cell.str "Q1", .str "Q2", .str "Q3", .str "Q4"] true) := by
        cases hq
        rfl
      constructor
      · intro x hxi
        have hm : Cell.num x ∈ c.cells := List.get?_mem hxi
        have hmq : x ∈ c.cells.filterMap Cell.asQ :=
          List.mem_filterMap.mpr ⟨_, hm, rfl⟩
        have hxL : x ∈ List.insertionSort (fun x y : ℚ => x ≤ y)
            (c.cells.filterMap Cell.asQ) :=
          (List.perm_insertionSort _ _).mem_iff.mpr hmq
        have hsort : List.Sorted (fun x y : ℚ => x ≤ y)
            (List.insertionSort (fun x y : ℚ => x ≤ y) (c.cells.filterMap Cell.asQ)) :=
          List.sorted_insertionSort _ _
        cases hL : List.insertionSort (fun x y : ℚ => x ≤ y)
            (c.cells.filterMap Cell.asQ) with
        | nil => rw [hL] at hxL; cases hxL
        | cons a rest =>
            rw [hL] at hxL hsort
            have hsv : sortedVals c.cells = (a :: rest).map ENum.fin := by
              rw [sortedVals_of_clean c.cells hclean, hL]
            have hedges : qcutEdges c.cells
                = [.fin (quantQ (a :: rest) 0), .fin (quantQ (a :: rest) (1/4)),
                   .fin (quantQ (a :: rest) (1/2)), .fin (quantQ (a :: rest) (3/4)),
                   .fin (quantQ (a :: rest) 1)] := by
              unfold qcutEdges
              dsimp only
              rw [hsv,
                quantileAt_map_fin a rest 0 (by norm_num) (by norm_num),
                quantileAt_map_fin a rest (1/4) (by norm_num) (by norm_num),
                quantileAt_map_fin a rest (1/2) (by norm_num) (by norm_num),
                quantileAt_map_fin a rest (3/4) (by norm_num) (by norm_num),
                quantileAt_map_fin a rest 1 (by norm_num) (by norm_num)]
            have hbounds := sorted_bounds hsort hxL
            have hcut : cutAssign (qcutEdges c.cells)
                [Cell.str "Q1", .str "Q2", .str "Q3", .str "Q4"] true (.num x)
                ∈ [Cell.str "Q1", .str "Q2", .str "Q3", .str "Q4"] := by
              rw [hedges]
              show cutGo (.fin x) _ _ true ∈ _
              apply cutGo_quartile_mem
              · rw [quantQ_zero]
                exact hbounds.1
              · rw [quantQ_one]
                exact hbounds.2
            have hval : t'.cellAt "price_quartile" i
                = some (cutAssign (qcutEdges c.cells)
                    [Cell.str "Q1", .str "Q2", .str "Q3", .str "Q4"] true (.num x)) := by
              rw [hcell i, hcs, List.get?_map, hxi]
              rfl
            rw [hval]
            simp only [List.mem_cons, List.mem_singleton] at hcut
            rcases hcut with h | h | h | (h | h)
            · rw [h]; simp
            · rw [h]; simp
            · rw [h]; simp
            · rw [h]; simp
            · cases h
      · intro hna
        rw [hcell i, hcs, List.get?_map, hna]
        rfl

/-- Concrete table whose `final_price` column is constant, so all five
quartile edges coincide. -/
def w4cTable : Table :=
  ⟨[⟨"final_price", .float, [.num 1, .num 1, .num 1, .num 1]⟩]⟩

/-- C4, counterexample.  On a table whose `final_price` values are all
equal, the quartile edges are all duplicates; `duplicates='drop'`
collapses them, the explicit label list `['Q1'..'Q4']` no longer matches,
and `pd.qcut` raises `ValueError` — stage 3 fails instead of producing
fewer distinct labels. -/
theorem C4_counterexample :
    bin_numeric_ranges w4cTable
      = .error "Bin labels must be one fewer than the number of bin edges" := by
  have hsv : sortedVals [.num 1, .num 1, .num 1, .num 1]
      = [.fin 1, .fin 1, .fin 1, .fin 1] := by decide
  have hquart : ∀ q : ℚ, 0 ≤ q → q ≤ 1 →
      quantileAt [ENum.fin 1, .fin 1, .fin 1, .fin 1] q = .fin 1 := by
    intro q hq0 hq1
    rw [show ([ENum.fin 1, .fin 1, .fin 1, .fin 1] : List ENum)
        = ([1, 1, 1, 1] : List ℚ).map ENum.fin from rfl,
      quantileAt_map_fin 1 [1, 1, 1] q hq0 hq1]
    unfold quantQ
    dsimp only
    norm_num
    have hfl0 : 0 ≤ ratFloor (q * 3) := by
      rw [ratFloor_eq_floor]
      have h30 : (0 : ℚ) ≤ q * 3 := mul_nonneg hq0 (by norm_num)
      exact Int.le_floor.mpr (by exact_mod_cast h30)
    have hfl3 : ratFloor (q * 3) ≤ 3 := by
      rw [ratFloor_eq_floor]
      have h3 : q * 3 ≤ 3 := by nlinarith
      calc ⌊q * 3⌋ ≤ ⌊(3 : ℚ)⌋ := Int.floor_le_floor h3
        _ = 3 := by norm_num
    have hle : (ratFloor (q * 3)).toNat ≤ 3 := by omega
    generalize hgen : (ratFloor (q * 3)).toNat = i at hle ⊢
    interval_cases i <;> norm_num [List.get?]
  have hedges : qcutEdges [.num 1, .num 1, .num 1, .num 1]
      = [.fin 1, .fin 1, .fin 1, .fin 1, .fin 1] := by
    unfold qcutEdges
    dsimp only
    rw [hsv, hquart 0 (by norm_num) (by norm_num), hquart (1/4) (by norm_num) (by norm_num),
      hquart (1/2) (by norm_num) (by norm_num), hquart (3/4) (by norm_num) (by norm_num),
      hquart 1 (by norm_num) (by norm_num)]
  have hb : (binFive w4cTable).getCol "final_price"
      = some ⟨"final_price", .float, [.num 1, .num 1, .num 1, .num 1]⟩ := rfl
  unfold bin_numeric_ranges
  dsimp only
  rw [hb]
  dsimp only
  unfold qcutQuartiles
  dsimp only
  rw [hedges]
  rw [if_pos (by decide)]
  rfl

/-- Concrete table with four distinct `final_price` values. -/
def w4Table : Table :=
  ⟨[⟨"final_price", .float, [.num 1, .num 2, .num 3, .num 4]⟩]⟩

/-- Witness for the amended C4 at a concrete input. -/
theorem C4_price_quartile_witness :
    (w4Table.setCol "price_quartile" DType.cat
        [Cell.str "Q1", .str "Q2", .str "Q3", .str "Q4"]).cellAt "price_quartile" 0
      ∈ [some (Cell.str "Q1"), some (Cell.str "Q2"), some (Cell.str "Q3"),
         some (Cell.str "Q4")] := by
  have hsv : sortedVals [.num 1, .num 2, .num 3, .num 4]
      = [.fin 1, .fin 2, .fin 3, .fin 4] := by decide
  have h00 : quantileAt [ENum.fin 1, .fin 2, .fin 3, .fin 4] 0 = .fin 1 := by
    norm_num [quantileAt, ratFloor_eq_floor, ENum.add, ENum.sub, ENum.neg, ENum.mul,
      List.get?, Int.toNat]
  have h14 : quantileAt [ENum.fin 1, .fin 2, .fin 3, .fin 4] (1/4) = .fin (7/4) := by
    norm_num [quantileAt, ratFloor_eq_floor, ENum.add, ENum.sub, ENum.neg, ENum.mul,
      List.get?, Int.toNat]
  have h12 : quantileAt [ENum.fin 1, .fin 2, .fin 3, .fin 4] (1/2) = .fin (5/2) := by
    norm_num [quantileAt, ratFloor_eq_floor, ENum.add, ENum.sub, ENum.neg, ENum.mul,
      List.get?, Int.toNat]
  have h34 : quantileAt [ENum.fin 1, .fin 2, .fin 3, .fin 4] (3/4) = .fin (13/4) := by
    norm_num [quantileAt, ratFloor_eq_floor, ENum.add, ENum.sub, ENum.neg, ENum.mul,
      List.get?, Int.toNat]
  have h11 : quantileAt [ENum.fin 1, .fin 2, .fin 3, .fin 4] 1 = .fin 4 := by
    norm_num [quantileAt, ratFloor_eq_floor, ENum.add, ENum.sub, ENum.neg, ENum.mul,
      List.get?, Int.toNat]
  have hedges : qcutEdges [.num 1, .num 2, .num 3, .num 4]
      = [.fin 1, .fin (7/4), .fin (5/2), .fin (13/4), .fin 4] := by
    unfold qcutEdges
    dsimp only
    rw [hsv, h00, h14, h12, h34, h11]
  have hmap : [Cell.num 1, .num 2, .num 3, .num 4].map
      (cutAssign (qcutEdges [.num 1, .num 2, .num 3, .num 4])
        [Cell.str "Q1", .str "Q2", .str "Q3", .str "Q4"] true)
      = [Cell.str "Q1", .str "Q2", .str "Q3", .str "Q4"] := by
    rw [hedges]
    norm_num [cutAssign, cutGo, Cell.toEN, ENum.ltB, ENum.leB]
  have hok : bin_numeric_ranges w4Table
      = .ok (w4Table.setCol "price_quartile" DType.cat
          [Cell.str "Q1", .str "Q2", .str "Q3", .str "Q4"]) := by
    have hb : (binFive w4Table).getCol "final_price"
        = some ⟨"final_price", .float, [.num 1, .num 2, .num 3, .num 4]⟩ := rfl
    have hbt : binFive w4Table = w4Table := rfl
    unfold bin_numeric_ranges
    dsimp only
    rw [hb]
    dsimp only
    unfold qcutQuartiles
    dsimp only
    rw [if_neg (by
      rw [hedges]
      norm_num [dedupConsec, beq_iff_eq, ENum.fin.injEq])]
    rw [hmap, hbt]
    rfl
  have hclean : ∀ x ∈ (⟨"final_price", .float,
      [Cell.num 1, .num 2, .num 3, .num 4]⟩ : Col).cells,
      x = Cell.na ∨ ∃ q, x = Cell.num q := by
    intro x hx
    simp only [List.mem_cons, List.not_mem_nil, or_false] at hx
    rcases hx with rfl | rfl | rfl | rfl
    · exact Or.inr ⟨1, rfl⟩
    · exact Or.inr ⟨2, rfl⟩
    · exact Or.inr ⟨3, rfl⟩
    · exact Or.inr ⟨4, rfl⟩
  have h := (C4_price_quartile w4Table
      ⟨"final_price", .float, [.num 1, .num 2, .num 3, .num 4]⟩ rfl hclean).2 _ hok 0
  exact h.1 1 rfl

/-! ### Stage 2: `encode_categorical_features` -/

/-- Result of `pd.to_datetime` on one cell, at day granularity: `none`
means the conversion raises (so the whole column is excluded from
categorical treatment), `some none` is NaT.  String parsing is a
parameter (`pd.to_datetime`'s accepted formats are an external concern);
numbers convert as nanoseconds since the epoch; booleans and interval
values make `to_datetime` raise. -/
def parseCellDT (parseDT : String → Option ℤ) : Cell → Option (Option ℤ)
  | .na => some none
  | .str s => (parseDT s).map some
  | .num q => some (some (ratFloor (q / 86400000000000)))
  | .ts d => some (some d)
  | _ => none

/-- `pd.to_datetime` over a whole column: all-or-nothing. -/
def parseColDT (parseDT : String → Option ℤ) (cells : List Cell) :
    Option (List (Option ℤ)) :=
  cells.mapM (parseCellDT parseDT)

/-- The hardcoded ordinal order for `education`. -/
def eduOrder : List String := ["High School", "Bachelor", "Master", "PhD"]

/-- `Series.map({v: i for i, v in enumerate(order)})` on one cell:
0-based rank in the list, anything else (including non-strings and
missing) becomes NaN. -/
def eduEncodeCell (c : Cell) : Cell :=
  match c with
  | .str s =>
      match eduOrder.indexOf? s with
      | some i => .num i
      | none => .na
  | _ => .na

/-- Text used by `get_dummies` to name the indicator column of a value. -/
def cellText : Cell → String
  | .str s => s
  | .num q => toString q
  | .bool b => toString b
  | .ts d => toString d
  | .pinf => "inf"
  | .ninf => "-inf"
  | .iv a b => toString a ++ "_" ++ toString b
  | .na => "nan"

/-- The observed distinct non-missing values of a column (`get_dummies`
ignores NaN by default).  Pandas orders the indicator columns by sorted
value; the claims do not depend on that order, so first-class order of
`List.dedup` is used. -/
def distinctNonNA (cells : List Cell) : List Cell :=
  (cells.filter (fun c => c != Cell.na)).dedup

/-- `pd.get_dummies(df[col], prefix=col)` followed by
`pd.concat([df, dummies], axis=1)`: one boolean indicator column per
observed distinct value, appended after all existing columns. -/
def oneHotFor (t : Table) (cname : String) : Table :=
  match t.getCol cname with
  | none => t
  | some c =>
      let vals := distinctNonNA c.cells
      let dums := vals.map (fun v =>
        Col.mk (cname ++ "_" ++ cellText v) .boolean
          (c.cells.map (fun x => Cell.bool (x == v))))
      ⟨t.cols ++ dums⟩

/-- Frequency encoding of one column: `value_counts(normalize=True)`
(NaN excluded) mapped back over the column and rounded to 4 decimals;
missing cells stay missing. -/
def freqStep (t : Table) (n : String) : Table :=
  match t.getCol n with
  | none => t
  | some c =>
      let nonNA := c.cells.filter (fun x => x != Cell.na)
      t.setCol (n ++ "_freq") .float (c.cells.map (fun x =>
        if x == Cell.na then Cell.na
        else .num (roundQ 4 ((nonNA.count x : ℚ) / nonNA.length))))

/-- The columns that receive frequency encoding: object-dtype columns
that `to_datetime` cannot fully parse and that are not the ordinal or
nominal features. -/
def freqTargets (parseDT : String → Option ℤ) (t : Table) : List String :=
  (((t.cols.filter (fun c => c.dtype == .obj)).filter
      (fun c => (parseColDT parseDT c.cells).isNone)).map (·.name)).filter
    (fun n => !(["education", "gender", "product_category"].contains n))

/-- `encode_categorical_features` (stage 2): ordinal encoding of
`education`, one-hot encoding of `gender` and `product_category`,
frequency encoding of the remaining categorical columns. -/
def encode_categorical_features (parseDT : String → Option ℤ) (t : Table) : Table :=
  let t1 := match t.getCol "education" with
    | some c => t.setCol "education_encoded" .float (c.cells.map eduEncodeCell)
    | none => t
  let t2 := oneHotFor t1 "gender"
  let t3 := oneHotFor t2 "product_category"
  (freqTargets parseDT t).foldl freqStep t3

theorem getCol_freqStep_ne (t : Table) {n m : String} (h : m ≠ n ++ "_freq") :
    (freqStep t n).getCol m = t.getCol m := by
  unfold freqStep
  cases hc : t.getCol n with
  | none => rfl
  | some c => exact Table.getCol_setCol_ne t h _ _

theorem getCol_foldl_freqStep (names : List String) (t : Table) (m : String)
    (h : ∀ n ∈ names, m ≠ n ++ "_freq") :
    (names.foldl freqStep t).getCol m = t.getCol m := by
  induction names generalizing t with
  | nil => rfl
  | cons n rest ih =>
      rw [List.foldl_cons, ih _ (fun n' hn' => h n' (List.mem_cons_of_mem _ hn')),
        getCol_freqStep_ne t (h n (List.mem_cons_self _ _))]

theorem getCol_oneHotFor_of_found (t : Table) (cname : String) {m : String} {col : Col}
    (h : t.getCol m = some col) :
    (oneHotFor t cname).getCol m = some col := by
  unfold oneHotFor
  cases hc : t.getCol cname with
  | none => exact h
  | some c =>
      show (Table.mk _).getCol m = some col
      unfold Table.getCol at h ⊢
      rw [List.find?_append, h]
      rfl

theorem ne_append_of_drop_ne {m s : String} (n : String) (hlen : s.length ≤ m.length)
    (hdrop : m.data.drop (m.length - s.length) ≠ s.data) : m ≠ n ++ s := by
  intro h
  apply hdrop
  have hdata : m.data = n.data ++ s.data := by
    rw [h, String.data_append]
  have hl : m.length = n.length + s.length := by
    rw [h, String.length_append]
  have : m.length - s.length = n.length := by omega
  rw [this, hdata]
  have hnd : n.length = n.data.length := rfl
  rw [hnd, List.drop_left]

/-- C8.  For every table containing `education`, stage 2 adds
`education_encoded` mapping each cell through the hardcoded order
High School ↦ 0, Bachelor ↦ 1, Master ↦ 2, PhD ↦ 3 (strictly increasing
ranks), and every category outside the list — and every non-string
cell — maps to a missing value. -/
theorem C8_education_encoded (parseDT : String → Option ℤ) (t : Table) (c : Col)
    (hc : t.getCol "education" = some c) (i : ℕ) :
    (encode_categorical_features parseDT t).cellAt "education_encoded" i
      = (c.cells.get? i).map eduEncodeCell ∧
    eduEncodeCell (.str "High School") = .num 0 ∧
    eduEncodeCell (.str "Bachelor") = .num 1 ∧
    eduEncodeCell (.str "Master") = .num 2 ∧
    eduEncodeCell (.str "PhD") = .num 3 ∧
    (∀ s : String, s ∉ eduOrder → eduEncodeCell (.str s) = .na) ∧
    (∀ x : Cell, (∀ s, x ≠ .str s) → eduEncodeCell x = .na) ∧
    ((0 : ℚ) < 1 ∧ (1 : ℚ) < 2 ∧ (2 : ℚ) < 3) := by
  refine ⟨?_, by decide, by decide, by decide, by decide, ?_, ?_, by norm_num⟩
  · unfold encode_categorical_features
    dsimp only
    rw [hc]
    dsimp only
    have h1 : (t.setCol "education_encoded" .float (c.cells.map eduEncodeCell)).getCol
        "education_encoded"
        = some ⟨"education_encoded", .float, c.cells.map eduEncodeCell⟩ :=
      Table.getCol_setCol_self t _ _ _
    have h2 := getCol_oneHotFor_of_found _ "gender" h1
    have h3 := getCol_oneHotFor_of_found _ "product_category" h2
    have h4 : ∀ n ∈ freqTargets parseDT t, "education_encoded" ≠ n ++ "_freq" := by
      intro n _
      exact ne_append_of_drop_ne n (by decide) (by decide)
    unfold Table.cellAt
    rw [getCol_foldl_freqStep _ _ _ h4, h3]
    simp
  · intro s hs
    unfold eduEncodeCell
    dsimp only
    rw [List.indexOf?_eq_none_iff.mpr (fun x hx => by
      simp only [beq_iff_eq]
      intro hxs
      exact hs (hxs ▸ hx))]
  · intro x hx
    unfold eduEncodeCell
    cases x with
    | str s => exact absurd rfl (hx s)
    | na => rfl
    | num q => rfl
    | pinf => rfl
    | ninf => rfl
    | ts d => rfl
    | bool b => rfl
    | iv a b => rfl

/-- Concrete table for the C8 witness. -/
def w8Table : Table :=
  ⟨[⟨"education", .obj, [.str "Bachelor", .str "Diploma", .na]⟩]⟩

/-- Witness for C8 at a concrete input. -/
theorem C8_education_encoded_witness :
    (encode_categorical_features (fun _ => none) w8Table).cellAt "education_encoded" 1
      = ((⟨"education", .obj, [.str "Bachelor", .str "Diploma", .na]⟩ : Col).cells.get? 1).map
          eduEncodeCell ∧
    eduEncodeCell (.str "High School") = .num 0 ∧
    eduEncodeCell (.str "Bachelor") = .num 1 ∧
    eduEncodeCell (.str "Master") = .num 2 ∧
    eduEncodeCell (.str "PhD") = .num 3 ∧
    (∀ s : String, s ∉ eduOrder → eduEncodeCell (.str s) = .na) ∧
    (∀ x : Cell, (∀ s, x ≠ .str s) → eduEncodeCell x = .na) ∧
    ((0 : ℚ) < 1 ∧ (1 : ℚ) < 2 ∧ (2 : ℚ) < 3) :=
  C8_education_encoded (fun _ => none) w8Table _ rfl 1

theorem append_left_cancel' {p a b : String} (h : p ++ a = p ++ b) : a = b := by
  apply String.ext
  apply @List.append_cancel_left _ p.data
  rw [← String.data_append, ← String.data_append, h]

theorem append_ne_of_take {p s m : String} (h : m.data.take p.length ≠ p.data) :
    p ++ s ≠ m := by
  intro he
  apply h
  rw [← he, String.data_append]
  have hp : p.length = p.data.length := rfl
  rw [hp, List.take_left]

theorem find?_dummyCols (cname : String) (cells : List Cell) (vals : List Cell)
    (v : Cell) (hv : v ∈ vals)
    (hinj : ∀ v1 ∈ vals, ∀ v2 ∈ vals, cellText v1 = cellText v2 → v1 = v2) :
    (vals.map (fun w => Col.mk (cname ++ "_" ++ cellText w) .boolean
        (cells.map (fun x => Cell.bool (x == w))))).find?
      (fun cc => cc.name == cname ++ "_" ++ cellText v)
      = some ⟨cname ++ "_" ++ cellText v, .boolean,
          cells.map (fun x => Cell.bool (x == v))⟩ := by
  induction vals with
  | nil => cases hv
  | cons w rest ih =>
      by_cases hwv : cellText w = cellText v
      · have hw : w = v := hinj w (List.mem_cons_self _ _) v hv hwv
        subst hw
        rw [List.map_cons, List.find?_cons_of_pos _ (by simp)]
      · have hv' : v ∈ rest := by
          rcases List.mem_cons.mp hv with rfl | hv'
          · exact absurd rfl hwv
          · exact hv'
        rw [List.map_cons, List.find?_cons_of_neg _ (by
          simp only [beq_iff_eq]
          intro he
          exact hwv (append_left_cancel' he))]
        exact ih hv' (fun v1 h1 v2 h2 =>
          hinj v1 (List.mem_cons_of_mem _ h1) v2 (List.mem_cons_of_mem _ h2))

theorem append_ne_append_left {p1 p2 : String} (k : ℕ) (hk1 : k ≤ p1.length)
    (hk2 : k ≤ p2.length) (hne : p1.data.take k ≠ p2.data.take k) :
    ∀ x y : String, p1 ++ x ≠ p2 ++ y := by
  intro x y he
  apply hne
  have hdata : p1.data ++ x.data = p2.data ++ y.data := by
    rw [← String.data_append, ← String.data_append, he]
  have h1 : (p1.data ++ x.data).take k = p1.data.take k :=
    List.take_append_of_le_length hk1
  have h2 : (p2.data ++ y.data).take k = p2.data.take k :=
    List.take_append_of_le_length hk2
  rw [← h1, ← h2, hdata]

/-- C5, amended.  For every table containing one of the nominal columns
(`gender` or `product_category`), stage 2 appends one boolean indicator
column per observed distinct non-missing value of that column; on a row
with a non-missing value exactly one of those indicators is true
(pandas bool True = 1), and on a row with a missing value every
indicator is false (`get_dummies` ignores NaN).  The freshness
hypotheses rule out name collisions with pre-existing columns and with
frequency-encoded columns, which pandas would otherwise surface as
duplicate column labels. -/
theorem C5_one_hot (parseDT : String → Option ℤ) (t : Table) (cname : String)
    (hcn : cname = "gender" ∨ cname = "product_category") (c : Col)
    (hc : t.getCol cname = some c)
    (hinj : ∀ v1 ∈ distinctNonNA c.cells, ∀ v2 ∈ distinctNonNA c.cells,
      cellText v1 = cellText v2 → v1 = v2)
    (hnocol : ∀ v ∈ distinctNonNA c.cells,
      t.getCol (cname ++ "_" ++ cellText v) = none)
    (hfresh : ∀ v ∈ distinctNonNA c.cells, ∀ n ∈ freqTargets parseDT t,
      (cname ++ "_" ++ cellText v) ≠ n ++ "_freq") (i : ℕ) :
    (∀ v ∈ distinctNonNA c.cells,
      (encode_categorical_features parseDT t).cellAt (cname ++ "_" ++ cellText v) i
        = (c.cells.get? i).map (fun x => Cell.bool (x == v))) ∧
    (∀ x : Cell, c.cells.get? i = some x → x ≠ .na →
      ((distinctNonNA c.cells).filter (fun v => x == v)).length = 1) ∧
    (c.cells.get? i = some .na → ∀ v ∈ distinctNonNA c.cells,
      (encode_categorical_features parseDT t).cellAt (cname ++ "_" ++ cellText v) i
        = some (Cell.bool false)) := by
  have hval : ∀ v ∈ distinctNonNA c.cells,
      (encode_categorical_features parseDT t).getCol (cname ++ "_" ++ cellText v)
        = some ⟨cname ++ "_" ++ cellText v, .boolean,
            c.cells.map (fun x => Cell.bool (x == v))⟩ := by
    intro v hv
    unfold encode_categorical_features
    dsimp only
    have hstep : ∀ (cn : String) (t1 : Table), t1.getCol cn = some c →
        t1.getCol (cn ++ "_" ++ cellText v) = none →
        (oneHotFor t1 cn).getCol (cn ++ "_" ++ cellText v)
          = some ⟨cn ++ "_" ++ cellText v, .boolean,
              c.cells.map (fun x => Cell.bool (x == v))⟩ := by
      intro cn t1 hg1 hd1
      unfold oneHotFor
      rw [hg1]
      show (Table.mk _).getCol _ = _
      unfold Table.getCol
      rw [List.find?_append]
      unfold Table.getCol at hd1
      rw [hd1]
      rw [Option.none_or]
      exact find?_dummyCols cn c.cells (distinctNonNA c.cells) v hv hinj
    rcases hcn with rfl | rfl
    · cases heduc : t.getCol "education" with
      | none =>
          rw [getCol_foldl_freqStep _ _ _ (fun n hn => hfresh v hv n hn),
            getCol_oneHotFor_of_found _ "product_category"
              (hstep "gender" t hc (hnocol v hv))]
      | some ce =>
          have hg1 : (t.setCol "education_encoded" .float
              (ce.cells.map eduEncodeCell)).getCol "gender" = some c := by
            rw [Table.getCol_setCol_ne t (by decide)]
            exact hc
          have hd1 : (t.setCol "education_encoded" .float
              (ce.cells.map eduEncodeCell)).getCol ("gender" ++ "_" ++ cellText v)
              = none := by
            rw [Table.getCol_setCol_ne t (append_ne_of_take (by decide))]
            exact hnocol v hv
          rw [getCol_foldl_freqStep _ _ _ (fun n hn => hfresh v hv n hn),
            getCol_oneHotFor_of_found _ "product_category" (hstep "gender" _ hg1 hd1)]
    · have hmain : ∀ t1 : Table, t1.getCol "product_category" = some c →
          t1.getCol ("product_category" ++ "_" ++ cellText v) = none →
          (oneHotFor (oneHotFor t1 "gender") "product_category").getCol
            ("product_category" ++ "_" ++ cellText v)
            = some ⟨"product_category" ++ "_" ++ cellText v, .boolean,
                c.cells.map (fun x => Cell.bool (x == v))⟩ := by
        intro t1 hg1 hd1
        have hg2 : (oneHotFor t1 "gender").getCol "product_category" = some c :=
          getCol_oneHotFor_of_found _ "gender" hg1
        have hd2 : (oneHotFor t1 "gender").getCol
            ("product_category" ++ "_" ++ cellText v) = none := by
          unfold oneHotFor
          cases hgg : t1.getCol "gender" with
          | none => exact hd1
          | some cg =>
              show (Table.mk _).getCol _ = none
              unfold Table.getCol
              dsimp only
              rw [List.find?_append]
              unfold Table.getCol at hd1
              rw [hd1, Option.none_or]
              apply List.find?_eq_none.mpr
              intro cc hcc
              obtain ⟨w, hw, rfl⟩ := List.mem_map.mp hcc
              simp only [beq_iff_eq]
              exact append_ne_append_left 1 (by decide) (by decide) (by decide) _ _
        exact hstep "product_category" _ hg2 hd2
      cases heduc : t.getCol "education" with
      | none =>
          rw [getCol_foldl_freqStep _ _ _ (fun n hn => hfresh v hv n hn),
            hmain t hc (hnocol v hv)]
      | some ce =>
          have hg1 : (t.setCol "education_encoded" .float
              (ce.cells.map eduEncodeCell)).getCol "product_category" = some c := by
            rw [Table.getCol_setCol_ne t (by decide)]
            exact hc
          have hd1 : (t.setCol "education_encoded" .float
              (ce.cells.map eduEncodeCell)).getCol
              ("product_category" ++ "_" ++ cellText v) = none := by
            rw [Table.getCol_setCol_ne t (append_ne_of_take (by decide))]
            exact hnocol v hv
          rw [getCol_foldl_freqStep _ _ _ (fun n hn => hfresh v hv n hn),
            hmain _ hg1 hd1]
  refine ⟨?_, ?_, ?_⟩
  · intro v hv
    unfold Table.cellAt
    rw [hval v hv]
    simp
  · intro x hx hxna
    have hxmem : x ∈ c.cells := List.get?_mem hx
    have hxd : x ∈ distinctNonNA c.cells := by
      unfold distinctNonNA
      rw [List.mem_dedup, List.mem_filter]
      exact ⟨hxmem, by simpa using hxna⟩
    have hcongr : (distinctNonNA c.cells).filter (fun v => x == v)
        = (distinctNonNA c.cells).filter (fun v => v == x) := by
      apply List.filter_congr
      intro v _
      by_cases h : x = v
      · simp [h]
      · simp [h, Ne.symm h]
    rw [hcongr, ← List.countP_eq_length_filter]
    exact List.count_eq_one_of_mem (List.nodup_dedup _) hxd
  · intro hna v hv
    unfold Table.cellAt
    rw [hval v hv]
    have hvna : v ≠ Cell.na := by
      unfold distinctNonNA at hv
      rw [List.mem_dedup, List.mem_filter] at hv
      simpa using hv.2
    simp only [Option.some_bind]
    rw [List.get?_map, hna]
    simp [beq_eq_false_iff_ne, Ne.symm hvna]

/-- Concrete table for C5: a gender column with two values and one
missing cell. -/
def w5Table : Table :=
  ⟨[⟨"gender", .obj, [.str "Male", .str "Female", .na]⟩]⟩

/-- Second concrete table for C5: a product_category column with one
value and one missing cell. -/
def w5bTable : Table :=
  ⟨[⟨"product_category", .obj, [.str "Books", .na]⟩]⟩

/-- Witness for the amended C5 at concrete inputs, exercising both
nominal columns (`gender` on `w5Table`, `product_category` on
`w5bTable`). -/
theorem C5_one_hot_witness :
    ((∀ v ∈ distinctNonNA [Cell.str "Male", .str "Female", .na],
      (encode_categorical_features (fun _ => none) w5Table).cellAt
          ("gender" ++ "_" ++ cellText v) 0
        = ([Cell.str "Male", .str "Female", .na].get? 0).map
            (fun x => Cell.bool (x == v))) ∧
    (∀ x : Cell, [Cell.str "Male", .str "Female", .na].get? 0 = some x → x ≠ .na →
      ((distinctNonNA [Cell.str "Male", .str "Female", .na]).filter
          (fun v => x == v)).length = 1) ∧
    ([Cell.str "Male", .str "Female", .na].get? 0 = some .na →
      ∀ v ∈ distinctNonNA [Cell.str "Male", .str "Female", .na],
      (encode_categorical_features (fun _ => none) w5Table).cellAt
          ("gender" ++ "_" ++ cellText v) 0
        = some (Cell.bool false))) ∧
    ((∀ v ∈ distinctNonNA [Cell.str "Books", .na],
      (encode_categorical_features (fun _ => none) w5bTable).cellAt
          ("product_category" ++ "_" ++ cellText v) 0
        = ([Cell.str "Books", .na].get? 0).map
            (fun x => Cell.bool (x == v))) ∧
    (∀ x : Cell, [Cell.str "Books", .na].get? 0 = some x → x ≠ .na →
      ((distinctNonNA [Cell.str "Books", .na]).filter
          (fun v => x == v)).length = 1) ∧
    ([Cell.str "Books", .na].get? 0 = some .na →
      ∀ v ∈ distinctNonNA [Cell.str "Books", .na],
      (encode_categorical_features (fun _ => none) w5bTable).cellAt
          ("product_category" ++ "_" ++ cellText v) 0
        = some (Cell.bool false))) := by
  constructor
  · have hd : distinctNonNA [Cell.str "Male", .str "Female", .na]
        = [.str "Male", .str "Female"] := by decide
    exact C5_one_hot (fun _ => none) w5Table "gender" (Or.inl rfl)
      ⟨"gender", .obj, [.str "Male", .str "Female", .na]⟩ rfl
      (by
        intro v1 h1 v2 h2 heq
        rw [hd] at h1 h2
        simp only [List.mem_cons, List.not_mem_nil, or_false] at h1 h2
        rcases h1 with rfl | rfl <;> rcases h2 with rfl | rfl <;>
          first
          | rfl
          | (exfalso; revert heq; decide))
      (by
        intro v hv
        rw [hd] at hv
        simp only [List.mem_cons, List.not_mem_nil, or_false] at hv
        rcases hv with rfl | rfl <;> rfl)
      (by
        intro v hv n hn
        have hft : freqTargets (fun _ => none) w5Table = [] := by decide
        rw [hft] at hn
        cases hn)
      0
  · have hd : distinctNonNA [Cell.str "Books", .na] = [.str "Books"] := by decide
    exact C5_one_hot (fun _ => none) w5bTable "product_category" (Or.inr rfl)
      ⟨"product_category", .obj, [.str "Books", .na]⟩ rfl
      (by
        intro v1 h1 v2 h2 heq
        rw [hd] at h1 h2
        simp only [List.mem_cons, List.not_mem_nil, or_false] at h1 h2
        rcases h1 with rfl
        rcases h2 with rfl
        rfl)
      (by
        intro v hv
        rw [hd] at hv
        simp only [List.mem_cons, List.not_mem_nil, or_false] at hv
        rcases hv with rfl
        rfl)
      (by
        intro v hv n hn
        have hft : freqTargets (fun _ => none) w5bTable = [] := by decide
        rw [hft] at hn
        cases hn)
      0

/-- C5, counterexample.  On a row whose nominal cell is missing, every
indicator column derived from that source column is 0 (False) — for
`gender` on `w5Table` and for `product_category` on `w5bTable` alike —
so "exactly one of the indicator columns equals 1 for every row" is
false; `pd.get_dummies` ignores NaN and activates no indicator. -/
theorem C5_counterexample :
    (encode_categorical_features (fun _ => none) w5Table).cellAt "gender_Male" 2
      = some (Cell.bool false) ∧
    (encode_categorical_features (fun _ => none) w5Table).cellAt "gender_Female" 2
      = some (Cell.bool false) ∧
    distinctNonNA [Cell.str "Male", Cell.str "Female", Cell.na]
      = [Cell.str "Male", Cell.str "Female"] ∧
    (encode_categorical_features (fun _ => none) w5bTable).cellAt
        "product_category_Books" 1
      = some (Cell.bool false) ∧
    distinctNonNA [Cell.str "Books", Cell.na] = [Cell.str "Books"] := by
  refine ⟨by decide, by decide, by decide, by decide, by decide⟩

/-! ### Stage 5: `flag_anomalies_column` -/

/-- Does `pat` occur at the start of `l`? -/
def startsWithChars : List Char → List Char → Bool
  | [], _ => true
  | _ :: _, [] => false
  | p :: ps, c :: cs => p == c && startsWithChars ps cs

/-- Does `pat` occur anywhere in `l`? -/
def hasSubChars (pat : List Char) : List Char → Bool
  | [] => startsWithChars pat []
  | c :: cs => startsWithChars pat (c :: cs) || hasSubChars pat cs

/-- Python's `pat in s` substring test. -/
def containsSub (s pat : String) : Bool := hasSubChars pat.data s.data

/-- Python's `s.lower()` (character-wise; the column names in play are
ASCII). -/
def lowerStr (s : String) : String := ⟨s.data.map Char.toLower⟩

/-- Python's `s.startswith(pat)`. -/
def strStartsWith (s pat : String) : Bool := s.data.take pat.length == pat.data

/-- Python's `s.endswith(pat)`. -/
def strEndsWith (s pat : String) : Bool :=
  decide (pat.length ≤ s.length) && (s.data.drop (s.length - pat.length) == pat.data)

/-- The numeric columns stage 5 checks for anomalies: numeric dtype, the
id / encoded / one-hot name filters, then the four priority columns
followed by at most six further numeric columns in table order. -/
def selectAnomalyCols (t : Table) : List String :=
  let numericCols0 := (t.cols.filter (fun c => c.dtype == .float)).map (·.name)
  let numericCols1 := numericCols0.filter
    (fun col => !(["customer_id", "id"].any (fun ex => containsSub (lowerStr col) ex)))
  let numericCols2 := numericCols1.filter (fun col => !(strEndsWith col "_encoded"))
  let numericCols3 := numericCols2.filter (fun col => !(strStartsWith col "gender_"))
  let numericCols := numericCols3.filter
    (fun col => !(strStartsWith col "product_category_"))
  let priorityCols := ["income", "purchase_amount", "final_price", "age"]
  let colsToCheck := priorityCols.filter (fun col => numericCols.contains col)
  let otherCols := (numericCols.filter
    (fun col => !(priorityCols.contains col))).take 6
  colsToCheck ++ otherCols

/-- Population mean of the non-missing values (`stats.zscore` uses
`ddof=0`). -/
def popMean (l : List ℚ) : ℚ := l.sum / l.length

/-- Sum of squared deviations from the mean (`n · variance`). -/
def sqDevSum (l : List ℚ) : ℚ := (l.map (fun x => (x - popMean l) ^ 2)).sum

/-- `|zscore(x)| > 3` for the value list `l`, written without square
roots: `|x-μ|/σ > 3  ↔  n·(x-μ)² > 9·Σ(y-μ)²` when `σ > 0`, and when
`σ = 0` the z-scores are NaN so the comparison is false — which the
squared form also gives, since then `x = μ` for every `x ∈ l`. -/
def zFlag (l : List ℚ) (x : ℚ) : Bool :=
  decide ((l.length : ℚ) * (x - popMean l) ^ 2 > 9 * sqDevSum l)

/-- `flag_anomalies_zscore`: z-score flags of one column.  Rows with a
missing value get flag 0; when any value is infinite every z-score is
NaN (infinite mean/variance), so every flag is 0. -/
def zscoreFlags (cells : List Cell) : List Cell :=
  let vals := cells.filterMap Cell.asQ
  let hasInf := cells.any (fun c => c == Cell.pinf || c == Cell.ninf)
  cells.map (fun c =>
    match c with
    | .na => Cell.num 0
    | .num x => .num (if !hasInf && zFlag vals x then 1 else 0)
    | _ => .num 0)

/-- `flag_anomalies_iqr`: flags values outside
`[Q1 - 1.5·IQR, Q3 + 1.5·IQR]`; NaN comparisons are false, so missing
rows get flag 0. -/
def iqrFlags (cells : List Cell) : List Cell :=
  let s := sortedVals cells
  let q1 := quantileAt s (1/4)
  let q3 := quantileAt s (3/4)
  let iqr := q3.sub q1
  let lower := q1.sub ((ENum.fin (3/2)).mul iqr)
  let upper := q3.add ((ENum.fin (3/2)).mul iqr)
  cells.map (fun c => .num (if ENum.ltB c.toEN lower || ENum.ltB upper c.toEN then 1 else 0))

/-- `(zscore == 1) | (iqr == 1)` as an int column. -/
def combineFlags (z q : List Cell) : List Cell :=
  List.zipWith (fun a b => Cell.num (if a == Cell.num 1 || b == Cell.num 1 then 1 else 0)) z q

/-- One iteration of the stage-5 loop: add the three flag columns of one
selected column (reading it from the evolving frame, as the source does). -/
def flagStep (acc : Table) (cname : String) : Table :=
  match acc.getCol cname with
  | none => acc
  | some c =>
      ((acc.setCol (cname ++ "_anomaly_zscore") .float (zscoreFlags c.cells)).setCol
        (cname ++ "_anomaly_iqr") .float (iqrFlags c.cells)).setCol
        (cname ++ "_is_anomaly") .float
        (combineFlags (zscoreFlags c.cells) (iqrFlags c.cells))

/-- `len(df)`: the index length (every column of a well-formed frame has
this length). -/
def rowCount (t : Table) : ℕ := (t.cols.head?.map (·.cells.length)).getD 0

/-- `df[cols].sum(axis=1)` at row `i`: NaN and absent cells count as 0. -/
def sumRow (cols : List Col) (i : ℕ) : ℚ :=
  cols.foldl (fun acc c => acc + (((c.cells.get? i).bind Cell.asQ).getD 0)) 0

/-- `[col for col in df.columns if col.endswith('_is_anomaly')]`. -/
def scoreSumCols (t1 : Table) : List Col :=
  t1.cols.filter (fun c => strEndsWith c.name "_is_anomaly")

/-- The `anomaly_score` column: row-wise sum of the `_is_anomaly`
columns. -/
def scoreCellsOf (t1 : Table) : List Cell :=
  (List.range (rowCount t1)).map (fun i => Cell.num (sumRow (scoreSumCols t1) i))

/-- The `has_any_anomaly` column: `(anomaly_score > 0).astype(int)`. -/
def hasAnyCellsOf (t1 : Table) : List Cell :=
  (scoreCellsOf t1).map (fun c =>
    match c with
    | .num q => Cell.num (if 0 < q then 1 else 0)
    | _ => Cell.num 0)

/-- `flag_anomalies_column` (stage 5): flag each selected column, then
`anomaly_score` = row-wise sum of every `_is_anomaly` column and
`has_any_anomaly` = 1 iff the score is positive. -/
def flag_anomalies_column (t : Table) : Table :=
  let colsToCheck := selectAnomalyCols t
  let t1 := colsToCheck.foldl flagStep t
  (t1.setCol "anomaly_score" .float (scoreCellsOf t1)).setCol
    "has_any_anomaly" .float (hasAnyCellsOf t1)

/-- Written from C6's wording (refinement check): select the numeric
columns, excluding those whose name contains an identifier-like
substring (the code's identifier list) or ends with the encoding suffix;
the present priority columns first, then up to 6 further numeric columns
in table order. -/
def claimSelectAnomalyCols (t : Table) : List String :=
  let numeric := ((t.cols.filter (fun c => c.dtype == .float)).map (·.name)).filter
    (fun n => !(((["customer_id", "id"].any (fun ex => containsSub (lowerStr n) ex)))
      || strEndsWith n "_encoded"))
  let priority := (["income", "purchase_amount", "final_price", "age"]).filter
    (fun col => numeric.contains col)
  priority ++ (numeric.filter
    (fun col => !(["income", "purchase_amount", "final_price", "age"].contains col))).take 6

/-- The claim's selection rule amended with the two one-hot name-prefix
exclusions that the code also applies. -/
def claimSelectAnomalyColsAmended (t : Table) : List String :=
  let numeric := ((t.cols.filter (fun c => c.dtype == .float)).map (·.name)).filter
    (fun n => !(((["customer_id", "id"].any (fun ex => containsSub (lowerStr n) ex)))
      || strEndsWith n "_encoded" || strStartsWith n "gender_"
      || strStartsWith n "product_category_"))
  let priority := (["income", "purchase_amount", "final_price", "age"]).filter
    (fun col => numeric.contains col)
  priority ++ (numeric.filter
    (fun col => !(["income", "purchase_amount", "final_price", "age"].contains col))).take 6

/-- Concrete table with a numeric column named `gender_score`. -/
def w6Table : Table :=
  ⟨[⟨"gender_score", .float, [.num 1]⟩, ⟨"income", .float, [.num 2]⟩]⟩

/-- C6, counterexample.  A numeric column whose name starts with
`gender_` (here `gender_score`, which neither contains "id" nor ends
with `_encoded`) is excluded by the code's `startswith('gender_')`
filter, but the claim's exclusion rule would select it. -/
theorem C6_counterexample :
    selectAnomalyCols w6Table = ["income"] ∧
    claimSelectAnomalyCols w6Table = ["income", "gender_score"] ∧
    selectAnomalyCols w6Table ≠ claimSelectAnomalyCols w6Table := by
  refine ⟨by decide, by decide, by decide⟩

/-- C6, amended.  The code's selection equals the claim's rule extended
with the `gender_`/`product_category_` one-hot prefix exclusions: all
present priority columns (income, purchase_amount, final_price, age)
first, then further numeric columns in table order up to 6 more, and at
most 10 columns are selected in total. -/
theorem C6_selection (t : Table) :
    selectAnomalyCols t = claimSelectAnomalyColsAmended t ∧
    (selectAnomalyCols t).length ≤ 10 := by
  have heq : selectAnomalyCols t = claimSelectAnomalyColsAmended t := by
    unfold selectAnomalyCols claimSelectAnomalyColsAmended
    dsimp only
    simp only [List.filter_filter]
    have hpt : ∀ n : String,
        ((!strStartsWith n "product_category_") &&
          ((!strStartsWith n "gender_") && ((!strEndsWith n "_encoded") &&
            !(["customer_id", "id"].any (fun ex => containsSub (lowerStr n) ex)))))
        = !(((["customer_id", "id"].any (fun ex => containsSub (lowerStr n) ex)))
            || strEndsWith n "_encoded" || strStartsWith n "gender_"
            || strStartsWith n "product_category_") := by
      intro n
      cases hA : ["customer_id", "id"].any (fun ex => containsSub (lowerStr n) ex) <;>
        cases hB : strEndsWith n "_encoded" <;>
        cases hC : strStartsWith n "gender_" <;>
        cases hD : strStartsWith n "product_category_" <;> rfl
    simp only [hpt]
  refine ⟨heq, ?_⟩
  unfold selectAnomalyCols
  dsimp only
  rw [List.length_append]
  have h1 := List.length_filter_le
    (fun col => ((((t.cols.filter (fun c => c.dtype == .float)).map (·.name)).filter
      (fun col => !(["customer_id", "id"].any (fun ex => containsSub (lowerStr col) ex)))).filter
      (fun col => !(strEndsWith col "_encoded"))).filter
      (fun col => !(strStartsWith col "gender_")) |>.filter
      (fun col => !(strStartsWith col "product_category_")) |>.contains col)
    ["income", "purchase_amount", "final_price", "age"]
  have h2 := List.length_take_le 6
    (((((t.cols.filter (fun c => c.dtype == .float)).map (·.name)).filter
      (fun col => !(["customer_id", "id"].any (fun ex => containsSub (lowerStr col) ex)))).filter
      (fun col => !(strEndsWith col "_encoded"))).filter
      (fun col => !(strStartsWith col "gender_")) |>.filter
      (fun col => !(strStartsWith col "product_category_")) |>.filter
      (fun col => !(["income", "purchase_amount", "final_price", "age"].contains col)))
  simp only [List.length_cons, List.length_nil] at h1
  omega

/-! ### Stage 5: structure of the flag-column fold -/

/-- Two appended suffixes that are incompatible (the longer one does not
end in the shorter one) never produce the same string. -/
theorem suffix_clash {s1 s2 : String} (h1 : s1.length ≤ s2.length)
    (hne : s2.data.drop (s2.length - s1.length) ≠ s1.data) :
    ∀ b b' : String, b ++ s1 ≠ b' ++ s2 := by
  intro b b' he
  apply hne
  have hdata : b.data ++ s1.data = b'.data ++ s2.data := by
    rw [← String.data_append, ← String.data_append, he]
  have hlen : b.length + s1.length = b'.length + s2.length := by
    rw [← String.length_append, ← String.length_append, he]
  have hb : b.length = b.data.length := rfl
  have hb' : b'.length = b'.data.length := rfl
  have hbl : b.data.length = b'.data.length + (s2.length - s1.length) := by omega
  have hdrop : (b.data ++ s1.data).drop b.data.length = s1.data := List.drop_left _ _
  rw [hdata, hbl, ← List.drop_drop, List.drop_left] at hdrop
  exact hdrop

/-- Appending the same suffix is injective on the prefix. -/
theorem append_right_cancel' {a b s : String} (h : a ++ s = b ++ s) : a = b := by
  have hdata : a.data ++ s.data = b.data ++ s.data := by
    rw [← String.data_append, ← String.data_append, h]
  exact String.ext (List.append_cancel_right hdata)

theorem strEndsWith_append (b s : String) : strEndsWith (b ++ s) s = true := by
  unfold strEndsWith
  rw [String.length_append, String.data_append]
  have h2 : b.length + s.length - s.length = b.length := by omega
  rw [h2, show b.length = b.data.length from rfl, List.drop_left]
  simp [Nat.le_add_left]

theorem exists_of_strEndsWith {n s : String} (h : strEndsWith n s = true) :
    ∃ b, n = b ++ s := by
  unfold strEndsWith at h
  rw [Bool.and_eq_true, decide_eq_true_eq, beq_iff_eq] at h
  obtain ⟨h1, h2⟩ := h
  refine ⟨⟨n.data.take (n.length - s.length)⟩, String.ext ?_⟩
  rw [String.data_append]
  show n.data = n.data.take (n.length - s.length) ++ s.data
  rw [← h2]
  exact (List.take_append_drop _ n.data).symm

theorem strEndsWith_eq_false {n s : String} (h : ∀ b, n ≠ b ++ s) :
    strEndsWith n s = false := by
  cases he : strEndsWith n s
  · rfl
  · obtain ⟨b, hb⟩ := exists_of_strEndsWith he
    exact absurd hb (h b)

theorem clash_iqr_zscore :
    ∀ b b' : String, b ++ "_anomaly_iqr" ≠ b' ++ "_anomaly_zscore" :=
  suffix_clash (by decide) (by decide)

theorem clash_isan_zscore :
    ∀ b b' : String, b ++ "_is_anomaly" ≠ b' ++ "_anomaly_zscore" :=
  suffix_clash (by decide) (by decide)

theorem clash_isan_iqr :
    ∀ b b' : String, b ++ "_is_anomaly" ≠ b' ++ "_anomaly_iqr" :=
  suffix_clash (by decide) (by decide)

/-- A name that does not end in any of the three generated flag
suffixes. -/
def NoFlagName (n : String) : Prop :=
  (∀ b : String, n ≠ b ++ "_anomaly_zscore") ∧
  (∀ b : String, n ≠ b ++ "_anomaly_iqr") ∧
  (∀ b : String, n ≠ b ++ "_is_anomaly")

theorem ne_append_of_short {m s : String} (h : m.length < s.length) (b : String) :
    m ≠ b ++ s := by
  intro he
  have : m.length = b.length + s.length := by rw [he, String.length_append]
  omega

theorem noFlagName_of_short {n : String} (h : n.length < 11) : NoFlagName n :=
  ⟨fun b => ne_append_of_short (Nat.lt_of_lt_of_le h (by decide)) b,
   fun b => ne_append_of_short (Nat.lt_of_lt_of_le h (by decide)) b,
   fun b => ne_append_of_short (Nat.lt_of_lt_of_le h (by decide)) b⟩

/-- No column of `t` is named like a stage-5 output column. -/
def CleanForStage5 (t : Table) : Prop :=
  ∀ c ∈ t.cols, NoFlagName c.name ∧
    c.name ≠ "anomaly_score" ∧ c.name ≠ "has_any_anomaly"

theorem find?_cols_eq_none_of_ne (cols : List Col) {m : String}
    (h : ∀ c ∈ cols, c.name ≠ m) :
    cols.find? (fun c => c.name == m) = none :=
  List.find?_eq_none.mpr (fun c hc => by simp [h c hc])

theorem hasCol_eq_false (t : Table) {d : String} (h : ∀ c ∈ t.cols, c.name ≠ d) :
    t.hasCol d = false := by
  unfold Table.hasCol
  rw [List.any_eq_false]
  intro c hc
  simp [h c hc]

theorem setCol_cols_append (t : Table) {d : String} (h : t.hasCol d = false)
    (dt : DType) (cs : List Cell) :
    (t.setCol d dt cs).cols = t.cols ++ [(⟨d, dt, cs⟩ : Col)] := by
  unfold Table.setCol
  rw [h]
  simp

theorem getCol_mk_append_right_none (cols extra : List Col) {m : String}
    (h : ∀ c ∈ extra, c.name ≠ m) :
    (Table.mk (cols ++ extra)).getCol m = (Table.mk cols).getCol m := by
  unfold Table.getCol
  dsimp only
  rw [List.find?_append, find?_cols_eq_none_of_ne extra h]
  cases hf : cols.find? (fun c => c.name == m) <;> rfl

theorem hasCol_mk_append (cols extra : List Col) (m : String) :
    (Table.mk (cols ++ extra)).hasCol m =
      ((Table.mk cols).hasCol m || (Table.mk extra).hasCol m) := by
  unfold Table.hasCol
  dsimp only
  exact List.any_append

/-- The three flag columns that `flagStep` appends for one selected
column (when the column is present). -/
def flagCols (t : Table) (s : String) : List Col :=
  match t.getCol s with
  | some c =>
      [⟨s ++ "_anomaly_zscore", .float, zscoreFlags c.cells⟩,
       ⟨s ++ "_anomaly_iqr", .float, iqrFlags c.cells⟩,
       ⟨s ++ "_is_anomaly", .float,
         combineFlags (zscoreFlags c.cells) (iqrFlags c.cells)⟩]
  | none => []

theorem flagCols_names (t : Table) (s0 : String) :
    ∀ cc ∈ flagCols t s0, cc.name = s0 ++ "_anomaly_zscore" ∨
      cc.name = s0 ++ "_anomaly_iqr" ∨ cc.name = s0 ++ "_is_anomaly" := by
  intro cc hcc
  unfold flagCols at hcc
  cases hg : t.getCol s0 with
  | none => rw [hg] at hcc; simp at hcc
  | some c =>
      rw [hg] at hcc
      simp only [List.mem_cons, List.not_mem_nil, or_false] at hcc
      rcases hcc with rfl | rfl | rfl
      · exact Or.inl rfl
      · exact Or.inr (Or.inl rfl)
      · exact Or.inr (Or.inr rfl)

theorem flagCols_name_ne_z (t : Table) {s s0 : String} (hne : s ≠ s0) :
    ∀ cc ∈ flagCols t s0, cc.name ≠ s ++ "_anomaly_zscore" := by
  intro cc hcc
  rcases flagCols_names t s0 cc hcc with h | h | h <;> rw [h]
  · exact fun he => hne (append_right_cancel' he).symm
  · exact clash_iqr_zscore s0 s
  · exact clash_isan_zscore s0 s

theorem flagCols_name_ne_q (t : Table) {s s0 : String} (hne : s ≠ s0) :
    ∀ cc ∈ flagCols t s0, cc.name ≠ s ++ "_anomaly_iqr" := by
  intro cc hcc
  rcases flagCols_names t s0 cc hcc with h | h | h <;> rw [h]
  · exact (clash_iqr_zscore s s0).symm
  · exact fun he => hne (append_right_cancel' he).symm
  · exact clash_isan_iqr s0 s

theorem flagCols_name_ne_a (t : Table) {s s0 : String} (hne : s ≠ s0) :
    ∀ cc ∈ flagCols t s0, cc.name ≠ s ++ "_is_anomaly" := by
  intro cc hcc
  rcases flagCols_names t s0 cc hcc with h | h | h <;> rw [h]
  · exact (clash_isan_zscore s s0).symm
  · exact (clash_isan_iqr s s0).symm
  · exact fun he => hne (append_right_cancel' he).symm

theorem flagCols_name_ne_plain (t : Table) (s0 : String) {m : String}
    (hm : NoFlagName m) : ∀ cc ∈ flagCols t s0, cc.name ≠ m := by
  intro cc hcc
  rcases flagCols_names t s0 cc hcc with h | h | h <;> rw [h]
  · exact fun he => hm.1 s0 he.symm
  · exact fun he => hm.2.1 s0 he.symm
  · exact fun he => hm.2.2 s0 he.symm

theorem flagStep_cols (acc t : Table) (s : String)
    (hagree : acc.getCol s = t.getCol s)
    (hz : acc.hasCol (s ++ "_anomaly_zscore") = false)
    (hq : acc.hasCol (s ++ "_anomaly_iqr") = false)
    (ha : acc.hasCol (s ++ "_is_anomaly") = false) :
    (flagStep acc s).cols = acc.cols ++ flagCols t s := by
  unfold flagStep flagCols
  rw [hagree]
  cases hget : t.getCol s with
  | none => simp
  | some c =>
      dsimp only
      have hqz : ((s ++ "_anomaly_iqr") == (s ++ "_anomaly_zscore")) = false :=
        beq_eq_false_iff_ne.mpr (clash_iqr_zscore s s)
      have haz : ((s ++ "_is_anomaly") == (s ++ "_anomaly_zscore")) = false :=
        beq_eq_false_iff_ne.mpr (clash_isan_zscore s s)
      have haq : ((s ++ "_is_anomaly") == (s ++ "_anomaly_iqr")) = false :=
        beq_eq_false_iff_ne.mpr (clash_isan_iqr s s)
      have e1 : (acc.setCol (s ++ "_anomaly_zscore") DType.float
          (zscoreFlags c.cells)).cols
          = acc.cols ++ [(⟨s ++ "_anomaly_zscore", DType.float,
              zscoreFlags c.cells⟩ : Col)] :=
        setCol_cols_append acc hz _ _
      have hh1 : (acc.setCol (s ++ "_anomaly_zscore") DType.float
          (zscoreFlags c.cells)).hasCol (s ++ "_anomaly_iqr") = false := by
        rw [Table.hasCol_setCol, hqz, hq]; rfl
      have e2 : ((acc.setCol (s ++ "_anomaly_zscore") DType.float
          (zscoreFlags c.cells)).setCol (s ++ "_anomaly_iqr") DType.float
          (iqrFlags c.cells)).cols
          = acc.cols ++ [(⟨s ++ "_anomaly_zscore", DType.float,
              zscoreFlags c.cells⟩ : Col)]
            ++ [(⟨s ++ "_anomaly_iqr", DType.float, iqrFlags c.cells⟩ : Col)] := by
        rw [setCol_cols_append _ hh1, e1]
      have hh2 : ((acc.setCol (s ++ "_anomaly_zscore") DType.float
          (zscoreFlags c.cells)).setCol (s ++ "_anomaly_iqr") DType.float
          (iqrFlags c.cells)).hasCol (s ++ "_is_anomaly") = false := by
        rw [Table.hasCol_setCol, Table.hasCol_setCol, haq, haz, ha]; rfl
      rw [setCol_cols_append _ hh2, e2, List.append_assoc, List.append_assoc]
      rfl

theorem foldl_flagStep_cols (t : Table) (sel : List String) :
    ∀ acc : Table,
      (∀ s ∈ sel, acc.getCol s = t.getCol s) →
      (∀ s ∈ sel, acc.hasCol (s ++ "_anomaly_zscore") = false ∧
        acc.hasCol (s ++ "_anomaly_iqr") = false ∧
        acc.hasCol (s ++ "_is_anomaly") = false) →
      sel.Nodup → (∀ s ∈ sel, NoFlagName s) →
      (sel.foldl flagStep acc).cols = acc.cols ++ sel.flatMap (flagCols t) := by
  induction sel with
  | nil => intro acc _ _ _ _; simp
  | cons s0 rest ih =>
      intro acc hagree hfresh hnd hnofn
      rw [List.foldl_cons]
      have hag0 : acc.getCol s0 = t.getCol s0 := hagree s0 (List.mem_cons_self _ _)
      obtain ⟨hz0, hq0, ha0⟩ := hfresh s0 (List.mem_cons_self _ _)
      have hstep : (flagStep acc s0).cols = acc.cols ++ flagCols t s0 :=
        flagStep_cols acc t s0 hag0 hz0 hq0 ha0
      have hnd' : rest.Nodup := (List.nodup_cons.mp hnd).2
      have hs0nr : s0 ∉ rest := (List.nodup_cons.mp hnd).1
      have hgc : ∀ m, (flagStep acc s0).getCol m
          = (Table.mk (acc.cols ++ flagCols t s0)).getCol m := by
        intro m; unfold Table.getCol; rw [hstep]
      have hhc : ∀ m, (flagStep acc s0).hasCol m
          = (Table.mk (acc.cols ++ flagCols t s0)).hasCol m := by
        intro m; unfold Table.hasCol; rw [hstep]
      have hagree' : ∀ s ∈ rest, (flagStep acc s0).getCol s = t.getCol s := by
        intro s hs
        rw [hgc s, getCol_mk_append_right_none _ _
          (flagCols_name_ne_plain t s0 (hnofn s (List.mem_cons_of_mem _ hs)))]
        exact hagree s (List.mem_cons_of_mem _ hs)
      have hfresh' : ∀ s ∈ rest, (flagStep acc s0).hasCol (s ++ "_anomaly_zscore") = false ∧
          (flagStep acc s0).hasCol (s ++ "_anomaly_iqr") = false ∧
          (flagStep acc s0).hasCol (s ++ "_is_anomaly") = false := by
        intro s hs
        obtain ⟨h1, h2, h3⟩ := hfresh s (List.mem_cons_of_mem _ hs)
        have hss0 : s ≠ s0 := fun he => hs0nr (he ▸ hs)
        refine ⟨?_, ?_, ?_⟩ <;> rw [hhc, hasCol_mk_append] <;>
          rw [Bool.or_eq_false_iff]
        · exact ⟨h1, hasCol_eq_false _ (flagCols_name_ne_z t hss0)⟩
        · exact ⟨h2, hasCol_eq_false _ (flagCols_name_ne_q t hss0)⟩
        · exact ⟨h3, hasCol_eq_false _ (flagCols_name_ne_a t hss0)⟩
      rw [ih (flagStep acc s0) hagree' hfresh' hnd'
        (fun s hs => hnofn s (List.mem_cons_of_mem _ hs)),
        hstep, List.flatMap_cons, List.append_assoc]

theorem getCol_congr_cols {t : Table} {l : List Col} (h : t.cols = l) (m : String) :
    t.getCol m = (Table.mk l).getCol m := by
  unfold Table.getCol; rw [h]

theorem hasCol_congr_cols {t : Table} {l : List Col} (h : t.cols = l) (m : String) :
    t.hasCol m = (Table.mk l).hasCol m := by
  unfold Table.hasCol; rw [h]

/-- Every selected column name is the name of a column of the table. -/
theorem select_mem_cols (t : Table) :
    ∀ s ∈ selectAnomalyCols t, ∃ c ∈ t.cols, c.name = s := by
  intro s hs
  unfold selectAnomalyCols at hs
  dsimp only at hs
  rw [List.mem_append] at hs
  have hnum : s ∈ ((t.cols.filter (fun c => c.dtype == DType.float)).map (·.name)) := by
    rcases hs with hs | hs
    · have h2 := (List.mem_filter.mp hs).2
      have h3 := List.elem_iff.mp h2
      exact List.mem_of_mem_filter (List.mem_of_mem_filter
        (List.mem_of_mem_filter (List.mem_of_mem_filter h3)))
    · have h1 := List.mem_of_mem_take hs
      have h2 := (List.mem_filter.mp h1).1
      exact List.mem_of_mem_filter (List.mem_of_mem_filter
        (List.mem_of_mem_filter (List.mem_of_mem_filter h2)))
  obtain ⟨c, hc, hcn⟩ := List.mem_map.mp hnum
  exact ⟨c, List.mem_of_mem_filter hc, hcn⟩

/-- The selected column names are distinct when the table's column names
are. -/
theorem select_nodup (t : Table) (hnd : t.names.Nodup) :
    (selectAnomalyCols t).Nodup := by
  unfold selectAnomalyCols
  dsimp only
  have hmapnd : ((t.cols.filter (fun c => c.dtype == DType.float)).map (·.name)).Nodup :=
    List.Nodup.sublist (List.Sublist.map _ (List.filter_sublist _)) hnd
  have hnum4 : (((((t.cols.filter (fun c => c.dtype == DType.float)).map (·.name)).filter
      (fun col => !(["customer_id", "id"].any (fun ex => containsSub (lowerStr col) ex)))).filter
      (fun col => !(strEndsWith col "_encoded"))).filter
      (fun col => !(strStartsWith col "gender_"))).filter
      (fun col => !(strStartsWith col "product_category_")) |>.Nodup :=
    List.Nodup.filter _ (List.Nodup.filter _ (List.Nodup.filter _
      (List.Nodup.filter _ hmapnd)))
  rw [List.nodup_append]
  refine ⟨List.Nodup.filter _ (by decide), ?_, ?_⟩
  · exact List.Nodup.sublist (List.take_sublist _ _) (List.Nodup.filter _ hnum4)
  · intro a ha hb
    have ha1 := (List.mem_filter.mp ha).1
    have hb1 := (List.mem_filter.mp (List.mem_of_mem_take hb)).2
    rw [Bool.not_eq_true'] at hb1
    have hc2 : (["income", "purchase_amount", "final_price", "age"].contains a) = true :=
      List.elem_iff.mpr ha1
    rw [hc2] at hb1
    exact Bool.noConfusion hb1

theorem zscoreFlags_length (cells : List Cell) :
    (zscoreFlags cells).length = cells.length := by
  simp [zscoreFlags]

theorem iqrFlags_length (cells : List Cell) :
    (iqrFlags cells).length = cells.length := by
  simp [iqrFlags]

theorem combineFlags_length (z q : List Cell) :
    (combineFlags z q).length = min z.length q.length := by
  unfold combineFlags
  rw [List.length_zipWith]

theorem get?_zipWith_some {α β γ : Type} (f : α → β → γ) :
    ∀ (l₁ : List α) (l₂ : List β) (i : ℕ) (x : γ),
      (List.zipWith f l₁ l₂).get? i = some x →
      ∃ a b, l₁.get? i = some a ∧ l₂.get? i = some b ∧ x = f a b := by
  intro l₁
  induction l₁ with
  | nil => intro l₂ i x h; simp at h
  | cons a as ih =>
      intro l₂ i x h
      cases l₂ with
      | nil => simp at h
      | cons b bs =>
          cases i with
          | zero =>
              rw [List.zipWith_cons_cons, List.get?_cons_zero] at h
              injection h with h'
              exact ⟨a, b, rfl, rfl, h'.symm⟩
          | succ j =>
              rw [List.zipWith_cons_cons, List.get?_cons_succ] at h
              simp only [List.get?_cons_succ]
              exact ih bs j x h

theorem combineFlags_cell01 (z q : List Cell) (i : ℕ) (x : Cell)
    (hx : (combineFlags z q).get? i = some x) :
    x = Cell.num 0 ∨ x = Cell.num 1 := by
  unfold combineFlags at hx
  obtain ⟨a, b, ha, hb, hx'⟩ := get?_zipWith_some _ z q i x hx
  rw [hx']
  by_cases hc : (a == Cell.num 1 || b == Cell.num 1) = true
  · rw [if_pos hc]; right; rfl
  · rw [if_neg hc]; left; rfl

theorem foldl_add_nonneg (i : ℕ) :
    ∀ (cols : List Col) (init : ℚ),
      (∀ c ∈ cols, ∀ x, c.cells.get? i = some x → x = Cell.num 0 ∨ x = Cell.num 1) →
      0 ≤ init →
      0 ≤ cols.foldl (fun acc c => acc + (((c.cells.get? i).bind Cell.asQ).getD 0)) init := by
  intro cols
  induction cols with
  | nil => intro init _ h0; simpa using h0
  | cons c rest ih =>
      intro init h h0
      rw [List.foldl_cons]
      refine ih _ (fun c' hc' x hx => h c' (List.mem_cons_of_mem _ hc') x hx) ?_
      have hterm : 0 ≤ ((((c.cells.get? i).bind Cell.asQ).getD 0 : ℚ)) := by
        cases hg : c.cells.get? i with
        | none => simp
        | some x =>
            rcases h c (List.mem_cons_self _ _) x hg with rfl | rfl <;>
              norm_num [Cell.asQ]
      linarith

/-- `anomaly_score ≥ 0`: a row-wise sum of 0/1 columns is non-negative. -/
theorem sumRow_nonneg (cols : List Col) (i : ℕ)
    (h : ∀ c ∈ cols, ∀ x, c.cells.get? i = some x → x = Cell.num 0 ∨ x = Cell.num 1) :
    0 ≤ sumRow cols i :=
  foldl_add_nonneg i cols 0 h le_rfl

/-- The `_is_anomaly` columns generated for the selected columns. -/
def combColsOf (t : Table) (sel : List String) : List Col :=
  sel.flatMap (fun s =>
    match t.getCol s with
    | some c => [⟨s ++ "_is_anomaly", DType.float,
        combineFlags (zscoreFlags c.cells) (iqrFlags c.cells)⟩]
    | none => [])

theorem filter_flagCols_is_anomaly (t : Table) (sel : List String) :
    (sel.flatMap (flagCols t)).filter (fun cc => strEndsWith cc.name "_is_anomaly")
      = combColsOf t sel := by
  unfold combColsOf
  induction sel with
  | nil => rfl
  | cons s0 rest ih =>
      rw [List.flatMap_cons, List.flatMap_cons, List.filter_append, ih]
      have hpz : strEndsWith (s0 ++ "_anomaly_zscore") "_is_anomaly" = false :=
        strEndsWith_eq_false (fun b => (clash_isan_zscore b s0).symm)
      have hpq : strEndsWith (s0 ++ "_anomaly_iqr") "_is_anomaly" = false :=
        strEndsWith_eq_false (fun b => (clash_isan_iqr b s0).symm)
      have hpa : strEndsWith (s0 ++ "_is_anomaly") "_is_anomaly" = true :=
        strEndsWith_append s0 _
      unfold flagCols
      cases hg : t.getCol s0 with
      | none => rfl
      | some c => simp [List.filter_cons, hpz, hpq, hpa]

theorem find?_flagCols_flats (t : Table) (sel : List String) :
    sel.Nodup → ∀ s ∈ sel, ∀ c : Col, t.getCol s = some c →
    ((sel.flatMap (flagCols t)).find? (fun cc => cc.name == s ++ "_anomaly_zscore")
        = some ⟨s ++ "_anomaly_zscore", DType.float, zscoreFlags c.cells⟩) ∧
    ((sel.flatMap (flagCols t)).find? (fun cc => cc.name == s ++ "_anomaly_iqr")
        = some ⟨s ++ "_anomaly_iqr", DType.float, iqrFlags c.cells⟩) ∧
    ((sel.flatMap (flagCols t)).find? (fun cc => cc.name == s ++ "_is_anomaly")
        = some ⟨s ++ "_is_anomaly", DType.float,
            combineFlags (zscoreFlags c.cells) (iqrFlags c.cells)⟩) := by
  induction sel with
  | nil => intro _ s hs; exact absurd hs (List.not_mem_nil s)
  | cons s0 rest ih =>
      intro hnd s hs c hc
      have hnd' : rest.Nodup := (List.nodup_cons.mp hnd).2
      have hs0nr : s0 ∉ rest := (List.nodup_cons.mp hnd).1
      rw [List.flatMap_cons]
      rcases List.mem_cons.mp hs with rfl | hsr
      · unfold flagCols
        rw [hc]
        have hqz : ((s ++ "_anomaly_zscore") == (s ++ "_anomaly_iqr")) = false :=
          beq_eq_false_iff_ne.mpr (clash_iqr_zscore s s).symm
        have hza : ((s ++ "_anomaly_zscore") == (s ++ "_is_anomaly")) = false :=
          beq_eq_false_iff_ne.mpr (clash_isan_zscore s s).symm
        have hqa : ((s ++ "_anomaly_iqr") == (s ++ "_is_anomaly")) = false :=
          beq_eq_false_iff_ne.mpr (clash_isan_iqr s s).symm
        refine ⟨?_, ?_, ?_⟩ <;> rw [List.find?_append]
        · rw [List.find?_cons_of_pos (p := fun cc : Col => cc.name == s ++ "_anomaly_zscore")
            _ (by simp)]
          rfl
        · rw [List.find?_cons_of_neg (p := fun cc : Col => cc.name == s ++ "_anomaly_iqr")
              _ (by simp [hqz]),
            List.find?_cons_of_pos (p := fun cc : Col => cc.name == s ++ "_anomaly_iqr")
              _ (by simp)]
          rfl
        · rw [List.find?_cons_of_neg (p := fun cc : Col => cc.name == s ++ "_is_anomaly")
              _ (by simp [hza]),
            List.find?_cons_of_neg (p := fun cc : Col => cc.name == s ++ "_is_anomaly")
              _ (by simp [hqa]),
            List.find?_cons_of_pos (p := fun cc : Col => cc.name == s ++ "_is_anomaly")
              _ (by simp)]
          rfl
      · have hss0 : s ≠ s0 := fun he => hs0nr (he ▸ hsr)
        obtain ⟨ihz, ihq, iha⟩ := ih hnd' s hsr c hc
        have hnz : (flagCols t s0).find?
            (fun cc => cc.name == s ++ "_anomaly_zscore") = none :=
          List.find?_eq_none.mpr (fun cc hcc => by
            simp only [beq_iff_eq, decide_eq_true_eq]
            exact flagCols_name_ne_z t hss0 cc hcc)
        have hnq : (flagCols t s0).find?
            (fun cc => cc.name == s ++ "_anomaly_iqr") = none :=
          List.find?_eq_none.mpr (fun cc hcc => by
            simp only [beq_iff_eq, decide_eq_true_eq]
            exact flagCols_name_ne_q t hss0 cc hcc)
        have hna : (flagCols t s0).find?
            (fun cc => cc.name == s ++ "_is_anomaly") = none :=
          List.find?_eq_none.mpr (fun cc hcc => by
            simp only [beq_iff_eq, decide_eq_true_eq]
            exact flagCols_name_ne_a t hss0 cc hcc)
        refine ⟨?_, ?_, ?_⟩ <;> rw [List.find?_append]
        · rw [hnz, ihz]; rfl
        · rw [hnq, ihq]; rfl
        · rw [hna, iha]; rfl

theorem rowCount_mk_append (cols extra : List Col) (hempty : cols = [] → extra = []) :
    rowCount (Table.mk (cols ++ extra)) = rowCount (Table.mk cols) := by
  cases cols with
  | nil => rw [hempty rfl]; rfl
  | cons c cs => rfl


theorem flats_name_ne_score (t : Table) (sel : List String) :
    ∀ cc ∈ sel.flatMap (flagCols t), cc.name ≠ "anomaly_score" := by
  intro cc hcc
  obtain ⟨s0, hs0, hcc2⟩ := List.mem_flatMap.mp hcc
  rcases flagCols_names t s0 cc hcc2 with h | h | h <;> rw [h]
  · exact (ne_append_of_short (by decide) s0).symm
  · exact (@ne_append_of_drop_ne "anomaly_score" "_anomaly_iqr" s0
      (by decide) (by decide)).symm
  · exact (@ne_append_of_drop_ne "anomaly_score" "_is_anomaly" s0
      (by decide) (by decide)).symm

theorem flats_name_ne_hasany (t : Table) (sel : List String) :
    ∀ cc ∈ sel.flatMap (flagCols t), cc.name ≠ "has_any_anomaly" := by
  intro cc hcc
  obtain ⟨s0, hs0, hcc2⟩ := List.mem_flatMap.mp hcc
  rcases flagCols_names t s0 cc hcc2 with h | h | h <;> rw [h]
  · exact (@ne_append_of_drop_ne "has_any_anomaly" "_anomaly_zscore" s0
      (by decide) (by decide)).symm
  · exact (@ne_append_of_drop_ne "has_any_anomaly" "_anomaly_iqr" s0
      (by decide) (by decide)).symm
  · exact (@ne_append_of_drop_ne "has_any_anomaly" "_is_anomaly" s0
      (by decide) (by decide)).symm

/-- Structure of the frame after the per-column flag loop: the original
columns followed by the three flag columns of each selected column; the
row count is unchanged, and the `_is_anomaly` filter picks exactly the
generated combined-flag columns. -/
theorem stage5_t1 (t : Table) (n : ℕ) (hwf : t.Wf n) (hrc : rowCount t = n)
    (hnd : t.names.Nodup) (hclean : CleanForStage5 t) :
    ((selectAnomalyCols t).foldl flagStep t).cols
        = t.cols ++ (selectAnomalyCols t).flatMap (flagCols t) ∧
    rowCount ((selectAnomalyCols t).foldl flagStep t) = n ∧
    scoreSumCols ((selectAnomalyCols t).foldl flagStep t)
        = combColsOf t (selectAnomalyCols t) := by
  have hselnofn : ∀ s ∈ selectAnomalyCols t, NoFlagName s := by
    intro s hs
    obtain ⟨c, hc, rfl⟩ := select_mem_cols t s hs
    exact (hclean c hc).1
  have hfresh0 : ∀ s ∈ selectAnomalyCols t,
      t.hasCol (s ++ "_anomaly_zscore") = false ∧
      t.hasCol (s ++ "_anomaly_iqr") = false ∧
      t.hasCol (s ++ "_is_anomaly") = false := by
    intro s hs
    refine ⟨?_, ?_, ?_⟩ <;> apply hasCol_eq_false <;> intro c hc
    · exact (hclean c hc).1.1 s
    · exact (hclean c hc).1.2.1 s
    · exact (hclean c hc).1.2.2 s
  have hcols1 : ((selectAnomalyCols t).foldl flagStep t).cols
      = t.cols ++ (selectAnomalyCols t).flatMap (flagCols t) :=
    foldl_flagStep_cols t (selectAnomalyCols t) t (fun _ _ => rfl) hfresh0
      (select_nodup t hnd) hselnofn
  have hempty : t.cols = [] → (selectAnomalyCols t).flatMap (flagCols t) = [] := by
    intro hc
    have hselnil : selectAnomalyCols t = [] := by
      apply List.eq_nil_iff_forall_not_mem.mpr
      intro s hs
      obtain ⟨c, hcc, _⟩ := select_mem_cols t s hs
      rw [hc] at hcc
      exact absurd hcc (List.not_mem_nil c)
    rw [hselnil]
    rfl
  have hrc1 : rowCount ((selectAnomalyCols t).foldl flagStep t) = n := by
    have hh : rowCount ((selectAnomalyCols t).foldl flagStep t)
        = rowCount (Table.mk (t.cols ++ (selectAnomalyCols t).flatMap (flagCols t))) := by
      unfold rowCount
      rw [hcols1]
    rw [hh, rowCount_mk_append _ _ hempty]
    exact hrc
  have hfil : scoreSumCols ((selectAnomalyCols t).foldl flagStep t)
      = combColsOf t (selectAnomalyCols t) := by
    unfold scoreSumCols
    rw [hcols1, List.filter_append, filter_flagCols_is_anomaly]
    have htnil : t.cols.filter (fun c => strEndsWith c.name "_is_anomaly") = [] := by
      apply List.filter_eq_nil_iff.mpr
      intro c hc
      simp [strEndsWith_eq_false (fun b => (hclean c hc).1.2.2 b)]
    rw [htnil, List.nil_append]
  exact ⟨hcols1, hrc1, hfil⟩

/-- The three flag columns of a selected, present column can be read back
from the final frame. -/
theorem stage5_getCol_flags (t : Table) (n : ℕ) (hwf : t.Wf n) (hrc : rowCount t = n)
    (hnd : t.names.Nodup) (hclean : CleanForStage5 t)
    {s : String} (hs : s ∈ selectAnomalyCols t) {c : Col} (hc : t.getCol s = some c) :
    (flag_anomalies_column t).getCol (s ++ "_anomaly_zscore")
        = some ⟨s ++ "_anomaly_zscore", DType.float, zscoreFlags c.cells⟩ ∧
    (flag_anomalies_column t).getCol (s ++ "_anomaly_iqr")
        = some ⟨s ++ "_anomaly_iqr", DType.float, iqrFlags c.cells⟩ ∧
    (flag_anomalies_column t).getCol (s ++ "_is_anomaly")
        = some ⟨s ++ "_is_anomaly", DType.float,
            combineFlags (zscoreFlags c.cells) (iqrFlags c.cells)⟩ := by
  obtain ⟨hcols1, hrc1, hfil⟩ := stage5_t1 t n hwf hrc hnd hclean
  obtain ⟨ffz, ffq, ffa⟩ :=
    find?_flagCols_flats t (selectAnomalyCols t) (select_nodup t hnd) s hs c hc
  have hne1z : s ++ "_anomaly_zscore" ≠ "has_any_anomaly" :=
    (@ne_append_of_drop_ne "has_any_anomaly" "_anomaly_zscore" s
      (by decide) (by decide)).symm
  have hne2z : s ++ "_anomaly_zscore" ≠ "anomaly_score" :=
    (ne_append_of_short (by decide) s).symm
  have hne1q : s ++ "_anomaly_iqr" ≠ "has_any_anomaly" :=
    (@ne_append_of_drop_ne "has_any_anomaly" "_anomaly_iqr" s
      (by decide) (by decide)).symm
  have hne2q : s ++ "_anomaly_iqr" ≠ "anomaly_score" :=
    (@ne_append_of_drop_ne "anomaly_score" "_anomaly_iqr" s
      (by decide) (by decide)).symm
  have hne1a : s ++ "_is_anomaly" ≠ "has_any_anomaly" :=
    (@ne_append_of_drop_ne "has_any_anomaly" "_is_anomaly" s
      (by decide) (by decide)).symm
  have hne2a : s ++ "_is_anomaly" ≠ "anomaly_score" :=
    (@ne_append_of_drop_ne "anomaly_score" "_is_anomaly" s
      (by decide) (by decide)).symm
  refine ⟨?_, ?_, ?_⟩
  · unfold flag_anomalies_column
    dsimp only
    rw [Table.getCol_setCol_ne _ hne1z, Table.getCol_setCol_ne _ hne2z,
      getCol_congr_cols hcols1]
    unfold Table.getCol
    dsimp only
    rw [List.find?_append,
      find?_cols_eq_none_of_ne t.cols (fun c2 hc2 => (hclean c2 hc2).1.1 s), ffz]
    rfl
  · unfold flag_anomalies_column
    dsimp only
    rw [Table.getCol_setCol_ne _ hne1q, Table.getCol_setCol_ne _ hne2q,
      getCol_congr_cols hcols1]
    unfold Table.getCol
    dsimp only
    rw [List.find?_append,
      find?_cols_eq_none_of_ne t.cols (fun c2 hc2 => (hclean c2 hc2).1.2.1 s), ffq]
    rfl
  · unfold flag_anomalies_column
    dsimp only
    rw [Table.getCol_setCol_ne _ hne1a, Table.getCol_setCol_ne _ hne2a,
      getCol_congr_cols hcols1]
    unfold Table.getCol
    dsimp only
    rw [List.find?_append,
      find?_cols_eq_none_of_ne t.cols (fun c2 hc2 => (hclean c2 hc2).1.2.2 s), ffa]
    rfl

theorem some_num_ite_eq_one_iff (P : Prop) [Decidable P] :
    (some (Cell.num (if P then 1 else 0)) = some (Cell.num 1)) ↔ P := by
  by_cases h : P
  · rw [if_pos h]
    exact ⟨fun _ => h, fun _ => rfl⟩
  · rw [if_neg h]
    constructor
    · intro he
      exfalso
      rw [Option.some.injEq, Cell.num.injEq] at he
      norm_num at he
    · intro hp
      exact absurd hp h

/-- C7.  For a well-formed table none of whose columns is named like a
stage-5 output column, the Anomaly Flagger's output satisfies, at every
row: `anomaly_score` equals the row-wise sum of the output's
`_is_anomaly` columns; that sum is non-negative; `has_any_anomaly` is
`1` when the score is positive and `0` otherwise (so it equals 1 iff
`anomaly_score > 0`); and each selected column's `_is_anomaly` cell is 1
iff its z-score flag or its IQR flag is 1 at that row. -/
theorem C7_anomaly_score (t : Table) (n : ℕ) (hwf : t.Wf n) (hrc : rowCount t = n)
    (hnd : t.names.Nodup) (hclean : CleanForStage5 t) :
    ∀ i, i < n →
      ((flag_anomalies_column t).cellAt "anomaly_score" i
          = some (Cell.num (sumRow (scoreSumCols (flag_anomalies_column t)) i))) ∧
      0 ≤ sumRow (scoreSumCols (flag_anomalies_column t)) i ∧
      ((flag_anomalies_column t).cellAt "has_any_anomaly" i
          = some (Cell.num
              (if 0 < sumRow (scoreSumCols (flag_anomalies_column t)) i
                then 1 else 0))) ∧
      ((flag_anomalies_column t).cellAt "has_any_anomaly" i = some (Cell.num 1) ↔
        0 < sumRow (scoreSumCols (flag_anomalies_column t)) i) ∧
      (∀ s ∈ selectAnomalyCols t, ∀ c : Col, t.getCol s = some c →
        ((flag_anomalies_column t).cellAt (s ++ "_is_anomaly") i
            = some (Cell.num 1) ↔
          ((flag_anomalies_column t).cellAt (s ++ "_anomaly_zscore") i
              = some (Cell.num 1) ∨
           (flag_anomalies_column t).cellAt (s ++ "_anomaly_iqr") i
              = some (Cell.num 1)))) := by
  obtain ⟨hcols1, hrc1, hfil⟩ := stage5_t1 t n hwf hrc hnd hclean
  have hT : flag_anomalies_column t
      = ((((selectAnomalyCols t).foldl flagStep t).setCol "anomaly_score" DType.float
          (scoreCellsOf ((selectAnomalyCols t).foldl flagStep t))).setCol
          "has_any_anomaly" DType.float
          (hasAnyCellsOf ((selectAnomalyCols t).foldl flagStep t))) := rfl
  have hscoreF : ((selectAnomalyCols t).foldl flagStep t).hasCol "anomaly_score" = false := by
    rw [hasCol_congr_cols hcols1, hasCol_mk_append, Bool.or_eq_false_iff]
    exact ⟨hasCol_eq_false _ (fun c hc => (hclean c hc).2.1),
           hasCol_eq_false _ (flats_name_ne_score t _)⟩
  have hhasanyF1 : ((selectAnomalyCols t).foldl flagStep t).hasCol "has_any_anomaly" = false := by
    rw [hasCol_congr_cols hcols1, hasCol_mk_append, Bool.or_eq_false_iff]
    exact ⟨hasCol_eq_false _ (fun c hc => (hclean c hc).2.2),
           hasCol_eq_false _ (flats_name_ne_hasany t _)⟩
  have hhasanyF2 : (((selectAnomalyCols t).foldl flagStep t).setCol "anomaly_score"
      DType.float (scoreCellsOf ((selectAnomalyCols t).foldl flagStep t))).hasCol
      "has_any_anomaly" = false := by
    rw [Table.hasCol_setCol, hhasanyF1]
    decide
  have hTcols : (flag_anomalies_column t).cols
      = ((selectAnomalyCols t).foldl flagStep t).cols
        ++ [(⟨"anomaly_score", DType.float,
              scoreCellsOf ((selectAnomalyCols t).foldl flagStep t)⟩ : Col)]
        ++ [(⟨"has_any_anomaly", DType.float,
              hasAnyCellsOf ((selectAnomalyCols t).foldl flagStep t)⟩ : Col)] := by
    rw [hT, setCol_cols_append _ hhasanyF2, setCol_cols_append _ hscoreF]
  have hfilT : scoreSumCols (flag_anomalies_column t)
      = combColsOf t (selectAnomalyCols t) := by
    unfold scoreSumCols
    rw [hTcols, List.filter_append, List.filter_append]
    have hp1 : strEndsWith "anomaly_score" "_is_anomaly" = false := by decide
    have hp2 : strEndsWith "has_any_anomaly" "_is_anomaly" = false := by decide
    simp only [List.filter_cons, List.filter_nil, hp1, hp2, Bool.false_eq_true,
      if_false, List.append_nil]
    exact hfil
  have hgscore : (flag_anomalies_column t).getCol "anomaly_score"
      = some ⟨"anomaly_score", DType.float,
          scoreCellsOf ((selectAnomalyCols t).foldl flagStep t)⟩ := by
    rw [hT, Table.getCol_setCol_ne _ (by decide), Table.getCol_setCol_self]
  have hghasany : (flag_anomalies_column t).getCol "has_any_anomaly"
      = some ⟨"has_any_anomaly", DType.float,
          hasAnyCellsOf ((selectAnomalyCols t).foldl flagStep t)⟩ := by
    rw [hT, Table.getCol_setCol_self]
  intro i hi
  have hsc : (scoreCellsOf ((selectAnomalyCols t).foldl flagStep t)).get? i
      = some (Cell.num
          (sumRow (scoreSumCols ((selectAnomalyCols t).foldl flagStep t)) i)) := by
    unfold scoreCellsOf
    rw [List.get?_map, hrc1, List.get?_range hi]
    rfl
  have hhcell : (hasAnyCellsOf ((selectAnomalyCols t).foldl flagStep t)).get? i
      = some (Cell.num
          (if 0 < sumRow (scoreSumCols ((selectAnomalyCols t).foldl flagStep t)) i
            then 1 else 0)) := by
    unfold hasAnyCellsOf
    rw [List.get?_map, hsc]
    rfl
  have hcc : (flag_anomalies_column t).cellAt "has_any_anomaly" i
      = some (Cell.num
          (if 0 < sumRow (scoreSumCols (flag_anomalies_column t)) i
            then 1 else 0)) := by
    unfold Table.cellAt
    rw [hghasany]
    show (hasAnyCellsOf ((selectAnomalyCols t).foldl flagStep t)).get? i = _
    rw [hhcell, hfil, hfilT]
  refine ⟨?_, ?_, hcc, ?_, ?_⟩
  · unfold Table.cellAt
    rw [hgscore]
    show (scoreCellsOf ((selectAnomalyCols t).foldl flagStep t)).get? i = _
    rw [hsc, hfil, hfilT]
  · rw [hfilT]
    apply sumRow_nonneg
    intro c2 hc2 x hx
    unfold combColsOf at hc2
    obtain ⟨s0, hs0, hc3⟩ := List.mem_flatMap.mp hc2
    cases hg : t.getCol s0 with
    | none => rw [hg] at hc3; simp at hc3
    | some c0 =>
        rw [hg] at hc3
        simp only [List.mem_singleton] at hc3
        subst hc3
        exact combineFlags_cell01 _ _ i x hx
  · rw [hcc]
    exact some_num_ite_eq_one_iff _
  · intro s hs c hc
    obtain ⟨hfz, hfq, hfa⟩ := stage5_getCol_flags t n hwf hrc hnd hclean hs hc
    have hcmem : c ∈ t.cols := List.mem_of_find?_eq_some hc
    have hclen : c.cells.length = n := hwf c hcmem
    have hzl : i < (zscoreFlags c.cells).length := by
      rw [zscoreFlags_length, hclen]; exact hi
    have hql : i < (iqrFlags c.cells).length := by
      rw [iqrFlags_length, hclen]; exact hi
    obtain ⟨zc, hzc⟩ : ∃ zc, (zscoreFlags c.cells).get? i = some zc := by
      rw [List.get?_eq_get hzl]; exact ⟨_, rfl⟩
    obtain ⟨qc, hqc⟩ : ∃ qc, (iqrFlags c.cells).get? i = some qc := by
      rw [List.get?_eq_get hql]; exact ⟨_, rfl⟩
    have hcomb : (combineFlags (zscoreFlags c.cells) (iqrFlags c.cells)).get? i
        = some (Cell.num (if zc == Cell.num 1 || qc == Cell.num 1 then 1 else 0)) :=
      get?_zipWith_both
        (fun a b => Cell.num (if a == Cell.num 1 || b == Cell.num 1 then 1 else 0))
        (zscoreFlags c.cells) (iqrFlags c.cells) i zc qc hzc hqc
    have hA : (flag_anomalies_column t).cellAt (s ++ "_is_anomaly") i
        = some (Cell.num (if zc == Cell.num 1 || qc == Cell.num 1 then 1 else 0)) := by
      unfold Table.cellAt
      rw [hfa]
      exact hcomb
    have hZ : (flag_anomalies_column t).cellAt (s ++ "_anomaly_zscore") i = some zc := by
      unfold Table.cellAt
      rw [hfz]
      exact hzc
    have hQ : (flag_anomalies_column t).cellAt (s ++ "_anomaly_iqr") i = some qc := by
      unfold Table.cellAt
      rw [hfq]
      exact hqc
    rw [hA, hZ, hQ]
    constructor
    · intro h
      by_cases hcnd : (zc == Cell.num 1 || qc == Cell.num 1) = true
      · rw [Bool.or_eq_true, beq_iff_eq, beq_iff_eq] at hcnd
        rcases hcnd with h1 | h1
        · exact Or.inl (by rw [h1])
        · exact Or.inr (by rw [h1])
      · rw [if_neg hcnd] at h
        rw [Option.some.injEq, Cell.num.injEq] at h
        exact absurd h (by norm_num)
    · intro h
      have hcnd : (zc == Cell.num 1 || qc == Cell.num 1) = true := by
        rw [Bool.or_eq_true, beq_iff_eq, beq_iff_eq]
        rcases h with h | h <;> rw [Option.some.injEq] at h
        · exact Or.inl h
        · exact Or.inr h
      rw [if_pos hcnd]

/-- Concrete table for the C7 witness. -/
def w7Table : Table :=
  ⟨[⟨"income", .float, [.num 0, .num 1]⟩]⟩

/-- Witness for C7 at a concrete input (row 0 of a two-row table with
one numeric column). -/
theorem C7_anomaly_score_witness :
    ((flag_anomalies_column w7Table).cellAt "anomaly_score" 0
        = some (Cell.num (sumRow (scoreSumCols (flag_anomalies_column w7Table)) 0))) ∧
    0 ≤ sumRow (scoreSumCols (flag_anomalies_column w7Table)) 0 ∧
    ((flag_anomalies_column w7Table).cellAt "has_any_anomaly" 0
        = some (Cell.num
            (if 0 < sumRow (scoreSumCols (flag_anomalies_column w7Table)) 0
              then 1 else 0))) ∧
    ((flag_anomalies_column w7Table).cellAt "has_any_anomaly" 0 = some (Cell.num 1) ↔
      0 < sumRow (scoreSumCols (flag_anomalies_column w7Table)) 0) ∧
    ((flag_anomalies_column w7Table).cellAt ("income" ++ "_is_anomaly") 0
        = some (Cell.num 1) ↔
      ((flag_anomalies_column w7Table).cellAt ("income" ++ "_anomaly_zscore") 0
          = some (Cell.num 1) ∨
       (flag_anomalies_column w7Table).cellAt ("income" ++ "_anomaly_iqr") 0
          = some (Cell.num 1))) := by
  obtain ⟨h1, h2, h3, h4, h5⟩ := C7_anomaly_score w7Table 2
    (by unfold Table.Wf; decide) rfl (by decide)
    (by
      intro c hc
      rw [show w7Table.cols
        = [(⟨"income", DType.float, [Cell.num 0, Cell.num 1]⟩ : Col)] from rfl] at hc
      rw [List.mem_singleton] at hc
      subst hc
      exact ⟨noFlagName_of_short (by decide), by decide, by decide⟩)
    0 (by decide)
  exact ⟨h1, h2, h3, h4,
    h5 "income" (by decide) ⟨"income", DType.float, [Cell.num 0, Cell.num 1]⟩ rfl⟩

/-! ### C10: z-scores on small samples -/

theorem sum_map_sub_mean (mu : ℚ) :
    ∀ l : List ℚ, (l.map (fun y => y - mu)).sum = l.sum - l.length * mu := by
  intro l
  induction l with
  | nil => simp
  | cons a as ih =>
      simp only [List.map_cons, List.sum_cons, List.length_cons]
      rw [ih]
      push_cast
      ring

theorem sum_sq_nonneg (l : List ℚ) : 0 ≤ (l.map (fun x => x ^ 2)).sum := by
  induction l with
  | nil => simp
  | cons a as ih =>
      simp only [List.map_cons, List.sum_cons]
      have := sq_nonneg a
      linarith

/-- List Cauchy–Schwarz: `(Σ x)² ≤ n · Σ x²`. -/
theorem sq_sum_le (l : List ℚ) :
    (l.sum) ^ 2 ≤ (l.length : ℚ) * (l.map (fun x => x ^ 2)).sum := by
  induction l with
  | nil => simp
  | cons a as ih =>
      simp only [List.sum_cons, List.map_cons, List.length_cons]
      push_cast
      cases as with
      | nil => simp
      | cons b bs =>
          have h2 : (0:ℚ) ≤ ((b :: bs).map (fun x => x ^ 2)).sum :=
            sum_sq_nonneg (b :: bs)
          have h6 : (1:ℚ) ≤ ((b :: bs).length : ℚ) := by
            simp only [List.length_cons]
            push_cast
            linarith [Nat.cast_nonneg (α := ℚ) bs.length]
          have hA := sq_nonneg (((b :: bs).length : ℚ) * a - (b :: bs).sum)
          have hE : (0:ℚ) ≤ ((b :: bs).length : ℚ) *
              (((b :: bs).length : ℚ) * ((b :: bs).map (fun x => x ^ 2)).sum
                - ((b :: bs).sum) ^ 2) := by
            apply mul_nonneg
            · linarith
            · linarith [ih]
          nlinarith [ih, h2, h6, hA, hE]

theorem sum_map_sq_sub_nonneg (mu : ℚ) :
    ∀ l : List ℚ, 0 ≤ (l.map (fun x => (x - mu) ^ 2)).sum := by
  intro l
  induction l with
  | nil => simp
  | cons a as ih =>
      simp only [List.map_cons, List.sum_cons]
      have := sq_nonneg (a - mu)
      linarith

theorem sqDevSum_nonneg (l : List ℚ) : 0 ≤ sqDevSum l :=
  sum_map_sq_sub_nonneg (popMean l) l

/-- Key bound: for a population z-score, `n·(x-μ)² ≤ (n-1)·Σ(y-μ)²`
for every `x` in the sample — i.e. `|z| ≤ √(n-1)`. -/
theorem dev_bound (l : List ℚ) (x : ℚ) (hx : x ∈ l) :
    (l.length : ℚ) * (x - popMean l) ^ 2 ≤ ((l.length : ℚ) - 1) * sqDevSum l := by
  obtain ⟨l1, l2, rfl⟩ := List.append_of_mem hx
  set mu := popMean (l1 ++ x :: l2) with hmu
  have hlenN : (l1 ++ x :: l2).length = l1.length + l2.length + 1 := by
    rw [List.length_append, List.length_cons]
    omega
  have hn : ((l1 ++ x :: l2).length : ℚ) = (l1.length : ℚ) + (l2.length : ℚ) + 1 := by
    rw [hlenN]
    push_cast
    ring
  have hzero := sum_map_sub_mean mu (l1 ++ x :: l2)
  have hnne : ((l1 ++ x :: l2).length : ℚ) ≠ 0 := by
    rw [hn]
    have h1 : (0:ℚ) ≤ (l1.length : ℚ) := Nat.cast_nonneg _
    have h2 : (0:ℚ) ≤ (l2.length : ℚ) := Nat.cast_nonneg _
    linarith
  have hsum : (l1 ++ x :: l2).sum = ((l1 ++ x :: l2).length : ℚ) * mu := by
    rw [hmu]
    unfold popMean
    field_simp
  have hzero2 : ((l1 ++ x :: l2).map (fun y => y - mu)).sum = 0 := by
    rw [hzero, hsum]
    ring
  have hsplit : ((l1 ++ x :: l2).map (fun y => y - mu)).sum
      = (l1.map (fun y => y - mu)).sum + ((x - mu) + (l2.map (fun y => y - mu)).sum) := by
    rw [List.map_append, List.sum_append, List.map_cons, List.sum_cons]
  have hRsum : (l1.map (fun y => y - mu) ++ l2.map (fun y => y - mu)).sum
      = -(x - mu) := by
    rw [List.sum_append]
    rw [hsplit] at hzero2
    linarith
  have hRlen : ((l1.map (fun y => y - mu) ++ l2.map (fun y => y - mu)).length : ℚ)
      = ((l1 ++ x :: l2).length : ℚ) - 1 := by
    rw [List.length_append, List.length_map, List.length_map, hn]
    push_cast
    ring
  have hRsq : ((l1.map (fun y => y - mu) ++ l2.map (fun y => y - mu)).map
      (fun y => y ^ 2)).sum
      = sqDevSum (l1 ++ x :: l2) - (x - mu) ^ 2 := by
    unfold sqDevSum
    rw [← hmu]
    simp only [List.map_append, List.map_map, List.sum_append, List.map_cons,
      List.sum_cons, Function.comp_def]
    ring
  have hCS := sq_sum_le (l1.map (fun y => y - mu) ++ l2.map (fun y => y - mu))
  rw [hRsum, hRlen, hRsq] at hCS
  have hS := sqDevSum_nonneg (l1 ++ x :: l2)
  nlinarith [hCS, hS]

/-- On a sample of at most 10 values no squared population z-score
exceeds 9, so the `|z| > 3` test never fires. -/
theorem zFlag_false_of_small (l : List ℚ) (hlen : l.length ≤ 10) (x : ℚ)
    (hx : x ∈ l) : zFlag l x = false := by
  unfold zFlag
  rw [decide_eq_false_iff_not, not_lt]
  have h1 := dev_bound l x hx
  have h2 := sqDevSum_nonneg l
  have h3 : ((l.length : ℚ)) - 1 ≤ 9 := by
    have hc : (l.length : ℚ) ≤ 10 := by exact_mod_cast hlen
    linarith
  calc (l.length : ℚ) * (x - popMean l) ^ 2
      ≤ ((l.length : ℚ) - 1) * sqDevSum l := h1
    _ ≤ 9 * sqDevSum l := mul_le_mul_of_nonneg_right h3 h2

/-- Every z-score flag of a column with at most 10 rows is 0. -/
theorem zscoreFlags_zero_of_small (cells : List Cell) (hlen : cells.length ≤ 10) :
    ∀ x ∈ zscoreFlags cells, x = Cell.num 0 := by
  intro x hx
  unfold zscoreFlags at hx
  rw [List.mem_map] at hx
  obtain ⟨cell, hcell, hx2⟩ := hx
  rw [← hx2]
  cases cell with
  | num q =>
      have hq : q ∈ cells.filterMap Cell.asQ := by
        rw [List.mem_filterMap]
        exact ⟨Cell.num q, hcell, rfl⟩
      have hvlen : (cells.filterMap Cell.asQ).length ≤ 10 :=
        le_trans (List.length_filterMap_le _ _) hlen
      show Cell.num _ = Cell.num 0
      rw [zFlag_false_of_small _ hvlen q hq]
      simp
  | na => rfl
  | pinf => rfl
  | ninf => rfl
  | str s => rfl
  | ts z => rfl
  | bool b => rfl
  | iv a b => rfl

/-- C10, amended.  The z-score uses the population standard deviation,
so every squared z-score is bounded by `n - 1` (first conjunct, in the
square-cleared form `n·(x-μ)² ≤ (n-1)·Σ(y-μ)²`; the claim's bound
`(n-1)/√n` is smaller and false).  Consequently on a table with
`n ≤ 10` rows every `<col>_anomaly_zscore` cell the Anomaly Flagger
produces is 0, since `√(n-1) ≤ 3`. -/
theorem C10_small_table_zscore :
    (∀ (l : List ℚ) (x : ℚ), x ∈ l →
        (l.length : ℚ) * (x - popMean l) ^ 2 ≤ ((l.length : ℚ) - 1) * sqDevSum l) ∧
    (∀ (t : Table) (n : ℕ), t.Wf n → rowCount t = n → n ≤ 10 →
      t.names.Nodup → CleanForStage5 t →
      ∀ s ∈ selectAnomalyCols t, ∀ c : Col, t.getCol s = some c →
        (flag_anomalies_column t).getCol (s ++ "_anomaly_zscore")
            = some ⟨s ++ "_anomaly_zscore", DType.float, zscoreFlags c.cells⟩ ∧
        ∀ x ∈ zscoreFlags c.cells, x = Cell.num 0) := by
  constructor
  · exact fun l x hx => dev_bound l x hx
  · intro t n hwf hrc hn hnd hclean s hs c hc
    have hflags := stage5_getCol_flags t n hwf hrc hnd hclean hs hc
    refine ⟨hflags.1, ?_⟩
    have hcmem : c ∈ t.cols := List.mem_of_find?_eq_some hc
    have hclen : c.cells.length = n := hwf c hcmem
    exact zscoreFlags_zero_of_small c.cells (by rw [hclen]; exact hn)

/-- Concrete table for the C10 witness. -/
def w10Table : Table :=
  ⟨[⟨"income", .float, [.num 0, .num 1]⟩]⟩

/-- Witness for the amended C10 at a concrete input. -/
theorem C10_small_table_zscore_witness :
    ((([0, 1] : List ℚ).length : ℚ) * ((0 : ℚ) - popMean [0, 1]) ^ 2
        ≤ ((([0, 1] : List ℚ).length : ℚ) - 1) * sqDevSum [0, 1]) ∧
    ((flag_anomalies_column w10Table).getCol ("income" ++ "_anomaly_zscore")
        = some ⟨"income" ++ "_anomaly_zscore", DType.float,
            zscoreFlags [Cell.num 0, Cell.num 1]⟩) ∧
    (zscoreFlags [Cell.num 0, Cell.num 1]).getD 0 Cell.na = Cell.num 0 := by
  have h2 := C10_small_table_zscore.2 w10Table 2
    (by unfold Table.Wf; decide) rfl (by decide) (by decide)
    (by
      intro c hc
      rw [show w10Table.cols
        = [(⟨"income", DType.float, [Cell.num 0, Cell.num 1]⟩ : Col)] from rfl] at hc
      rw [List.mem_singleton] at hc
      subst hc
      exact ⟨noFlagName_of_short (by decide), by decide, by decide⟩)
    "income" (by decide)
    ⟨"income", DType.float, [Cell.num 0, Cell.num 1]⟩ rfl
  refine ⟨C10_small_table_zscore.1 [0, 1] 0 (by simp), h2.1, ?_⟩
  have hlen : (zscoreFlags [Cell.num 0, Cell.num 1]).length = 2 := by
    rw [zscoreFlags_length]
    rfl
  obtain ⟨v, hv⟩ : ∃ v, (zscoreFlags [Cell.num 0, Cell.num 1]).get? 0 = some v := by
    rw [List.get?_eq_get (by rw [hlen]; norm_num)]
    exact ⟨_, rfl⟩
  have hv0 : v = Cell.num 0 := h2.2 v (List.get?_mem hv)
  rw [List.getD_eq_get?, hv, hv0]
  rfl

/-- C10, counterexample.  The claim's asserted bound `|z| ≤ (n-1)/√n`
(squared and cleared of denominators: `n²·(x-μ)² ≤ (n-1)²·Σ(y-μ)²`)
fails already for the sample `[0, 1]` at `x = 0`: there `n²(x-μ)² = 1`
but `(n-1)²·Σ(y-μ)² = 1/2`.  (The correct bound is `√(n-1)`, proved in
the amended theorem.) -/
theorem C10_counterexample :
    ((0 : ℚ) ∈ ([0, 1] : List ℚ)) ∧
    ¬ ((([0, 1] : List ℚ).length : ℚ) ^ 2 * ((0 : ℚ) - popMean [0, 1]) ^ 2
        ≤ ((([0, 1] : List ℚ).length : ℚ) - 1) ^ 2 * sqDevSum [0, 1]) := by
  constructor
  · simp
  · intro h
    have hmu : popMean ([0, 1] : List ℚ) = 1 / 2 := by
      unfold popMean
      norm_num
    have hS : sqDevSum ([0, 1] : List ℚ) = 1 / 2 := by
      unfold sqDevSum
      rw [hmu]
      norm_num
    rw [hmu, hS] at h
    norm_num at h

/-! ### Stage 4: `time_based_feature_extraction` -/

/-- Proleptic-Gregorian date of a day count since 1970-01-01
(Howard Hinnant's `civil_from_days`, with Euclidean division):
`(year, month, day)`. -/
def civilFromDays (z0 : ℤ) : ℤ × ℤ × ℤ :=
  let z := z0 + 719468
  let era := z / 146097
  let doe := z - era * 146097
  let yoe := (doe - doe / 1460 + doe / 36524 - doe / 146096) / 365
  let y := yoe + era * 400
  let doy := doe - (365 * yoe + yoe / 4 - yoe / 100)
  let mp := (5 * doy + 2) / 153
  let d := doy - (153 * mp + 2) / 5 + 1
  let m := mp + (if mp < 10 then 3 else -9)
  (y + (if m ≤ 2 then 1 else 0), m, d)

/-- Inverse: day count since 1970-01-01 of a civil date
(`days_from_civil`). -/
def daysFromCivil (y m d : ℤ) : ℤ :=
  let y2 := y - (if m ≤ 2 then 1 else 0)
  let era := y2 / 400
  let yoe := y2 - era * 400
  let mp := (m + 9) % 12
  let doy := (153 * mp + 2) / 5 + d - 1
  let doe := yoe * 365 + yoe / 4 - yoe / 100 + doy
  era * 146097 + doe - 719468

/-- `dt.dayofweek`: 0 = Monday … 6 = Sunday (1970-01-01 was a
Thursday). -/
def dayOfWeekMon0 (z : ℤ) : ℤ := (z + 3) % 7

/-- `dt.isocalendar().week` via the ISO Thursday rule. -/
def isoWeek (z : ℤ) : ℤ :=
  let thuZ := z - dayOfWeekMon0 z + 3
  let yThu := (civilFromDays thuZ).1
  (thuZ - daysFromCivil yThu 1 1) / 7 + 1

/-- `dt.month_name()` values. -/
def monthNames : List String :=
  ["January", "February", "March", "April", "May", "June", "July",
   "August", "September", "October", "November", "December"]

/-- `dt.day_name()` values, Monday first. -/
def dayNames : List String :=
  ["Monday", "Tuesday", "Wednesday", "Thursday", "Friday", "Saturday", "Sunday"]

/-- The stage's season rule (Northern Hemisphere; the `apply` lambda
falls through to `'Fall'` on anything else, including a NaT month). -/
def seasonOf (m : ℤ) : String :=
  if m = 12 || m = 1 || m = 2 then "Winter"
  else if m = 3 || m = 4 || m = 5 then "Spring"
  else if m = 6 || m = 7 || m = 8 then "Summer"
  else "Fall"

/-- A numeric/text feature of the parsed dates; NaT rows give NaN. -/
def dtFeature (f : ℤ → Cell) (parsed : List (Option ℤ)) : List Cell :=
  parsed.map (fun o =>
    match o with
    | some z => f z
    | none => Cell.na)

/-- A boolean feature `.astype(int)`; NaT rows compare false, giving 0. -/
def dtFeatureB (p : ℤ → Bool) (parsed : List (Option ℤ)) : List Cell :=
  parsed.map (fun o =>
    match o with
    | some z => Cell.num (if p z then 1 else 0)
    | none => Cell.num 0)

/-- The season column; a NaT month falls through to `"Fall"`. -/
def dtSeason (parsed : List (Option ℤ)) : List Cell :=
  parsed.map (fun o =>
    match o with
    | some z => Cell.str (seasonOf (civilFromDays z).2.1)
    | none => Cell.str "Fall")

/-- The 15 features extracted from one datetime column, in source
order. -/
def timeFeatures (now : ℤ) (cname : String) (parsed : List (Option ℤ)) :
    List (String × DType × List Cell) :=
  [(cname ++ "_year", .float, dtFeature (fun z => .num (civilFromDays z).1) parsed),
   (cname ++ "_month", .float, dtFeature (fun z => .num (civilFromDays z).2.1) parsed),
   (cname ++ "_month_name", .obj, dtFeature (fun z =>
     .str (monthNames.getD ((civilFromDays z).2.1 - 1).toNat "")) parsed),
   (cname ++ "_day", .float, dtFeature (fun z => .num (civilFromDays z).2.2) parsed),
   (cname ++ "_day_of_week", .float, dtFeature (fun z => .num (dayOfWeekMon0 z)) parsed),
   (cname ++ "_day_name", .obj, dtFeature (fun z =>
     .str (dayNames.getD (dayOfWeekMon0 z).toNat "")) parsed),
   (cname ++ "_quarter", .float, dtFeature (fun z =>
     .num (((civilFromDays z).2.1 + 2) / 3)) parsed),
   (cname ++ "_week_of_year", .float, dtFeature (fun z => .num (isoWeek z)) parsed),
   (cname ++ "_is_weekend", .float, dtFeatureB (fun z =>
     dayOfWeekMon0 z == 5 || dayOfWeekMon0 z == 6) parsed),
   (cname ++ "_is_month_start", .float, dtFeatureB (fun z =>
     (civilFromDays z).2.2 == 1) parsed),
   (cname ++ "_is_month_end", .float, dtFeatureB (fun z =>
     (civilFromDays (z + 1)).2.1 != (civilFromDays z).2.1) parsed),
   (cname ++ "_days_since_epoch", .float, dtFeature (fun z => .num z) parsed),
   (cname ++ "_season", .obj, dtSeason parsed),
   (cname ++ "_days_from_today", .float, dtFeature (fun z => .num (now - z)) parsed),
   (cname ++ "_is_recent", .float, dtFeatureB (fun z => decide (now - z ≤ 30)) parsed)]

/-- Handle one detected datetime column: convert it in place
(`pd.to_datetime`), then append its 15 features. -/
def timeStepCol (parseDT : String → Option ℤ) (now : ℤ) (t : Table)
    (cname : String) : Table :=
  match t.getCol cname with
  | none => t
  | some c =>
      match parseColDT parseDT c.cells with
      | none => t
      | some parsed =>
          (timeFeatures now cname parsed).foldl
            (fun acc f => acc.setCol f.1 f.2.1 f.2.2)
            (t.setCol cname .datetime (parsed.map (fun o =>
              match o with
              | some z => Cell.ts z
              | none => Cell.na)))

/-- `time_based_feature_extraction` (stage 4): every column whose
lowercased name contains `date` or `time` and that `pd.to_datetime` can
convert gets converted in place and yields 15 extra feature columns. -/
def time_based_feature_extraction (parseDT : String → Option ℤ) (now : ℤ)
    (t : Table) : Table :=
  let dtCols := (t.cols.filter (fun c =>
    (containsSub (lowerStr c.name) "date" || containsSub (lowerStr c.name) "time") &&
    (parseColDT parseDT c.cells).isSome)).map (·.name)
  dtCols.foldl (timeStepCol parseDT now) t

/-! ### C9: row count and column preservation -/

theorem setCol_Wf (t : Table) (n : ℕ) (m : String) (dt2 : DType) (cs : List Cell)
    (hwf : t.Wf n) (hlen : cs.length = n) : (t.setCol m dt2 cs).Wf n := by
  unfold Table.setCol
  by_cases h : t.hasCol m = true
  · rw [if_pos h]
    intro c hc
    obtain ⟨c0, hc0, rfl⟩ := List.mem_map.mp hc
    by_cases hb : (c0.name == m) = true
    · rw [if_pos hb]
      exact hlen
    · rw [if_neg hb]
      exact hwf c0 hc0
  · rw [if_neg h]
    intro c hc
    rcases List.mem_append.mp hc with hc1 | hc2
    · exact hwf c hc1
    · rw [List.mem_singleton] at hc2
      subst hc2
      exact hlen

theorem setCol_names_append (t : Table) (m : String) (dt2 : DType) (cs : List Cell) :
    ∃ e, (t.setCol m dt2 cs).names = t.names ++ e := by
  unfold Table.setCol
  by_cases h : t.hasCol m = true
  · rw [if_pos h]
    refine ⟨[], ?_⟩
    rw [List.append_nil]
    unfold Table.names
    dsimp only
    rw [List.map_map]
    apply List.map_congr_left
    intro c hc
    by_cases hcm : (c.name == m) = true
    · simp only [Function.comp_def, if_pos hcm]
      exact (beq_iff_eq.mp hcm).symm
    · simp only [Function.comp_def, if_neg hcm]
  · rw [if_neg h]
    refine ⟨[m], ?_⟩
    unfold Table.names
    dsimp only
    rw [List.map_append]
    rfl

theorem names_append_trans {t1 t2 t3 : Table}
    (h1 : ∃ e, t2.names = t1.names ++ e) (h2 : ∃ e, t3.names = t2.names ++ e) :
    ∃ e, t3.names = t1.names ++ e := by
  obtain ⟨e1, he1⟩ := h1
  obtain ⟨e2, he2⟩ := h2
  exact ⟨e1 ++ e2, by rw [he2, he1, List.append_assoc]⟩

theorem getCol_length_of_wf {t : Table} {n : ℕ} (hwf : t.Wf n) {m : String} {c : Col}
    (hc : t.getCol m = some c) : c.cells.length = n :=
  hwf c (List.mem_of_find?_eq_some hc)

theorem map2EN_length (f : ENum → ENum → ENum) (a b : List Cell) :
    (map2EN f a b).length = min a.length b.length := by
  unfold map2EN
  rw [List.length_zipWith]

theorem map1EN_length (f : ENum → ENum) (a : List Cell) :
    (map1EN f a).length = a.length := by
  unfold map1EN
  rw [List.length_map]

theorem dcStep_pres (t : Table) (n : ℕ) (c1 c2 out : String) (f : ENum → ENum → ENum)
    (hwf : t.Wf n) :
    (dcStep t c1 c2 out f).Wf n ∧ ∃ e, (dcStep t c1 c2 out f).names = t.names ++ e := by
  unfold dcStep
  cases h1 : t.getCol c1 with
  | none => exact ⟨hwf, [], by rw [List.append_nil]⟩
  | some a =>
      cases h2 : t.getCol c2 with
      | none => exact ⟨hwf, [], by rw [List.append_nil]⟩
      | some b =>
          refine ⟨setCol_Wf _ _ _ _ _ hwf ?_, setCol_names_append _ _ _ _⟩
          rw [map2EN_length, getCol_length_of_wf hwf h1, getCol_length_of_wf hwf h2]
          exact min_self n

theorem dcStep1_pres (t : Table) (n : ℕ) (c1 out : String) (f : ENum → ENum)
    (hwf : t.Wf n) :
    (dcStep1 t c1 out f).Wf n ∧ ∃ e, (dcStep1 t c1 out f).names = t.names ++ e := by
  unfold dcStep1
  cases h1 : t.getCol c1 with
  | none => exact ⟨hwf, [], by rw [List.append_nil]⟩
  | some a =>
      refine ⟨setCol_Wf _ _ _ _ _ hwf ?_, setCol_names_append _ _ _ _⟩
      rw [map1EN_length]
      exact getCol_length_of_wf hwf h1

theorem foldl_wf_names {α : Type} (n : ℕ) (step : Table → α → Table) :
    ∀ l : List α,
      (∀ (acc : Table), ∀ a ∈ l, acc.Wf n →
        (step acc a).Wf n ∧ ∃ e, (step acc a).names = acc.names ++ e) →
      ∀ acc : Table, acc.Wf n →
        (l.foldl step acc).Wf n ∧ ∃ e, (l.foldl step acc).names = acc.names ++ e := by
  intro l
  induction l with
  | nil => intro _ acc hacc; exact ⟨hacc, [], by simp⟩
  | cons a as ih =>
      intro h acc hacc
      rw [List.foldl_cons]
      obtain ⟨hw, he⟩ := h acc a (List.mem_cons_self _ _) hacc
      obtain ⟨hw2, he2⟩ := ih
        (fun acc2 a2 ha2 hacc2 => h acc2 a2 (List.mem_cons_of_mem _ ha2) hacc2)
        (step acc a) hw
      exact ⟨hw2, names_append_trans he he2⟩

/-- Stage 1 preserves the rows and only appends columns. -/
theorem stage1_pres (t : Table) (n : ℕ) (hwf : t.Wf n) :
    (derive_computed_columns t).Wf n ∧
    ∃ e, (derive_computed_columns t).names = t.names ++ e := by
  unfold derive_computed_columns
  dsimp only
  obtain ⟨w1, e1⟩ := dcStep_pres t n "purchase_amount" "shipping_cost" "total_cost"
    (fun a b => a.add b) hwf
  obtain ⟨w2, e2⟩ := dcStep_pres _ n "purchase_amount" "discount_percent"
    "discount_amount" (fun a d => roundEN 2 ((a.mul d).div (.fin 100))) w1
  obtain ⟨w3, e3⟩ := dcStep_pres _ n "total_cost" "discount_amount" "final_price"
    (fun tc da => roundEN 2 (tc.sub da)) w2
  obtain ⟨w4, e4⟩ := dcStep_pres _ n "final_price" "rating" "price_per_rating"
    (fun fp r => roundEN 2 (fp.div r)) w3
  obtain ⟨w5, e5⟩ := dcStep_pres _ n "income" "purchase_amount"
    "income_purchase_ratio" (fun inc pa => roundEN 2 ((pa.div inc).mul (.fin 100))) w4
  obtain ⟨w6, e6⟩ := dcStep1_pres _ n "age" "age_squared" (fun x => x.mul x) w5
  obtain ⟨w7, e7⟩ := dcStep_pres _ n "income" "age" "spending_power_index"
    (fun inc age => roundEN 2 ((inc.div (.fin 1000)).div age)) w6
  exact ⟨w7, names_append_trans (names_append_trans (names_append_trans
    (names_append_trans (names_append_trans (names_append_trans
      e1 e2) e3) e4) e5) e6) e7⟩

theorem oneHotFor_pres (t : Table) (n : ℕ) (cname : String) (hwf : t.Wf n) :
    (oneHotFor t cname).Wf n ∧ ∃ e, (oneHotFor t cname).names = t.names ++ e := by
  unfold oneHotFor
  cases hc : t.getCol cname with
  | none => exact ⟨hwf, [], by rw [List.append_nil]⟩
  | some c =>
      dsimp only
      constructor
      · intro c2 hc2
        rcases List.mem_append.mp hc2 with h | h
        · exact hwf c2 h
        · obtain ⟨v, hv, rfl⟩ := List.mem_map.mp h
          show (c.cells.map _).length = n
          rw [List.length_map]
          exact getCol_length_of_wf hwf hc
      · refine ⟨(distinctNonNA c.cells).map (fun v => cname ++ "_" ++ cellText v), ?_⟩
        unfold Table.names
        dsimp only
        rw [List.map_append, List.map_map]
        rfl

theorem freqStep_pres (t : Table) (n : ℕ) (m : String) (hwf : t.Wf n) :
    (freqStep t m).Wf n ∧ ∃ e, (freqStep t m).names = t.names ++ e := by
  unfold freqStep
  cases hc : t.getCol m with
  | none => exact ⟨hwf, [], by rw [List.append_nil]⟩
  | some c =>
      dsimp only
      refine ⟨setCol_Wf _ _ _ _ _ hwf ?_, setCol_names_append _ _ _ _⟩
      rw [List.length_map]
      exact getCol_length_of_wf hwf hc

/-- Stage 2 preserves the rows and only appends columns. -/
theorem stage2_pres (parseDT : String → Option ℤ) (t : Table) (n : ℕ) (hwf : t.Wf n) :
    (encode_categorical_features parseDT t).Wf n ∧
    ∃ e, (encode_categorical_features parseDT t).names = t.names ++ e := by
  unfold encode_categorical_features
  dsimp only
  have h1 : (match t.getCol "education" with
      | some c => t.setCol "education_encoded" .float (c.cells.map eduEncodeCell)
      | none => t).Wf n ∧
      ∃ e, (match t.getCol "education" with
      | some c => t.setCol "education_encoded" .float (c.cells.map eduEncodeCell)
      | none => t).names = t.names ++ e := by
    cases hc : t.getCol "education" with
    | none => exact ⟨hwf, [], by rw [List.append_nil]⟩
    | some c =>
        refine ⟨setCol_Wf _ _ _ _ _ hwf ?_, setCol_names_append _ _ _ _⟩
        rw [List.length_map]
        exact getCol_length_of_wf hwf hc
  obtain ⟨w1, e1⟩ := h1
  obtain ⟨w2, e2⟩ := oneHotFor_pres _ n "gender" w1
  obtain ⟨w3, e3⟩ := oneHotFor_pres _ n "product_category" w2
  obtain ⟨w4, e4⟩ := foldl_wf_names n freqStep (freqTargets parseDT t)
    (fun acc a _ hacc => freqStep_pres acc n a hacc) _ w3
  exact ⟨w4, names_append_trans (names_append_trans (names_append_trans
    e1 e2) e3) e4⟩

theorem binStep_pres (t : Table) (n : ℕ) (src out : String) (edges : List ENum)
    (labels : List String) (incl : Bool) (hwf : t.Wf n) :
    (binStep t src out edges labels incl).Wf n ∧
    ∃ e, (binStep t src out edges labels incl).names = t.names ++ e := by
  unfold binStep
  cases hc : t.getCol src with
  | none => exact ⟨hwf, [], by rw [List.append_nil]⟩
  | some c =>
      refine ⟨setCol_Wf _ _ _ _ _ hwf ?_, setCol_names_append _ _ _ _⟩
      rw [List.length_map]
      exact getCol_length_of_wf hwf hc

theorem binFive_pres (t : Table) (n : ℕ) (hwf : t.Wf n) :
    (binFive t).Wf n ∧ ∃ e, (binFive t).names = t.names ++ e := by
  unfold binFive
  dsimp only
  obtain ⟨w1, e1⟩ := binStep_pres t n "age" "age_group" _ _ true hwf
  obtain ⟨w2, e2⟩ := binStep_pres _ n "income" "income_bracket" _ _ false w1
  obtain ⟨w3, e3⟩ := binStep_pres _ n "purchase_amount" "purchase_category" _ _ false w2
  obtain ⟨w4, e4⟩ := binStep_pres _ n "rating" "rating_category" _ _ true w3
  obtain ⟨w5, e5⟩ := binStep_pres _ n "discount_percent" "discount_tier" _ _ true w4
  exact ⟨w5, names_append_trans (names_append_trans (names_append_trans
    (names_append_trans e1 e2) e3) e4) e5⟩

theorem qcutQuartiles_length (cells : List Cell) (cs : List Cell)
    (h : qcutQuartiles cells = .ok cs) : cs.length = cells.length := by
  unfold qcutQuartiles at h
  dsimp only at h
  by_cases hd : (dedupConsec (qcutEdges cells)).length ≠ 5
  · rw [if_pos hd] at h
    exact Except.noConfusion h
  · rw [if_neg hd] at h
    injection h with h1
    rw [← h1, List.length_map]

theorem equalWidthCut5_length (cells : List Cell) (cs : List Cell)
    (h : equalWidthCut5 cells = .ok cs) : cs.length = cells.length := by
  unfold equalWidthCut5 at h
  by_cases hinf : (cells.any fun c => c == Cell.pinf || c == Cell.ninf) = true
  · rw [if_pos hinf] at h
    exact Except.noConfusion h
  · rw [if_neg hinf] at h
    dsimp only at h
    cases hmn : (cells.filterMap Cell.asQ).min? with
    | none =>
        rw [hmn] at h
        simp at h
    | some mn =>
        cases hmx : (cells.filterMap Cell.asQ).max? with
        | none =>
            rw [hmn, hmx] at h
            simp at h
        | some mx =>
            rw [hmn, hmx] at h
            dsimp only at h
            injection h with h1
            rw [← h1, List.length_map]

/-- Stage 3 (when it returns a table) preserves the rows and only
appends columns. -/
theorem stage3_pres (t : Table) (n : ℕ) (hwf : t.Wf n) :
    ∀ t3 : Table, bin_numeric_ranges t = .ok t3 →
      t3.Wf n ∧ ∃ e, t3.names = t.names ++ e := by
  obtain ⟨w5, e5⟩ := binFive_pres t n hwf
  intro t3 h
  unfold bin_numeric_ranges at h
  dsimp only at h
  cases h6 : (binFive t).getCol "final_price" with
  | none =>
      rw [h6] at h
      dsimp only at h
      cases h7 : (binFive t).getCol "income_purchase_ratio" with
      | none =>
          rw [h7] at h
          injection h with h1
          subst h1
          exact ⟨w5, e5⟩
      | some c =>
          rw [h7] at h
          dsimp only at h
          cases hec : equalWidthCut5 c.cells with
          | error e =>
              rw [hec] at h
              simp [Except.map] at h
          | ok cs =>
              rw [hec] at h
              simp only [Except.map] at h
              injection h with h1
              subst h1
              refine ⟨setCol_Wf _ _ _ _ _ w5 ?_,
                names_append_trans e5 (setCol_names_append _ _ _ _)⟩
              rw [equalWidthCut5_length c.cells cs hec]
              exact getCol_length_of_wf w5 h7
  | some c =>
      rw [h6] at h
      dsimp only at h
      cases hqc : qcutQuartiles c.cells with
      | error e =>
          rw [hqc] at h
          simp [Except.map] at h
      | ok cs =>
          rw [hqc] at h
          simp only [Except.map] at h
          have hw6 : ((binFive t).setCol "price_quartile" DType.cat cs).Wf n := by
            apply setCol_Wf _ _ _ _ _ w5
            rw [qcutQuartiles_length c.cells cs hqc]
            exact getCol_length_of_wf w5 h6
          have he6 : ∃ e, ((binFive t).setCol "price_quartile" DType.cat cs).names
              = t.names ++ e :=
            names_append_trans e5 (setCol_names_append _ _ _ _)
          cases h7 : ((binFive t).setCol "price_quartile" DType.cat cs).getCol
              "income_purchase_ratio" with
          | none =>
              rw [h7] at h
              injection h with h1
              subst h1
              exact ⟨hw6, he6⟩
          | some c2 =>
              rw [h7] at h
              dsimp only at h
              cases hec : equalWidthCut5 c2.cells with
              | error e =>
                  rw [hec] at h
                  simp [Except.map] at h
              | ok cs2 =>
                  rw [hec] at h
                  simp only [Except.map] at h
                  injection h with h1
                  subst h1
                  refine ⟨setCol_Wf _ _ _ _ _ hw6 ?_,
                    names_append_trans he6 (setCol_names_append _ _ _ _)⟩
                  rw [equalWidthCut5_length c2.cells cs2 hec]
                  exact getCol_length_of_wf hw6 h7

theorem parseColDT_length (parseDT : String → Option ℤ) :
    ∀ (cells : List Cell) (parsed : List (Option ℤ)),
      parseColDT parseDT cells = some parsed → parsed.length = cells.length := by
  intro cells
  induction cells with
  | nil =>
      intro parsed h
      unfold parseColDT at h
      rw [List.mapM_nil] at h
      injection h with h1
      rw [← h1]
      rfl
  | cons c cs ih =>
      intro parsed h
      unfold parseColDT at h ih
      rw [List.mapM_cons] at h
      cases hb : parseCellDT parseDT c with
      | none => rw [hb] at h; simp at h
      | some b =>
          rw [hb] at h
          cases hbs : cs.mapM (parseCellDT parseDT) with
          | none => rw [hbs] at h; simp at h
          | some bs =>
              rw [hbs] at h
              simp only [Option.bind_eq_bind, Option.some_bind, Option.pure_def,
                Option.some.injEq] at h
              rw [← h, List.length_cons, List.length_cons, ih bs hbs]

theorem timeFeatures_cells_length (now : ℤ) (cname : String)
    (parsed : List (Option ℤ)) :
    ∀ f ∈ timeFeatures now cname parsed, f.2.2.length = parsed.length := by
  intro f hf
  simp only [timeFeatures, List.mem_cons, List.not_mem_nil, or_false] at hf
  rcases hf with rfl|rfl|rfl|rfl|rfl|rfl|rfl|rfl|rfl|rfl|rfl|rfl|rfl|rfl|rfl <;>
    simp [dtFeature, dtFeatureB, dtSeason]

theorem timeStepCol_pres (parseDT : String → Option ℤ) (now : ℤ) (t : Table)
    (n : ℕ) (cname : String) (hwf : t.Wf n) :
    (timeStepCol parseDT now t cname).Wf n ∧
    ∃ e, (timeStepCol parseDT now t cname).names = t.names ++ e := by
  unfold timeStepCol
  cases hc : t.getCol cname with
  | none => exact ⟨hwf, [], by rw [List.append_nil]⟩
  | some c =>
      dsimp only
      cases hp : parseColDT parseDT c.cells with
      | none => exact ⟨hwf, [], by rw [List.append_nil]⟩
      | some parsed =>
          have hplen : parsed.length = n := by
            rw [parseColDT_length parseDT c.cells parsed hp]
            exact getCol_length_of_wf hwf hc
          have hconv := setCol_Wf t n cname .datetime (parsed.map (fun o =>
            match o with
            | some z => Cell.ts z
            | none => Cell.na)) hwf (by rw [List.length_map]; exact hplen)
          obtain ⟨hw, he⟩ := foldl_wf_names n (fun acc f => acc.setCol f.1 f.2.1 f.2.2)
            (timeFeatures now cname parsed)
            (fun acc f hf hacc =>
              ⟨setCol_Wf _ _ _ _ _ hacc
                (by rw [timeFeatures_cells_length now cname parsed f hf]; exact hplen),
               setCol_names_append _ _ _ _⟩)
            _ hconv
          exact ⟨hw, names_append_trans (setCol_names_append _ _ _ _) he⟩

/-- Stage 4 preserves the rows and only appends columns. -/
theorem stage4_pres (parseDT : String → Option ℤ) (now : ℤ) (t : Table) (n : ℕ)
    (hwf : t.Wf n) :
    (time_based_feature_extraction parseDT now t).Wf n ∧
    ∃ e, (time_based_feature_extraction parseDT now t).names = t.names ++ e := by
  unfold time_based_feature_extraction
  dsimp only
  exact foldl_wf_names n (timeStepCol parseDT now) _
    (fun acc a _ hacc => timeStepCol_pres parseDT now acc n a hacc) t hwf

theorem flagStep_Wf (acc : Table) (n : ℕ) (s : String) (hwf : acc.Wf n) :
    (flagStep acc s).Wf n := by
  unfold flagStep
  cases hc : acc.getCol s with
  | none => exact hwf
  | some c =>
      have hlen := getCol_length_of_wf hwf hc
      refine setCol_Wf _ _ _ _ _ (setCol_Wf _ _ _ _ _ (setCol_Wf _ _ _ _ _ hwf ?_) ?_) ?_
      · rw [zscoreFlags_length]; exact hlen
      · rw [iqrFlags_length]; exact hlen
      · rw [combineFlags_length, zscoreFlags_length, iqrFlags_length, hlen]
        exact min_self n

theorem flagStep_names (acc : Table) (s : String) :
    ∃ e, (flagStep acc s).names = acc.names ++ e := by
  unfold flagStep
  cases hc : acc.getCol s with
  | none => exact ⟨[], by rw [List.append_nil]⟩
  | some c =>
      exact names_append_trans (names_append_trans
        (setCol_names_append _ _ _ _) (setCol_names_append _ _ _ _))
        (setCol_names_append _ _ _ _)

theorem setCol_cols_ne_nil (t : Table) (m : String) (dt2 : DType) (cs : List Cell) :
    (t.setCol m dt2 cs).cols ≠ [] := by
  unfold Table.setCol
  by_cases h : t.hasCol m = true
  · rw [if_pos h]
    intro hnil
    have h2 : t.cols = [] := List.map_eq_nil.mp hnil
    unfold Table.hasCol at h
    rw [h2] at h
    simp at h
  · rw [if_neg h]
    simp

theorem foldl_flagStep_ne_nil (sel : List String) :
    ∀ acc : Table, acc.cols ≠ [] → ((sel.foldl flagStep acc).cols) ≠ [] := by
  induction sel with
  | nil => intro acc h; exact h
  | cons s rest ih =>
      intro acc h
      rw [List.foldl_cons]
      apply ih
      unfold flagStep
      cases hc : acc.getCol s with
      | none => exact h
      | some c => exact setCol_cols_ne_nil _ _ _ _

theorem rowCount_of_wf {t : Table} {n : ℕ} (hwf : t.Wf n) (hne : t.cols ≠ []) :
    rowCount t = n := by
  unfold rowCount
  cases hc : t.cols with
  | nil => exact absurd hc hne
  | cons c cs =>
      have hm : c ∈ t.cols := by rw [hc]; exact List.mem_cons_self _ _
      show c.cells.length = n
      exact hwf c hm

/-- Stage 5 preserves the rows and only appends columns. -/
theorem stage5_pres (t : Table) (n : ℕ) (hwf : t.Wf n) (hrc : rowCount t = n) :
    (flag_anomalies_column t).Wf n ∧
    ∃ e, (flag_anomalies_column t).names = t.names ++ e := by
  unfold flag_anomalies_column
  dsimp only
  obtain ⟨ht1wf, ht1names⟩ := foldl_wf_names n flagStep (selectAnomalyCols t)
    (fun acc a _ hacc => ⟨flagStep_Wf acc n a hacc, flagStep_names acc a⟩) t hwf
  have hrc1 : rowCount ((selectAnomalyCols t).foldl flagStep t) = n := by
    cases hc : t.cols with
    | nil =>
        have hid : ∀ sel : List String, sel.foldl flagStep t = t := by
          intro sel
          induction sel with
          | nil => rfl
          | cons s rest ih2 =>
              rw [List.foldl_cons]
              have hg : t.getCol s = none := by
                unfold Table.getCol
                rw [hc]
                rfl
              unfold flagStep
              rw [hg]
              exact ih2
        rw [hid]
        exact hrc
    | cons c cs =>
        exact rowCount_of_wf ht1wf (foldl_flagStep_ne_nil _ t (by rw [hc]; simp))
  have hslen : (scoreCellsOf ((selectAnomalyCols t).foldl flagStep t)).length = n := by
    unfold scoreCellsOf
    rw [List.length_map, List.length_range, hrc1]
  have halen : (hasAnyCellsOf ((selectAnomalyCols t).foldl flagStep t)).length = n := by
    unfold hasAnyCellsOf
    rw [List.length_map]
    exact hslen
  exact ⟨setCol_Wf _ _ _ _ _ (setCol_Wf _ _ _ _ _ ht1wf hslen) halen,
    names_append_trans ht1names (names_append_trans
      (setCol_names_append _ _ _ _) (setCol_names_append _ _ _ _))⟩

/-- C9.  Every one of the five stages maps a table whose columns all
have `n` cells to a table whose columns all have `n` cells (the row
count is preserved), and the output's column-name list is the input's
list with zero or more new names appended — no existing column is
removed, renamed or reordered.  Stage 3 returns a table inside
`Except`; the property holds for whatever table it returns. -/
theorem C9_stages_preserve (parseDT : String → Option ℤ) (now : ℤ)
    (t : Table) (n : ℕ) (hwf : t.Wf n) (hrc : rowCount t = n) :
    ((derive_computed_columns t).Wf n ∧
      ∃ e1, (derive_computed_columns t).names = t.names ++ e1) ∧
    ((encode_categorical_features parseDT t).Wf n ∧
      ∃ e2, (encode_categorical_features parseDT t).names = t.names ++ e2) ∧
    (∀ t3 : Table, bin_numeric_ranges t = .ok t3 →
      t3.Wf n ∧ ∃ e3, t3.names = t.names ++ e3) ∧
    ((time_based_feature_extraction parseDT now t).Wf n ∧
      ∃ e4, (time_based_feature_extraction parseDT now t).names = t.names ++ e4) ∧
    ((flag_anomalies_column t).Wf n ∧
      ∃ e5, (flag_anomalies_column t).names = t.names ++ e5) :=
  ⟨stage1_pres t n hwf, stage2_pres parseDT t n hwf, stage3_pres t n hwf,
   stage4_pres parseDT now t n hwf, stage5_pres t n hwf hrc⟩

/-- Concrete table for the C9 witness. -/
def w9Table : Table :=
  ⟨[⟨"age", .float, [.num 30]⟩]⟩

/-- Witness for C9 at a concrete input (stage 3 instantiated at its
concrete successful result). -/
theorem C9_stages_preserve_witness :
    ((derive_computed_columns w9Table).Wf 1 ∧
      ∃ e1, (derive_computed_columns w9Table).names = w9Table.names ++ e1) ∧
    ((encode_categorical_features (fun _ => none) w9Table).Wf 1 ∧
      ∃ e2, (encode_categorical_features (fun _ => none) w9Table).names
        = w9Table.names ++ e2) ∧
    ((binFive w9Table).Wf 1 ∧
      ∃ e3, (binFive w9Table).names = w9Table.names ++ e3) ∧
    ((time_based_feature_extraction (fun _ => none) 0 w9Table).Wf 1 ∧
      ∃ e4, (time_based_feature_extraction (fun _ => none) 0 w9Table).names
        = w9Table.names ++ e4) ∧
    ((flag_anomalies_column w9Table).Wf 1 ∧
      ∃ e5, (flag_anomalies_column w9Table).names = w9Table.names ++ e5) := by
  obtain ⟨h1, h2, h3, h4, h5⟩ := C9_stages_preserve (fun _ => none) 0 w9Table 1
    (by unfold Table.Wf; decide) rfl
  exact ⟨h1, h2, h3 (binFive w9Table) rfl, h4, h5⟩
